import Mathlib

/-!
# protoc-gen-validate: rule resolution, resource validation and the resource index

A shallow embedding of `templates/shared/context.go` and
`module/gencontext/gencontext.go`.

Conventions of the embedding.

* Go strings that are only compared (kind tags, field names, resource type
  identifiers) are `String`; Go strings that are built or indexed character by
  character (resource patterns, the synthesized regular expression) are
  `List Char`.  The only characters the code compares against are ASCII, so
  indexing by character and indexing by byte agree on valid UTF-8.
* Functions that mutate an argument through a pointer return the new value of
  that argument.
* Rule messages are values.  `Extension` copies the stored option into its
  argument, and the copy shares the `Type` of the option with it: where the
  code writes through that shared pointer (makeValidationIgnoreEmpty on the
  rules of the name field of a resource, the assignment of `Items` in repeated
  rules of the referencing field), the function returns the field after the
  write, and `rulesContextCall` returns the index and the field for the next
  call.  A descriptor returned by an earlier call is a value as well: it shows
  the rules as they were when the call returned.
* A Go runtime panic (nil dereference, index out of range) is the result
  `none` of a function returning `Option`.  An `error` result is a value of
  `Option Err` next to the other results.
-/

set_option autoImplicit false

namespace PGV

/-! ## The `validate` rule messages -/

/-- MessageRules: message-level constraints of a field (`skip`, `required`). -/
structure MessageRules where
  skip : Option Bool
  required : Option Bool
  deriving DecidableEq, Repr

/-- Constraint data of a numeric rule message (FloatRules, DoubleRules,
Int32Rules, ..., SFixed64Rules).  The code never reads or writes it; the fields
are kept as encoded data. -/
structure NumericRules where
  ignoreEmpty : Option Bool
  constraints : List Nat
  deriving DecidableEq, Repr

/-- Constraint data of BoolRules, EnumRules, AnyRules, DurationRules and
TimestampRules, none of which the code reads or writes. -/
structure OtherRules where
  constraints : List Nat
  deriving DecidableEq, Repr

/-- StringRules: the code sets `Pattern` and `IgnoreEmpty`; the remaining
constraints are kept as encoded data. -/
structure StringRules where
  pattern : Option (List Char)
  ignoreEmpty : Option Bool
  constraints : List Nat
  deriving DecidableEq, Repr

/-- BytesRules: the code sets `IgnoreEmpty`. -/
structure BytesRules where
  ignoreEmpty : Option Bool
  constraints : List Nat
  deriving DecidableEq, Repr

mutual
/-- FieldRules: the message-level constraints and the `Type` oneof. -/
inductive FieldRules where
  | mk (message : Option MessageRules) (type : RulesType)
/-- The `Type` oneof of FieldRules (the interface `isFieldRules_Type`): `absent`
is the nil interface, the next 21 constructors are the wrapper types the code
switches on, and `unknown` is a value of any other dynamic type. -/
inductive RulesType where
  | absent
  | float (r : NumericRules)
  | double (r : NumericRules)
  | int32 (r : NumericRules)
  | int64 (r : NumericRules)
  | uint32 (r : NumericRules)
  | uint64 (r : NumericRules)
  | sint32 (r : NumericRules)
  | sint64 (r : NumericRules)
  | fixed32 (r : NumericRules)
  | fixed64 (r : NumericRules)
  | sfixed32 (r : NumericRules)
  | sfixed64 (r : NumericRules)
  | bool (r : OtherRules)
  | string (r : StringRules)
  | bytes (r : BytesRules)
  | enum (r : OtherRules)
  | repeated (r : RepeatedRules)
  | map (r : MapRules)
  | any (r : OtherRules)
  | duration (r : OtherRules)
  | timestamp (r : OtherRules)
  | unknown (tag : Nat)
/-- RepeatedRules: item-count bounds, uniqueness, the per-item rules and the
ignore-empty flag. -/
inductive RepeatedRules where
  | mk (minItems maxItems : Option Nat) (unique : Option Bool)
      (items : FieldRulesPtr) (ignoreEmpty : Option Bool)
/-- MapRules: pair-count bounds, sparseness, key and value rules and the
ignore-empty flag. -/
inductive MapRules where
  | mk (minPairs maxPairs : Option Nat) (noSparse : Option Bool)
      (keys values : FieldRulesPtr) (ignoreEmpty : Option Bool)
/-- A `*FieldRules` that may be nil. -/
inductive FieldRulesPtr where
  | nil
  | ptr (r : FieldRules)
end

deriving instance DecidableEq for FieldRules, RulesType, RepeatedRules, MapRules, FieldRulesPtr

/-- An empty FieldRules message, `&validate.FieldRules{}`. -/
def emptyRules : FieldRules := .mk none .absent

/-- An empty RepeatedRules message, `&validate.RepeatedRules{}`. -/
def emptyRepeatedRules : RepeatedRules := .mk none none none .nil none

/-- An empty MapRules message, `&validate.MapRules{}`. -/
def emptyMapRules : MapRules := .mk none none none .nil .nil none

/-- Field `Message` of a FieldRules value. -/
def FieldRules.message : FieldRules → Option MessageRules
  | .mk m _ => m

/-- Field `Type` of a FieldRules value. -/
def FieldRules.type : FieldRules → RulesType
  | .mk _ t => t

/-- Getter `GetType`, which is nil-safe. -/
def FieldRulesPtr.GetType : FieldRulesPtr → RulesType
  | .nil => .absent
  | .ptr r => r.type

/-- Getter `GetMessage`, which is nil-safe. -/
def FieldRulesPtr.GetMessage : FieldRulesPtr → Option MessageRules
  | .nil => none
  | .ptr r => r.message

/-- Field access `rules.Message`, a nil dereference on a nil pointer. -/
def FieldRulesPtr.Message : FieldRulesPtr → Option (Option MessageRules)
  | .nil => none
  | .ptr r => some r.message

/-- Getter `GetKeys` of MapRules. -/
def MapRules.GetKeys : MapRules → FieldRulesPtr
  | .mk _ _ _ k _ _ => k

/-- Getter `GetValues` of MapRules. -/
def MapRules.GetValues : MapRules → FieldRulesPtr
  | .mk _ _ _ _ v _ => v

/-- Getter `GetItems` of RepeatedRules. -/
def RepeatedRules.GetItems : RepeatedRules → FieldRulesPtr
  | .mk _ _ _ i _ => i

/-- Field `MinItems` of RepeatedRules. -/
def RepeatedRules.minItems : RepeatedRules → Option Nat
  | .mk a _ _ _ _ => a

/-- Field `MaxItems` of RepeatedRules. -/
def RepeatedRules.maxItems : RepeatedRules → Option Nat
  | .mk _ a _ _ _ => a

/-- Field `Unique` of RepeatedRules. -/
def RepeatedRules.unique : RepeatedRules → Option Bool
  | .mk _ _ a _ _ => a

/-- Field `IgnoreEmpty` of RepeatedRules. -/
def RepeatedRules.ignoreEmpty : RepeatedRules → Option Bool
  | .mk _ _ _ _ a => a

/-- The assignment `t.Repeated.Items = v`. -/
def RepeatedRules.setItems : RepeatedRules → FieldRulesPtr → RepeatedRules
  | .mk a b c _ e, v => .mk a b c v e

/-- A `proto.Message` interface value as stored in `RuleContext.Rules`: nil, a
pointer to one of the rule messages, or a `*MessageRules` (which may itself be
a nil pointer). -/
inductive ProtoMessage where
  | nil
  | floatRules (r : NumericRules)
  | doubleRules (r : NumericRules)
  | int32Rules (r : NumericRules)
  | int64Rules (r : NumericRules)
  | uint32Rules (r : NumericRules)
  | uint64Rules (r : NumericRules)
  | sint32Rules (r : NumericRules)
  | sint64Rules (r : NumericRules)
  | fixed32Rules (r : NumericRules)
  | fixed64Rules (r : NumericRules)
  | sfixed32Rules (r : NumericRules)
  | sfixed64Rules (r : NumericRules)
  | boolRules (r : OtherRules)
  | stringRules (r : StringRules)
  | bytesRules (r : BytesRules)
  | enumRules (r : OtherRules)
  | repeatedRules (r : RepeatedRules)
  | mapRules (r : MapRules)
  | anyRules (r : OtherRules)
  | durationRules (r : OtherRules)
  | timestampRules (r : OtherRules)
  | messageRules (m : Option MessageRules)
  deriving DecidableEq

/-! ## The schema as seen through `pgs` and the `annotations` messages -/

/-- ResourceDescriptor: the fields of `google.api.resource` the code reads. -/
structure ResourceDescriptor where
  type : String
  pattern : List (List Char)
  nameField : String
  deriving DecidableEq, Repr

/-- ResourceReference: the `google.api.resource_reference` option. -/
structure ResourceReference where
  type : String
  childType : String
  deriving DecidableEq, Repr

/-- Result of a `pgs` `Extension` lookup: an error, `ok = false`, or
`ok = true` with the decoded value. -/
inductive Ext (α : Type) where
  | failed (msg : String)
  | absent
  | present (a : α)
  deriving DecidableEq

/-- A `pgs.FieldTypeElem` (key or element type of a map or repeated field):
the one method the code calls on it. -/
structure FieldTypeElem where
  isEmbed : Bool
  deriving DecidableEq, Repr

/-- A `pgs.FieldType`: the results of the methods the code calls.  `Element()`
and `Key()` return a nil interface for types that have none. -/
structure FieldType where
  isRepeated : Bool
  isMap : Bool
  isEmbed : Bool
  element : Option FieldTypeElem
  key : Option FieldTypeElem
  deriving DecidableEq, Repr

/-- The argument `typ interface{ IsEmbed() bool }` of resolveRules, when it is
not nil: a value whose dynamic type implements `pgs.FieldType`, or one that
does not (a key or element type). -/
inductive Typ where
  | fieldType (ft : FieldType)
  | elem (e : FieldTypeElem)
  deriving DecidableEq, Repr

/-- Method `IsEmbed` of a non-nil `typ`. -/
def Typ.isEmbed : Typ → Bool
  | .fieldType ft => ft.isEmbed
  | .elem e => e.isEmbed

/-- The call `typ.IsEmbed()`, a nil dereference on the nil interface. -/
def IsEmbed : Option Typ → Option Bool
  | none => none
  | some t => some t.isEmbed

/-- A `pgs.Field`: its name, its type, its `validate.rules` and
`google.api.resource_reference` options, and the `google.api.resource` option
of the message that owns it (`f.Message().Extension(...)`). -/
structure Field where
  name : String
  typ : FieldType
  rules : Ext FieldRules
  resourceReference : Ext ResourceReference
  messageResource : Ext ResourceDescriptor
  deriving DecidableEq

/-- A `pgs.Message`: its name, its `google.api.resource` option and its own
fields in declaration order. -/
structure Message where
  name : String
  resource : Ext ResourceDescriptor
  fields : List Field
  deriving DecidableEq

/-- Errors returned by the code. -/
inductive Err where
  | extension (msg : String)
  | unknownRuleType
  | cannotGetKey
  | cannotGetElem
  | cannotUnwrap (typ : String)
  | noNameField
  deriving DecidableEq, Repr

/-! ## `module/gencontext/gencontext.go` -/

/-- The struct `resource`: owning message, resource descriptor and name field. -/
structure Resource where
  msg : Message
  desc : ResourceDescriptor
  nameField : Field
  deriving DecidableEq

/-- The struct `genCtx`: the Go map `resources`, from resource type identifier
to resource. -/
structure GenCtx where
  resources : String → Option Resource

/-- The map made by `make(map[string]*resource)`. -/
def GenCtx.empty : GenCtx := ⟨fun _ => none⟩

/-- The assignment `g.resources[key] = r`. -/
def GenCtx.set (g : GenCtx) (key : String) (r : Resource) : GenCtx :=
  ⟨fun k => if k = key then some r else g.resources k⟩

/-- The method SearchResourceReference. -/
def SearchResourceReference (g : GenCtx) (f : Field) : Option Resource :=
  match f.resourceReference with
  | .present ref => g.resources ref.type
  | _ => none

/-- The loop of VisitMessage over `msg.Fields()`: the first field whose name is
`nameField`, or nil. -/
def findNameField (nameField : String) : List Field → Option Field
  | [] => none
  | field :: rest => if field.name = nameField then some field else findNameField nameField rest

/-- Results of VisitMessage: the receiver after the call, whether the visitor
returned is non-nil (it is then the receiver), and the error. -/
structure Visit where
  g : GenCtx
  visitor : Bool
  err : Option Err

/-- The method VisitMessage. -/
def VisitMessage (g : GenCtx) (msg : Message) : Visit :=
  match msg.resource with
  | .failed e => ⟨g, true, some (.extension e)⟩
  | .absent => ⟨g, true, none⟩
  | .present res =>
    let nameField := if res.nameField ≠ "" then res.nameField else "name"
    match findNameField nameField msg.fields with
    | none => ⟨g, false, some .noNameField⟩
    | some field => ⟨g.set res.type ⟨msg, res, field⟩, true, none⟩

/-- The call `pgs.Walk(g, pkg)` as far as VisitMessage is concerned (the other
visitor methods pass through).  A package is given as the sequence of its
messages in the order the walk reaches them; the walk stops at the first
message whose visit returns an error and returns that error. -/
def Walk (g : GenCtx) : List Message → GenCtx × Option Err
  | [] => (g, none)
  | msg :: rest =>
    let v := VisitMessage g msg
    match v.err with
    | some e => (v.g, some e)
    | none => Walk v.g rest

/-- The function New: the packages are walked one after the other, in the
order the Go map iteration yields them, and the result of each walk is
discarded. -/
def New (pkgs : List (List Message)) : GenCtx :=
  pkgs.foldl (fun g pkg => (Walk g pkg).1) GenCtx.empty

/-! ## `templates/shared/context.go` -/

/-- The four results of resolveRules. -/
structure Resolved where
  ruleType : String
  rule : ProtoMessage
  messageRule : Option MessageRules
  wrapped : Bool
  deriving DecidableEq

/-- The function resolveRules.  `none` is a runtime panic. -/
def resolveRules (typ : Option Typ) (rules : FieldRulesPtr) : Option Resolved :=
  let finish (ruleType : String) (rule : ProtoMessage) (wrapped : Bool) : Option Resolved :=
    rules.Message.map fun m => ⟨ruleType, rule, m, wrapped⟩
  let embed (ruleType : String) (rule : ProtoMessage) : Option Resolved :=
    (IsEmbed typ).bind fun w => finish ruleType rule w
  match rules.GetType with
  | .float r => embed "float" (.floatRules r)
  | .double r => embed "double" (.doubleRules r)
  | .int32 r => embed "int32" (.int32Rules r)
  | .int64 r => embed "int64" (.int64Rules r)
  | .uint32 r => embed "uint32" (.uint32Rules r)
  | .uint64 r => embed "uint64" (.uint64Rules r)
  | .sint32 r => finish "sint32" (.sint32Rules r) false
  | .sint64 r => finish "sint64" (.sint64Rules r) false
  | .fixed32 r => finish "fixed32" (.fixed32Rules r) false
  | .fixed64 r => finish "fixed64" (.fixed64Rules r) false
  | .sfixed32 r => finish "sfixed32" (.sfixed32Rules r) false
  | .sfixed64 r => finish "sfixed64" (.sfixed64Rules r) false
  | .bool r => embed "bool" (.boolRules r)
  | .string r => embed "string" (.stringRules r)
  | .bytes r => embed "bytes" (.bytesRules r)
  | .enum r => finish "enum" (.enumRules r) false
  | .repeated r => finish "repeated" (.repeatedRules r) false
  | .map r => finish "map" (.mapRules r) false
  | .any r => finish "any" (.anyRules r) false
  | .duration r => finish "duration" (.durationRules r) false
  | .timestamp r => finish "timestamp" (.timestampRules r) false
  | .absent =>
    let rest : Option Resolved :=
      (IsEmbed typ).map fun e =>
        if e then ⟨"message", .messageRules rules.GetMessage, rules.GetMessage, false⟩
        else ⟨"none", .nil, none, false⟩
    match typ with
    | some (.fieldType ft) =>
      if ft.isRepeated then
        rules.Message.map fun m => ⟨"repeated", .repeatedRules emptyRepeatedRules, m, false⟩
      else if ft.isMap then
        match ft.element with
        | none => none
        | some el =>
          if el.isEmbed then
            rules.Message.map fun m => ⟨"map", .mapRules emptyMapRules, m, false⟩
          else rest
      else rest
    | _ => rest
  | .unknown _ => finish "error" .nil false

/-- The struct RuleContext. -/
structure RuleContext where
  field : Option Field
  rules : ProtoMessage
  messageRules : Option MessageRules
  typ : String
  wrapperTyp : String
  onKey : Bool
  index : String
  accessorOverride : String
  deriving DecidableEq

/-- The zero value of RuleContext. -/
def RuleContext.zero : RuleContext := ⟨none, .nil, none, "", "", false, "", ""⟩

/-- The call `strings.Split(s, "/")`. -/
def splitSlash : List Char → List (List Char)
  | [] => [[]]
  | c :: cs =>
    if c = '/' then [] :: splitSlash cs
    else
      match splitSlash cs with
      | [] => [[c]]
      | s :: ss => (c :: s) :: ss

/-- The inner loop of basicResourceValidation over the elements of one split
pattern: `len` is `len(split)`, the first argument the index `j`, the last the
contents of the builder.  Indexing an empty element panics. -/
def writeElems (len : Nat) : Nat → List (List Char) → List Char → Option (List Char)
  | _, [], regex => some regex
  | j, elem :: rest, regex =>
    match elem.head?, elem.getLast? with
    | some first, some last =>
      let regex := if first = '\x7b' ∧ last = '\x7d' then regex ++ "[^/]+".toList else regex ++ elem
      let regex := if j ≠ len - 1 then regex ++ ['/'] else regex
      writeElems len (j + 1) rest regex
    | _, _ => none

/-- The outer loop of basicResourceValidation over the patterns: `len` is
`len(patterns)`, the first argument the index `i`. -/
def writePatterns (len : Nat) : Nat → List (List Char) → List Char → Option (List Char)
  | _, [], regex => some regex
  | i, pattern :: rest, regex =>
    let regex := regex ++ "\\A".toList
    let split := splitSlash pattern
    match writeElems split.length 0 split regex with
    | none => none
    | some regex =>
      let regex := if i ≠ len - 1 then regex ++ "\\z|".toList else regex ++ "\\z".toList
      writePatterns len (i + 1) rest regex

/-- The function basicResourceValidation.  `none` is a runtime panic. -/
def basicResourceValidation (resourceDesc : ResourceDescriptor) : Option StringRules :=
  let patterns := resourceDesc.pattern
  match writePatterns patterns.length 0 patterns "^(".toList with
  | none => none
  | some regex => some ⟨some (regex ++ ")$".toList), some true, []⟩

/-- The function resourceNameField. -/
def resourceNameField (s : String) : String :=
  if s = "" then "name" else s

/-- The function makeValidationIgnoreEmpty; the result is the message its
argument points to after the call. -/
def makeValidationIgnoreEmpty (rules : FieldRules) : FieldRules :=
  match rules with
  | .mk m (.string r) => .mk m (.string ⟨r.pattern, some true, r.constraints⟩)
  | .mk m (.bytes r) => .mk m (.bytes ⟨some true, r.constraints⟩)
  | r => r

/-- The field with its `validate.rules` option replaced: the field after a
write through a pointer into that option. -/
def Field.withRules (f : Field) (rules : Ext FieldRules) : Field :=
  ⟨f.name, f.typ, rules, f.resourceReference, f.messageResource⟩

/-- The function mergeResourceValidation.  The results are the error, the
message `rules` points to after the call, and `resource` after the call.
`resValidation` is filled by `Extension` with a copy of the option of `resource`
that shares the `Type` of the option, so the write of makeValidationIgnoreEmpty
goes into the option of `resource`; a synthesized `resValidation` shares
nothing.  `none` is a runtime panic. -/
def mergeResourceValidation (base : Field) (resource : Field) (resourceDesc : ResourceDescriptor)
    (rules : FieldRules) : Option (Option Err × FieldRules × Field) :=
  let resValidation : Option (Except Err FieldRules) :=
    match resource.rules with
    | .failed e => some (.error (.extension e))
    | .present r => some (.ok r)
    | .absent => (basicResourceValidation resourceDesc).map fun s => .ok (.mk none (.string s))
  match resValidation with
  | none => none
  | some (.error e) => some (some e, rules, resource)
  | some (.ok resValidation) =>
    let rules : FieldRules :=
      if rules = emptyRules ∧ base.typ.isRepeated = true then
        .mk rules.message (.repeated emptyRepeatedRules)
      else rules
    match rules.type with
    | .repeated t =>
      some (none, .mk rules.message (.repeated (t.setItems (.ptr resValidation))), resource)
    | _ =>
      let resValidation := makeValidationIgnoreEmpty resValidation
      let resource : Field :=
        match resource.rules with
        | .present _ => resource.withRules (.present resValidation)
        | _ => resource
      some (none, .mk rules.message resValidation.type, resource)

/-- The index after a write into the options of the name field of the resource
that `f` references: the entry found by SearchResourceReference holds the name
field as it is after the write, and so does the field list of its message. -/
def GenCtx.withNameField (g : GenCtx) (f : Field) (nameField : Field) : GenCtx :=
  match f.resourceReference with
  | .present ref =>
    match g.resources ref.type with
    | some r =>
      g.set ref.type
        ⟨⟨r.msg.name, r.msg.resource,
            r.msg.fields.map fun x => if x = r.nameField then nameField else x⟩,
          r.desc, nameField⟩
    | none => g
  | _ => g

/-- What a call of the closure returned by rulesContext leaves: the results `out`
and `err`, the index with the name field of the referenced resource as the merge
leaves it, and the field with its own `validate.rules` option as the merge leaves
it. -/
structure ContextCall where
  out : RuleContext
  err : Option Err
  genCtx : GenCtx
  field : Field

/-- A call of the closure returned by rulesContext, for the resource index `genCtx`
and the field `f`.  `rules` is filled by `Extension` with a copy of the option of
`f` that shares the `Type` of the option, so the items that the merge installs in
repeated rules read from the option are installed in the option.  `none` is a
runtime panic. -/
def rulesContextCall (genCtx : GenCtx) (f : Field) : Option ContextCall :=
  let out : RuleContext := ⟨some f, .nil, none, "", "", false, "", ""⟩
  let rules : Option (Except Err FieldRules) :=
    match f.rules with
    | .failed e => some (.error (.extension e))
    | .present r => some (.ok r)
    | .absent =>
      match f.messageResource with
      | .failed e => some (.error (.extension e))
      | .absent => some (.ok emptyRules)
      | .present resourceDesc =>
        if f.name = resourceNameField resourceDesc.nameField then
          (basicResourceValidation resourceDesc).map fun s => .ok (.mk none (.string s))
        else some (.ok emptyRules)
  match rules with
  | none => none
  | some (.error e) => some ⟨out, some e, genCtx, f⟩
  | some (.ok rules) =>
    let merged : Option (Option Err × FieldRules × GenCtx × Field) :=
      match SearchResourceReference genCtx f with
      | some resource =>
        match mergeResourceValidation f resource.nameField resource.desc rules with
        | none => none
        | some (err, rules, nameField) =>
          let field : Field :=
            match err, f.rules with
            | none, .present (.mk _ (.repeated _)) => f.withRules (.present rules)
            | _, _ => f
          some (err, rules, genCtx.withNameField f nameField, field)
      | none => some (none, rules, genCtx, f)
    match merged with
    | none => none
    | some (some e, _, genCtx, field) => some ⟨out, some e, genCtx, field⟩
    | some (none, rules, genCtx, field) =>
      match resolveRules (some (.fieldType f.typ)) (.ptr rules) with
      | none => none
      | some r =>
        let out : RuleContext :=
          if r.wrapped then ⟨some f, r.rule, r.messageRule, "wrapper", r.ruleType, false, "", ""⟩
          else ⟨some f, r.rule, r.messageRule, r.ruleType, "", false, "", ""⟩
        some ⟨out, if out.typ = "error" then some .unknownRuleType else none, genCtx, field⟩

/-- The results `out` and `err` of a call of the closure returned by
rulesContext.  `none` is a runtime panic. -/
def rulesContext (genCtx : GenCtx) (f : Field) : Option (RuleContext × Option Err) :=
  (rulesContextCall genCtx f).map fun c => (c.out, c.err)

/-- The method Key.  `none` is a runtime panic. -/
def RuleContext.Key (ctx : RuleContext) (name idx : String) : Option (RuleContext × Option Err) :=
  match ctx.rules with
  | .mapRules rules =>
    match ctx.field with
    | none => none
    | some field =>
      match resolveRules (field.typ.key.map Typ.elem) rules.GetKeys with
      | none => none
      | some r =>
        let out : RuleContext := ⟨some field, r.rule, r.messageRule, r.ruleType, "", false, idx, name⟩
        some (out, if out.typ = "error" then some .unknownRuleType else none)
  | _ => some (RuleContext.zero, some .cannotGetKey)

/-- The method Elem.  `none` is a runtime panic. -/
def RuleContext.Elem (ctx : RuleContext) (name idx : String) : Option (RuleContext × Option Err) :=
  let rules : Option FieldRulesPtr :=
    match ctx.rules with
    | .mapRules r => some r.GetValues
    | .repeatedRules r => some r.GetItems
    | _ => none
  match rules with
  | none => some (⟨ctx.field, .nil, none, "", "", false, idx, name⟩, some .cannotGetElem)
  | some rules =>
    match ctx.field with
    | none => none
    | some field =>
      match resolveRules (field.typ.element.map Typ.elem) rules with
      | none => none
      | some r =>
        let out : RuleContext :=
          if r.wrapped then ⟨ctx.field, r.rule, r.messageRule, "wrapper", r.ruleType, false, idx, name⟩
          else ⟨ctx.field, r.rule, r.messageRule, r.ruleType, "", false, idx, name⟩
        some (out, if out.typ = "error" then some .unknownRuleType else none)

/-- The method Unwrap. -/
def RuleContext.Unwrap (ctx : RuleContext) (name : String) : RuleContext × Option Err :=
  if ctx.typ ≠ "wrapper" then (RuleContext.zero, some (.cannotUnwrap ctx.typ))
  else (⟨ctx.field, ctx.rules, ctx.messageRules, ctx.wrapperTyp, "", false, "", name⟩, none)

/-! ## Definitions used to state the properties -/

/-- The scalar kinds that have a wrapper-message representation (float, double,
int32, int64, uint32, uint64, bool, string, bytes): for a payload that names
one of them, the kind name and the constraint data. -/
def wrappable : RulesType → Option (String × ProtoMessage)
  | .float r => some ("float", .floatRules r)
  | .double r => some ("double", .doubleRules r)
  | .int32 r => some ("int32", .int32Rules r)
  | .int64 r => some ("int64", .int64Rules r)
  | .uint32 r => some ("uint32", .uint32Rules r)
  | .uint64 r => some ("uint64", .uint64Rules r)
  | .bool r => some ("bool", .boolRules r)
  | .string r => some ("string", .stringRules r)
  | .bytes r => some ("bytes", .bytesRules r)
  | _ => none

/-- The kind name of constraint data of one of the nine wrappable scalar
kinds. -/
def ProtoMessage.scalarKind : ProtoMessage → Option String
  | .floatRules _ => some "float"
  | .doubleRules _ => some "double"
  | .int32Rules _ => some "int32"
  | .int64Rules _ => some "int64"
  | .uint32Rules _ => some "uint32"
  | .uint64Rules _ => some "uint64"
  | .boolRules _ => some "bool"
  | .stringRules _ => some "string"
  | .bytesRules _ => some "bytes"
  | _ => none

/-- Whether a target type shape is repeated: `typ.(pgs.FieldType)` succeeds and
`IsRepeated()` holds.  A key or element type is never repeated. -/
def Typ.isRepeated : Typ → Bool
  | .fieldType ft => ft.isRepeated
  | .elem _ => false

/-- Whether a target type shape is a map. -/
def Typ.isMap : Typ → Bool
  | .fieldType ft => ft.isMap
  | .elem _ => false

/-- The element type shape of a target type shape, for repeated and map
types. -/
def Typ.element : Typ → Option FieldTypeElem
  | .fieldType ft => ft.element
  | .elem _ => none

/-- The type of a singular scalar field, as `pgs` builds it. -/
def scalarT : FieldType := ⟨false, false, false, none, none⟩

/-- The type of a singular embedded-message field. -/
def embedT : FieldType := ⟨false, false, true, none, none⟩

/-- The type of a repeated field with element type `el`. -/
def repeatedT (el : FieldTypeElem) : FieldType := ⟨true, false, false, some el, none⟩

/-- The type of a map field with key type `key` and element type `el`. -/
def mapT (key el : FieldTypeElem) : FieldType := ⟨false, true, false, some el, some key⟩

/-- A scalar field `id` whose rule payload is of a variant the code does not
know. -/
def unknownRuleField : Field :=
  ⟨"id", scalarT, .present (.mk none (.unknown 0)), .absent, .absent⟩

/-- A field `count` of type `google.protobuf.Int32Value` with int32 rules. -/
def wrappedInt32Field : Field :=
  ⟨"count", embedT, .present (.mk none (.int32 ⟨none, [1]⟩)), .absent, .absent⟩

/-- A variable segment: its first character is an opening brace and its last
character a closing brace. -/
def isVariableSegment (seg : List Char) : Prop :=
  seg.head? = some '\x7b' ∧ seg.getLast? = some '\x7d'

instance (seg : List Char) : Decidable (isVariableSegment seg) := by
  unfold isVariableSegment; infer_instance

/-- A segment as it appears in the regular expression: the wildcard for a
variable segment, the segment itself otherwise. -/
def rewriteSegment (seg : List Char) : List Char :=
  if isVariableSegment seg then "[^/]+".toList else seg

/-- The alternative of one pattern: its rewritten segments joined by a slash,
between the anchors. -/
def anchoredPattern (pattern : List Char) : List Char :=
  "\\A".toList ++ List.intercalate ['/'] ((splitSlash pattern).map rewriteSegment) ++ "\\z".toList

/-- The regular expression of a list of patterns: the alternatives joined by a
bar, inside the outer anchored group. -/
def patternsRegex (patterns : List (List Char)) : List Char :=
  "^(".toList ++ List.intercalate ['|'] (patterns.map anchoredPattern) ++ ")$".toList

/-- Field `IgnoreEmpty` of MapRules. -/
def MapRules.ignoreEmpty : MapRules → Option Bool
  | .mk _ _ _ _ _ a => a

/-- The ignore-empty flag of a rule payload, for the kinds whose rule message
has one; a payload of another kind, or no payload, has none. -/
def ignoreEmptyOf : RulesType → Option Bool
  | .float r | .double r | .int32 r | .int64 r | .uint32 r | .uint64 r
  | .sint32 r | .sint64 r | .fixed32 r | .fixed64 r | .sfixed32 r | .sfixed64 r => r.ignoreEmpty
  | .string r => r.ignoreEmpty
  | .bytes r => r.ignoreEmpty
  | .repeated r => r.ignoreEmpty
  | .map r => r.ignoreEmpty
  | _ => none

/-- The resource descriptor of a message `User` with the pattern
`users/{user}`. -/
def userResource : ResourceDescriptor := ⟨"example.com/User", ["users/\x7buser\x7d".toList], ""⟩

/-- The field `name` of `User`, a string without rules. -/
def userNameField : Field := ⟨"name", scalarT, .absent, .absent, .present userResource⟩

/-- The resource descriptor of a message `Account` whose name field is the
int64 field `id`. -/
def accountResource : ResourceDescriptor :=
  ⟨"example.com/Account", ["accounts/\x7baccount\x7d".toList], "id"⟩

/-- The field `id` of `Account`, an int64 with int64 rules. -/
def accountIdField : Field :=
  ⟨"id", scalarT, .present (.mk none (.int64 ⟨none, [1]⟩)), .absent, .present accountResource⟩

/-- A singular int64 field `account` that references `Account` and has no rules
of its own. -/
def accountRefField : Field :=
  ⟨"account", scalarT, .absent, .present ⟨"example.com/Account", ""⟩, .absent⟩

/-- A repeated string field `users` that references `User`. -/
def usersRefField : Field :=
  ⟨"users", repeatedT ⟨false⟩, .absent, .present ⟨"example.com/User", ""⟩, .absent⟩

/-- A field `owners` of type `map<string, string>` that references `User`. -/
def ownersMapField : Field :=
  ⟨"owners", mapT ⟨false⟩ ⟨false⟩, .absent, .present ⟨"example.com/User", ""⟩, .absent⟩

/-- Repeated rules with `min_items = 1`, `max_items = 10` and string item
rules. -/
def oneToTenItems : RepeatedRules :=
  .mk (some 1) (some 10) none (.ptr (.mk none (.string ⟨none, none, [5]⟩))) none

/-- Map rules with `min_pairs = 1`. -/
def atLeastOnePair : MapRules := .mk (some 1) none none .nil .nil none

/-- The name-field identifier of a resource descriptor: the override when it is
not empty, the literal "name" otherwise. -/
def nameFieldOf (res : ResourceDescriptor) : String :=
  if res.nameField = "" then "name" else res.nameField

/-- Whether the visit of a message returns an error: the extension lookup
fails, or the message has a resource descriptor and no field of its own with
the name-field identifier. -/
def visitFails (msg : Message) : Bool :=
  match msg.resource with
  | .failed _ => true
  | .absent => false
  | .present res => (findNameField (nameFieldOf res) msg.fields).isNone

/-- The messages of a package that the walk visits: all up to and including
the first whose visit returns an error. -/
def visitedOf : List Message → List Message
  | [] => []
  | msg :: rest => if visitFails msg then [msg] else msg :: visitedOf rest

/-- The index after visiting the given messages one after the other. -/
def visitAll (g : GenCtx) (msgs : List Message) : GenCtx :=
  msgs.foldl (fun g msg => (VisitMessage g msg).g) g

/-- The resource a visit of the message records, if any. -/
def recordOf (msg : Message) : Option Resource :=
  match msg.resource with
  | .present res => (findNameField (nameFieldOf res) msg.fields).map fun f => ⟨msg, res, f⟩
  | _ => none

/-- The message `User`, with its resource descriptor and name field. -/
def userMessage : Message := ⟨"User", .present userResource, [userNameField]⟩

/-- The message `Account`, with its resource descriptor and name field `id`. -/
def accountMessage : Message := ⟨"Account", .present accountResource, [accountIdField]⟩

/-- A message `Orphan` with a resource descriptor of type `example.com/Orphan`
and no field called `name`. -/
def orphanMessage : Message :=
  ⟨"Orphan", .present ⟨"example.com/Orphan", ["orphans/\x7borphan\x7d".toList], ""⟩,
    [⟨"title", scalarT, .absent, .absent,
      .present ⟨"example.com/Orphan", ["orphans/\x7borphan\x7d".toList], ""⟩⟩]⟩

/-- A second message `Member` that declares the resource type of `User`. -/
def memberMessage : Message :=
  ⟨"Member", .present ⟨"example.com/User", ["members/\x7bmember\x7d".toList], ""⟩,
    [⟨"name", scalarT, .absent, .absent,
      .present ⟨"example.com/User", ["members/\x7bmember\x7d".toList], ""⟩⟩]⟩

/-- Regular expressions as the generated validators read them (Go `regexp`,
RE2 syntax), for the part of the syntax modelled here. -/
inductive Regex where
  | empty
  | fail
  | char (c : Char)
  | anyChar
  | oneOf (cs : List Char)
  | noneOf (cs : List Char)
  | bot
  | eot
  | seq (r s : Regex)
  | alt (r s : Regex)
  | star (r : Regex)
  | plus (r : Regex)
  | opt (r : Regex)
  deriving DecidableEq, Repr

/-- A position of a match in a text: whether it is the beginning of the text,
and the text that remains. -/
abbrev Pos := Bool × List Char

/-- Repetition of a matcher at least once, at most `n` times; a repetition that
consumes nothing is not repeated further. -/
def Regex.iter (f : Pos → List Pos) : Nat → Pos → List Pos
  | 0, _ => []
  | n + 1, p => (f p).flatMap fun q => q :: (if q.2.length < p.2.length then Regex.iter f n q else [])

/-- The positions at which a match of the expression that starts at the given
position can end.  Without flags `^` and `$` match at the beginning and at the
end of the text, like `\A` and `\z`; `.` matches any character but a newline. -/
def Regex.run : Regex → Pos → List Pos
  | .empty, p => [p]
  | .fail, _ => []
  | .char c, p =>
    match p.2 with
    | d :: rest => if d = c then [(false, rest)] else []
    | [] => []
  | .anyChar, p =>
    match p.2 with
    | d :: rest => if d = '\n' then [] else [(false, rest)]
    | [] => []
  | .oneOf cs, p =>
    match p.2 with
    | d :: rest => if d ∈ cs then [(false, rest)] else []
    | [] => []
  | .noneOf cs, p =>
    match p.2 with
    | d :: rest => if d ∈ cs then [] else [(false, rest)]
    | [] => []
  | .bot, p => if p.1 then [p] else []
  | .eot, p => if p.2 = [] then [p] else []
  | .seq r s, p => (r.run p).flatMap fun q => s.run q
  | .alt r s, p => r.run p ++ s.run p
  | .star r, p => p :: Regex.iter (fun q => r.run q) (p.2.length + 1) p
  | .plus r, p => Regex.iter (fun q => r.run q) (p.2.length + 1) p
  | .opt r, p => p :: r.run p

/-- The suffixes of a text, each with whether it is the whole text: the
positions at which an unanchored search can start. -/
def startPositions : Bool → List Char → List Pos
  | b, [] => [(b, [])]
  | b, c :: cs => (b, c :: cs) :: startPositions false cs

/-- Whether the expression matches somewhere in the text, as `MatchString`
reports it. -/
def Regex.matchString (r : Regex) (text : List Char) : Bool :=
  (startPositions true text).any fun p => !(r.run p).isEmpty

/-- Sequence of a list of expressions. -/
def Regex.seqOf : List Regex → Regex
  | [] => .empty
  | r :: rs => .seq r (Regex.seqOf rs)

/-- Alternation of a list of expressions. -/
def Regex.altOf : List Regex → Regex
  | [] => .fail
  | r :: rs => .alt r (Regex.altOf rs)

/-- A group being parsed: the alternatives already closed by a bar and the
items of the current alternative, both most recent first. -/
structure Frame where
  alts : List Regex
  cur : List Regex
  deriving DecidableEq, Repr

/-- The expression of a group at its closing bracket. -/
def Frame.close (f : Frame) : Regex :=
  Regex.altOf ((Regex.seqOf f.cur.reverse :: f.alts).reverse)

/-- What the parser is in the middle of. -/
inductive Mode where
  | normal
  | escape
  | classOpen
  | classBody (negated : Bool) (cs : List Char)
  deriving DecidableEq, Repr

/-- State of the parser: the enclosing groups, the group being parsed and the
mode. -/
structure PState where
  stack : List Frame
  top : Frame
  mode : Mode
  deriving DecidableEq, Repr

/-- Adds an item to the current alternative. -/
def PState.push (st : PState) (r : Regex) : PState :=
  ⟨st.stack, ⟨st.top.alts, r :: st.top.cur⟩, .normal⟩

/-- The characters with a meaning of their own in the syntax. -/
def metaChars : List Char :=
  ['\\', '.', '+', '*', '?', '(', ')', '|', '[', ']', '\x7b', '\x7d', '^', '$']

/-- One character of the expression.  `none`: the expression is malformed or
uses syntax that is not modelled (repetition counts, ranges and escapes inside
a class, escapes other than `\A`, `\z` and an escaped punctuation). -/
def parseStep (st : PState) (c : Char) : Option PState :=
  match st.mode with
  | .escape =>
    if c = 'A' then some (st.push .bot)
    else if c = 'z' then some (st.push .eot)
    else if c ∈ metaChars then some (st.push (.char c))
    else none
  | .classOpen =>
    if c = '^' then some ⟨st.stack, st.top, .classBody true []⟩
    else if c ∈ [']', '\\', '-', '['] then none
    else some ⟨st.stack, st.top, .classBody false [c]⟩
  | .classBody negated cs =>
    if c = ']' then
      if cs = [] then none
      else some (st.push (if negated then .noneOf cs else .oneOf cs))
    else if c ∈ ['\\', '-', '[', '^'] then none
    else some ⟨st.stack, st.top, .classBody negated (cs ++ [c])⟩
  | .normal =>
    if c = '\\' then some ⟨st.stack, st.top, .escape⟩
    else if c = '[' then some ⟨st.stack, st.top, .classOpen⟩
    else if c = '(' then some ⟨st.top :: st.stack, ⟨[], []⟩, .normal⟩
    else if c = ')' then
      match st.stack with
      | [] => none
      | parent :: stack => some ⟨stack, ⟨parent.alts, st.top.close :: parent.cur⟩, .normal⟩
    else if c = '|' then
      some ⟨st.stack, ⟨Regex.seqOf st.top.cur.reverse :: st.top.alts, []⟩, .normal⟩
    else if c = '*' ∨ c = '+' ∨ c = '?' then
      match st.top.cur with
      | [] => none
      | r :: rest =>
        some ⟨st.stack, ⟨st.top.alts,
          (if c = '*' then .star r else if c = '+' then .plus r else .opt r) :: rest⟩, .normal⟩
    else if c = '.' then some (st.push .anyChar)
    else if c = '^' then some (st.push .bot)
    else if c = '$' then some (st.push .eot)
    else if c = ']' ∨ c = '\x7b' ∨ c = '\x7d' then none
    else some (st.push (.char c))

/-- The expression a string denotes, if it is well-formed and within the
modelled syntax. -/
def parseRegex (s : List Char) : Option Regex :=
  match s.foldlM parseStep ⟨[], ⟨[], []⟩, .normal⟩ with
  | some ⟨[], top, .normal⟩ => some top.close
  | _ => none

/-- Whether the regular expression written as `pattern` matches the text;
`none` when the expression is not within the modelled syntax. -/
def regexMatches (pattern text : List Char) : Option Bool :=
  (parseRegex pattern).map fun r => r.matchString text

/-- The items a segment contributes to the expression: the wildcard for a
variable segment, its characters otherwise. -/
def segmentItems (seg : List Char) : List Regex :=
  if isVariableSegment seg then [.plus (.noneOf ['/'])] else seg.map .char

/-- The items of a pattern: those of its segments, separated by a slash. -/
def patternItems (pattern : List Char) : List Regex :=
  List.intercalate [.char '/'] ((splitSlash pattern).map segmentItems)

/-- The expression of one alternative. -/
def patternExpr (pattern : List Char) : Regex :=
  Regex.seqOf (.bot :: (patternItems pattern ++ [.eot]))

/-- The expression of the whole synthesized regular expression. -/
def patternsExpr (patterns : List (List Char)) : Regex :=
  Regex.altOf [Regex.seqOf [.bot, Regex.altOf (patterns.map patternExpr), .eot]]

/-- The condition on a pattern under which its alternative is within the
modelled syntax: no segment is empty, and a literal segment has no character
with a meaning of its own. -/
def plainPattern (pattern : List Char) : Prop :=
  ∀ seg ∈ splitSlash pattern, seg ≠ [] ∧ (¬ isVariableSegment seg → ∀ c ∈ seg, c ∉ metaChars)

/-- A value fits a segment of a pattern: any non-empty value fits a variable
segment, only the segment itself fits a literal segment. -/
def fitsSegment (seg value : List Char) : Prop :=
  if isVariableSegment seg then value ≠ [] else value = seg

/-- The text is formed from the pattern by substituting a non-empty value
without a slash for each variable segment. -/
def IsInstance (pattern text : List Char) : Prop :=
  ∃ values : List (List Char),
    List.Forall₂ fitsSegment (splitSlash pattern) values ∧
    (∀ v ∈ values, '/' ∉ v) ∧ text = List.intercalate ['/'] values

/-- The text is formed from the pattern by substituting a value without a slash
for each variable segment, where the value may be empty. -/
def IsSubstitution (pattern text : List Char) : Prop :=
  ∃ values : List (List Char),
    List.Forall₂ (fun seg v => isVariableSegment seg ∨ v = seg) (splitSlash pattern) values ∧
    (∀ v ∈ values, '/' ∉ v) ∧ text = List.intercalate ['/'] values

/-- The resource descriptor with the two patterns `users/{id}` and
`orgs/{id}/users/{id}`. -/
def twoPatterns : ResourceDescriptor :=
  ⟨"example.com/User", ["users/\x7bid\x7d".toList, "orgs/\x7bid\x7d/users/\x7bid\x7d".toList], ""⟩

/-- The names of the scalar kinds that have a wrapper-message representation. -/
def wrappableKinds : List String :=
  ["float", "double", "int32", "int64", "uint32", "uint64", "bool", "string", "bytes"]

/-- Map rules with string rules for the keys and int32 rules for the values. -/
def limitsRules : MapRules :=
  .mk none none none (.ptr (.mk none (.string ⟨none, none, [1]⟩)))
    (.ptr (.mk none (.int32 ⟨none, [2]⟩))) none

/-- A field `limits` of type `map<string, google.protobuf.Int32Value>` with
`limitsRules`. -/
def limitsField : Field :=
  ⟨"limits", mapT ⟨false⟩ ⟨true⟩, .present (.mk none (.map limitsRules)), .absent, .absent⟩

/-- The descriptor of `limits`. -/
def limitsContext : RuleContext :=
  ⟨some limitsField, .mapRules limitsRules, none, "map", "", false, "", ""⟩

/-- The descriptor of `count`, a wrapper around int32 rules. -/
def wrappedInt32Context : RuleContext :=
  ⟨some wrappedInt32Field, .int32Rules ⟨none, [1]⟩, none, "wrapper", "int32", false, "", ""⟩

/-- A rule payload without a kind that carries the message-level constraint
`required = true`. -/
def requiredOnly : FieldRules := .mk (some ⟨none, some true⟩) .absent

/-- A field `parent` of type `google.protobuf.StringValue` that references
`User`, is required and has string rules of its own. -/
def parentRefField : Field :=
  ⟨"parent", embedT, .present (.mk (some ⟨none, some true⟩) (.string ⟨none, none, [1]⟩)),
    .present ⟨"example.com/User", ""⟩, .absent⟩

/-- The string rule synthesized from the pattern of `User`. -/
def userPatternRule : StringRules := ⟨some "^(\\Ausers/[^/]+\\z)$".toList, some true, []⟩


/-- The index after the visit of `User`. -/
def userIndex : GenCtx := (VisitMessage GenCtx.empty userMessage).g

/-- The resource descriptor of a message `Folder` whose pattern `a//b` has an
empty segment. -/
def folderResource : ResourceDescriptor := ⟨"example.com/Folder", ["a//b".toList], ""⟩

/-- The field `name` of `Folder`, a string without rules. -/
def folderNameField : Field := ⟨"name", scalarT, .absent, .absent, .present folderResource⟩

/-- The message `Folder`, with its resource descriptor and name field. -/
def folderMessage : Message := ⟨"Folder", .present folderResource, [folderNameField]⟩

/-- The index after the visit of `Folder`. -/
def folderIndex : GenCtx := (VisitMessage GenCtx.empty folderMessage).g

/-- A singular string field `folder` that references `Folder` and has no rules
of its own. -/
def folderRefField : Field :=
  ⟨"folder", scalarT, .absent, .present ⟨"example.com/Folder", ""⟩, .absent⟩

/-- A repeated string field `folders` that references `Folder` and has no rules
of its own. -/
def foldersRefField : Field :=
  ⟨"folders", repeatedT ⟨false⟩, .absent, .present ⟨"example.com/Folder", ""⟩, .absent⟩

/-- A repeated string field `subfolders` that references `Folder`, with
`min_items = 1`, `max_items = 10` and string item rules. -/
def subfoldersRefField : Field :=
  ⟨"subfolders", repeatedT ⟨false⟩, .present (.mk none (.repeated oneToTenItems)),
    .present ⟨"example.com/Folder", ""⟩, .absent⟩

/-- The resource descriptor of a message `Team` with the pattern
`teams/{team}`. -/
def teamResource : ResourceDescriptor := ⟨"example.com/Team", ["teams/\x7bteam\x7d".toList], ""⟩

/-- The string rule authored on the name field of `Team`: a pattern, and no
ignore-empty flag. -/
def teamNameRule : StringRules := ⟨some "^teams/[a-z]+$".toList, none, []⟩

/-- The rule of the name field of `Team` with the ignore-empty flag set. -/
def teamNameRuleIgnoreEmpty : StringRules := ⟨some "^teams/[a-z]+$".toList, some true, []⟩

/-- The field `name` of `Team`, a string with the rule `teamNameRule`. -/
def teamNameField : Field :=
  ⟨"name", scalarT, .present (.mk none (.string teamNameRule)), .absent, .present teamResource⟩

/-- The field `name` of `Team` with the ignore-empty flag set in its rule. -/
def teamNameFieldIgnoreEmpty : Field :=
  ⟨"name", scalarT, .present (.mk none (.string teamNameRuleIgnoreEmpty)), .absent,
    .present teamResource⟩

/-- The message `Team`, with its resource descriptor and name field. -/
def teamMessage : Message := ⟨"Team", .present teamResource, [teamNameField]⟩

/-- The index after the visit of `Team`. -/
def teamIndex : GenCtx := (VisitMessage GenCtx.empty teamMessage).g

/-- A singular string field `team` that references `Team` and has no rules of
its own. -/
def teamRefField : Field :=
  ⟨"team", scalarT, .absent, .present ⟨"example.com/Team", ""⟩, .absent⟩

/-- A repeated string field `teams` that references `Team` and has no rules of
its own. -/
def teamsRefField : Field :=
  ⟨"teams", repeatedT ⟨false⟩, .absent, .present ⟨"example.com/Team", ""⟩, .absent⟩

/-- A repeated string field `rivals` that references `Team`, with
`min_items = 1`, `max_items = 10` and string item rules. -/
def rivalsRefField : Field :=
  ⟨"rivals", repeatedT ⟨false⟩, .present (.mk none (.repeated oneToTenItems)),
    .present ⟨"example.com/Team", ""⟩, .absent⟩

/-- Repeated rules with string item rules and nothing else. -/
def tagsRules : RepeatedRules :=
  .mk none none none (.ptr (.mk none (.string ⟨none, none, [3]⟩))) none

/-- A repeated string field `tags` with `tagsRules`. -/
def tagsField : Field :=
  ⟨"tags", repeatedT ⟨false⟩, .present (.mk none (.repeated tagsRules)), .absent, .absent⟩

/-- The descriptor of `tags`. -/
def tagsContext : RuleContext :=
  ⟨some tagsField, .repeatedRules tagsRules, none, "repeated", "", false, "", ""⟩

/-- The results `out` and `err` of two calls of the closure returned by
rulesContext one after the other, the second on the index as the first leaves
it. -/
def rulesContextTwice (genCtx : GenCtx) (f1 f2 : Field) :
    Option ((RuleContext × Option Err) × (RuleContext × Option Err)) :=
  match rulesContextCall genCtx f1 with
  | none => none
  | some c1 =>
    match rulesContextCall c1.genCtx f2 with
    | none => none
    | some c2 => some ((c1.out, c1.err), (c2.out, c2.err))
/-! ## Rule resolution -/

/-- The tail of rulesContext after the rules of the field are read: the results
`out` and `err` in terms of the error and the rules mergeResourceValidation
leaves behind. -/
theorem rulesContext_tail (genCtx : GenCtx) (f : Field) (R : Option (Except Err FieldRules)) :
    (match R with
      | none => none
      | some (.error e) =>
        some (⟨⟨some f, .nil, none, "", "", false, "", ""⟩, some e, genCtx, f⟩ : ContextCall)
      | some (.ok rules) =>
        match (match SearchResourceReference genCtx f with
          | some resource =>
            match mergeResourceValidation f resource.nameField resource.desc rules with
            | none => none
            | some (err, rules, nameField) =>
              some (err, rules, genCtx.withNameField f nameField,
                (match err, f.rules with
                  | none, .present (.mk _ (.repeated _)) => f.withRules (.present rules)
                  | _, _ => f))
          | none => some (none, rules, genCtx, f) : Option (Option Err × FieldRules × GenCtx × Field)) with
        | none => none
        | some (some e, _, genCtx, field) =>
          some ⟨⟨some f, .nil, none, "", "", false, "", ""⟩, some e, genCtx, field⟩
        | some (none, rules, genCtx, field) =>
          match resolveRules (some (.fieldType f.typ)) (.ptr rules) with
          | none => none
          | some r =>
            some ⟨if r.wrapped then (⟨some f, r.rule, r.messageRule, "wrapper", r.ruleType, false, "", ""⟩ : RuleContext)
                else ⟨some f, r.rule, r.messageRule, r.ruleType, "", false, "", ""⟩,
              if (if r.wrapped then (⟨some f, r.rule, r.messageRule, "wrapper", r.ruleType, false, "", ""⟩ : RuleContext)
                else ⟨some f, r.rule, r.messageRule, r.ruleType, "", false, "", ""⟩).typ = "error"
              then some .unknownRuleType else none, genCtx, field⟩ : Option ContextCall).map
        (fun c => (c.out, c.err)) =
    (match R with
      | none => none
      | some (.error e) => some (⟨some f, .nil, none, "", "", false, "", ""⟩, some e)
      | some (.ok rules) =>
        match (match SearchResourceReference genCtx f with
          | some resource =>
            (mergeResourceValidation f resource.nameField resource.desc rules).map
              fun (x : Option Err × FieldRules × Field) => (x.1, x.2.1)
          | none => some (none, rules) : Option (Option Err × FieldRules)) with
        | none => none
        | some (some e, _) => some (⟨some f, .nil, none, "", "", false, "", ""⟩, some e)
        | some (none, rules) =>
          match resolveRules (some (.fieldType f.typ)) (.ptr rules) with
          | none => none
          | some r =>
            some (if r.wrapped then (⟨some f, r.rule, r.messageRule, "wrapper", r.ruleType, false, "", ""⟩ : RuleContext)
                else ⟨some f, r.rule, r.messageRule, r.ruleType, "", false, "", ""⟩,
              if (if r.wrapped then (⟨some f, r.rule, r.messageRule, "wrapper", r.ruleType, false, "", ""⟩ : RuleContext)
                else ⟨some f, r.rule, r.messageRule, r.ruleType, "", false, "", ""⟩).typ = "error"
              then some .unknownRuleType else none) : Option (RuleContext × Option Err)) := by
  cases R with
  | none => rfl
  | some x =>
    cases x with
    | error e => rfl
    | ok rules =>
      simp only
      cases hs : SearchResourceReference genCtx f with
      | none =>
        simp only
        cases resolveRules (some (.fieldType f.typ)) (.ptr rules) <;> rfl
      | some resource =>
        simp only
        cases hm : mergeResourceValidation f resource.nameField resource.desc rules with
        | none => rfl
        | some x =>
          obtain ⟨err, rules', nf⟩ := x
          cases err with
          | some e => rfl
          | none =>
            simp only [Option.map_some']
            cases resolveRules (some (.fieldType f.typ)) (.ptr rules') <;> rfl

/-- The results `out` and `err` of rulesContext in terms of the error and the
rules mergeResourceValidation leaves behind. -/
theorem rulesContext_eq (genCtx : GenCtx) (f : Field) :
    rulesContext genCtx f =
      (let out : RuleContext := ⟨some f, .nil, none, "", "", false, "", ""⟩
      let rules : Option (Except Err FieldRules) :=
        match f.rules with
        | .failed e => some (.error (.extension e))
        | .present r => some (.ok r)
        | .absent =>
          match f.messageResource with
          | .failed e => some (.error (.extension e))
          | .absent => some (.ok emptyRules)
          | .present resourceDesc =>
            if f.name = resourceNameField resourceDesc.nameField then
              (basicResourceValidation resourceDesc).map fun s => .ok (.mk none (.string s))
            else some (.ok emptyRules)
      match rules with
      | none => none
      | some (.error e) => some (out, some e)
      | some (.ok rules) =>
        let merged : Option (Option Err × FieldRules) :=
          match SearchResourceReference genCtx f with
          | some resource =>
            (mergeResourceValidation f resource.nameField resource.desc rules).map
              fun x => (x.1, x.2.1)
          | none => some (none, rules)
        match merged with
        | none => none
        | some (some e, _) => some (out, some e)
        | some (none, rules) =>
          match resolveRules (some (.fieldType f.typ)) (.ptr rules) with
          | none => none
          | some r =>
            let out : RuleContext :=
              if r.wrapped then ⟨some f, r.rule, r.messageRule, "wrapper", r.ruleType, false, "", ""⟩
              else ⟨some f, r.rule, r.messageRule, r.ruleType, "", false, "", ""⟩
            some (out, if out.typ = "error" then some .unknownRuleType else none)) := by
  exact rulesContext_tail genCtx f _

/-- Every result of rulesContext is either an early return with an error, which
leaves `out` at its zero value apart from the field, or is built from a result
of resolveRules on the field's type. -/
theorem rulesContext_cases (g : GenCtx) (f : Field) (out : RuleContext) (err : Option Err)
    (h : rulesContext g f = some (out, err)) :
    (out = ⟨some f, .nil, none, "", "", false, "", ""⟩ ∧ err ≠ none) ∨
    ∃ rules r, resolveRules (some (.fieldType f.typ)) (.ptr rules) = some r ∧
      out = (if r.wrapped then ⟨some f, r.rule, r.messageRule, "wrapper", r.ruleType, false, "", ""⟩
        else ⟨some f, r.rule, r.messageRule, r.ruleType, "", false, "", ""⟩) ∧
      err = if out.typ = "error" then some .unknownRuleType else none := by
  rw [rulesContext_eq] at h
  simp only at h
  split at h
  · exact absurd h (by simp)
  · simp only [Option.some.injEq, Prod.mk.injEq] at h
    exact Or.inl ⟨h.1.symm, by simp [← h.2]⟩
  · split at h
    · exact absurd h (by simp)
    · simp only [Option.some.injEq, Prod.mk.injEq] at h
      exact Or.inl ⟨h.1.symm, by simp [← h.2]⟩
    · rename_i rules _
      split at h
      · exact absurd h (by simp)
      · rename_i r hr
        simp only [Option.some.injEq, Prod.mk.injEq] at h
        exact Or.inr ⟨rules, r, hr, h.1.symm, by rw [← h.2, ← h.1]⟩

/-- C1. resolveRules is total over the rule-payload variants.  For every target
type shape, every message-level constraint and every payload that names one of
the 21 known kinds, the result has that kind's name as kind tag and that
variant's constraint data as payload; for a variant that is none of these the
kind is "error" (whatever the type, even nil), and then rulesContext, Key and
Elem return an error: an "error" kind never leaves rulesContext without one,
and an unrecognised variant as the field's payload, as the key rules of a map
or as the element rules of a map or repeated payload produces it. -/
theorem resolveRules_total :
    (∀ (typ : Typ) (m : Option MessageRules),
      (∀ r, resolveRules (some typ) (.ptr (.mk m (.float r))) = some ⟨"float", .floatRules r, m, typ.isEmbed⟩) ∧
      (∀ r, resolveRules (some typ) (.ptr (.mk m (.double r))) = some ⟨"double", .doubleRules r, m, typ.isEmbed⟩) ∧
      (∀ r, resolveRules (some typ) (.ptr (.mk m (.int32 r))) = some ⟨"int32", .int32Rules r, m, typ.isEmbed⟩) ∧
      (∀ r, resolveRules (some typ) (.ptr (.mk m (.int64 r))) = some ⟨"int64", .int64Rules r, m, typ.isEmbed⟩) ∧
      (∀ r, resolveRules (some typ) (.ptr (.mk m (.uint32 r))) = some ⟨"uint32", .uint32Rules r, m, typ.isEmbed⟩) ∧
      (∀ r, resolveRules (some typ) (.ptr (.mk m (.uint64 r))) = some ⟨"uint64", .uint64Rules r, m, typ.isEmbed⟩) ∧
      (∀ r, resolveRules (some typ) (.ptr (.mk m (.sint32 r))) = some ⟨"sint32", .sint32Rules r, m, false⟩) ∧
      (∀ r, resolveRules (some typ) (.ptr (.mk m (.sint64 r))) = some ⟨"sint64", .sint64Rules r, m, false⟩) ∧
      (∀ r, resolveRules (some typ) (.ptr (.mk m (.fixed32 r))) = some ⟨"fixed32", .fixed32Rules r, m, false⟩) ∧
      (∀ r, resolveRules (some typ) (.ptr (.mk m (.fixed64 r))) = some ⟨"fixed64", .fixed64Rules r, m, false⟩) ∧
      (∀ r, resolveRules (some typ) (.ptr (.mk m (.sfixed32 r))) = some ⟨"sfixed32", .sfixed32Rules r, m, false⟩) ∧
      (∀ r, resolveRules (some typ) (.ptr (.mk m (.sfixed64 r))) = some ⟨"sfixed64", .sfixed64Rules r, m, false⟩) ∧
      (∀ r, resolveRules (some typ) (.ptr (.mk m (.bool r))) = some ⟨"bool", .boolRules r, m, typ.isEmbed⟩) ∧
      (∀ r, resolveRules (some typ) (.ptr (.mk m (.string r))) = some ⟨"string", .stringRules r, m, typ.isEmbed⟩) ∧
      (∀ r, resolveRules (some typ) (.ptr (.mk m (.bytes r))) = some ⟨"bytes", .bytesRules r, m, typ.isEmbed⟩) ∧
      (∀ r, resolveRules (some typ) (.ptr (.mk m (.enum r))) = some ⟨"enum", .enumRules r, m, false⟩) ∧
      (∀ r, resolveRules (some typ) (.ptr (.mk m (.repeated r))) = some ⟨"repeated", .repeatedRules r, m, false⟩) ∧
      (∀ r, resolveRules (some typ) (.ptr (.mk m (.map r))) = some ⟨"map", .mapRules r, m, false⟩) ∧
      (∀ r, resolveRules (some typ) (.ptr (.mk m (.any r))) = some ⟨"any", .anyRules r, m, false⟩) ∧
      (∀ r, resolveRules (some typ) (.ptr (.mk m (.duration r))) = some ⟨"duration", .durationRules r, m, false⟩) ∧
      (∀ r, resolveRules (some typ) (.ptr (.mk m (.timestamp r))) = some ⟨"timestamp", .timestampRules r, m, false⟩)) ∧
    (∀ (typ : Option Typ) (m : Option MessageRules) (tag : Nat),
      resolveRules typ (.ptr (.mk m (.unknown tag))) = some ⟨"error", .nil, m, false⟩) ∧
    (∀ (g : GenCtx) (f : Field) (out : RuleContext) (err : Option Err),
      rulesContext g f = some (out, err) → out.typ = "error" → err = some .unknownRuleType) ∧
    (∀ (g : GenCtx) (f : Field) (m : Option MessageRules) (tag : Nat),
      f.rules = .present (.mk m (.unknown tag)) → SearchResourceReference g f = none →
      rulesContext g f =
        some (⟨some f, .nil, m, "error", "", false, "", ""⟩, some .unknownRuleType)) ∧
    (∀ (ctx : RuleContext) (field : Field) (r : MapRules) (m : Option MessageRules) (tag : Nat)
        (name idx : String),
      ctx.field = some field → ctx.rules = .mapRules r →
      (r.GetKeys = .ptr (.mk m (.unknown tag)) →
        ctx.Key name idx =
          some (⟨some field, .nil, m, "error", "", false, idx, name⟩, some .unknownRuleType)) ∧
      (r.GetValues = .ptr (.mk m (.unknown tag)) →
        ctx.Elem name idx =
          some (⟨some field, .nil, m, "error", "", false, idx, name⟩, some .unknownRuleType))) ∧
    (∀ (ctx : RuleContext) (field : Field) (r : RepeatedRules) (m : Option MessageRules) (tag : Nat)
        (name idx : String),
      ctx.field = some field → ctx.rules = .repeatedRules r →
      r.GetItems = .ptr (.mk m (.unknown tag)) →
      ctx.Elem name idx =
        some (⟨some field, .nil, m, "error", "", false, idx, name⟩, some .unknownRuleType)) := by
  refine ⟨fun typ m => ?_, fun typ m tag => rfl, ?_, ?_, ?_, ?_⟩
  · refine ⟨?_, ?_, ?_, ?_, ?_, ?_, ?_, ?_, ?_, ?_, ?_, ?_, ?_, ?_, ?_, ?_, ?_, ?_, ?_, ?_, ?_⟩ <;>
      intro r <;> rfl
  · intro g f out err h hk
    rcases rulesContext_cases g f out err h with ⟨ho, _⟩ | ⟨rules, r, _, _, he⟩
    · rw [ho] at hk
      simp at hk
    · rw [he, if_pos hk]
  · intro g f m tag hr hs
    rw [rulesContext_eq]
    simp [hr, hs, resolveRules, FieldRulesPtr.GetType, FieldRules.type,
      FieldRulesPtr.Message, FieldRules.message]
  · intro ctx field r m tag name idx hf hr
    constructor
    · intro hk
      simp [RuleContext.Key, hf, hr, hk, resolveRules, FieldRulesPtr.GetType, FieldRules.type,
        FieldRulesPtr.Message, FieldRules.message]
    · intro hk
      simp [RuleContext.Elem, hf, hr, hk, resolveRules, FieldRulesPtr.GetType, FieldRules.type,
        FieldRulesPtr.Message, FieldRules.message]
  · intro ctx field r m tag name idx hf hr hk
    simp [RuleContext.Elem, hf, hr, hk, resolveRules, FieldRulesPtr.GetType, FieldRules.type,
      FieldRulesPtr.Message, FieldRules.message]

/-- Witness of C1: a scalar field whose payload is of an unknown variant. -/
theorem resolveRules_total_witness :
    unknownRuleField.rules = .present (.mk none (.unknown 0)) ∧
    SearchResourceReference GenCtx.empty unknownRuleField = none ∧
    rulesContext GenCtx.empty unknownRuleField =
      some (⟨some unknownRuleField, .nil, none, "error", "", false, "", ""⟩,
        some .unknownRuleType) :=
  ⟨rfl, rfl, resolveRules_total.2.2.2.1 GenCtx.empty unknownRuleField none 0 rfl rfl⟩

/-- Where the field access `rules.Message` succeeds it agrees with the getter. -/
theorem FieldRulesPtr.Message_eq (rules : FieldRulesPtr) (m : Option MessageRules)
    (h : rules.Message = some m) : rules.GetMessage = m := by
  cases rules with
  | nil => simp [FieldRulesPtr.Message] at h
  | ptr r => simpa [FieldRulesPtr.Message, FieldRulesPtr.GetMessage] using h

/-- With an absent payload resolveRules has four possible results. -/
theorem resolveRules_absent (typ : Option Typ) (rules : FieldRulesPtr) (res : Resolved)
    (ht : rules.GetType = .absent) (h : resolveRules typ rules = some res) :
    res = ⟨"repeated", .repeatedRules emptyRepeatedRules, rules.GetMessage, false⟩ ∨
    res = ⟨"map", .mapRules emptyMapRules, rules.GetMessage, false⟩ ∨
    res = ⟨"message", .messageRules rules.GetMessage, rules.GetMessage, false⟩ ∨
    res = ⟨"none", .nil, none, false⟩ := by
  have key : ∀ o : Option Resolved, o = some res →
      (o = (IsEmbed typ).map fun e =>
        if e then ⟨"message", .messageRules rules.GetMessage, rules.GetMessage, false⟩
        else ⟨"none", .nil, none, false⟩) →
      res = ⟨"message", .messageRules rules.GetMessage, rules.GetMessage, false⟩ ∨
      res = ⟨"none", .nil, none, false⟩ := by
    intro o ho hd
    rw [ho] at hd
    cases he : IsEmbed typ with
    | none => simp [he] at hd
    | some e =>
      cases e <;> simp [he] at hd <;> simp [hd]
  have rep : ∀ (k : String) (d : ProtoMessage),
      (rules.Message.map fun m => (⟨k, d, m, false⟩ : Resolved)) = some res →
      res = ⟨k, d, rules.GetMessage, false⟩ := by
    intro k d hd
    cases hm : rules.Message with
    | none => simp [hm] at hd
    | some m =>
      simp only [hm, Option.map_some', Option.some.injEq] at hd
      rw [← hd, FieldRulesPtr.Message_eq rules m hm]
  unfold resolveRules at h
  simp only [ht] at h
  split at h
  · split at h
    · exact Or.inl (rep _ _ h)
    · split at h
      · split at h
        · exact absurd h (by simp)
        · split at h
          · exact Or.inr (Or.inl (rep _ _ h))
          · exact Or.inr (Or.inr (key _ h rfl))
      · exact Or.inr (Or.inr (key _ h rfl))
  · exact Or.inr (Or.inr (key _ h rfl))

/-- A result of resolveRules, by whether the payload names a wrappable kind. -/
theorem resolveRules_wrappable (typ : Option Typ) (rules : FieldRulesPtr) (res : Resolved)
    (h : resolveRules typ rules = some res) :
    res.ruleType ≠ "wrapper" ∧
    match wrappable rules.GetType with
    | some (k, d) => ∃ t, typ = some t ∧ res = ⟨k, d, rules.GetMessage, t.isEmbed⟩ ∧
        d.scalarKind = some k ∧ k ≠ "error"
    | none => res.wrapped = false ∧ res.rule.scalarKind = none := by
  by_cases ht : rules.GetType = .absent
  · rcases resolveRules_absent typ rules res ht h with h | h | h | h <;>
      simp [h, ht, wrappable, ProtoMessage.scalarKind]
  · cases rules with
    | nil => exact absurd rfl ht
    | ptr r =>
      obtain ⟨m, t⟩ := r
      cases typ with
      | none =>
        cases t <;> simp [resolveRules, FieldRulesPtr.GetType, FieldRules.type, IsEmbed,
          FieldRulesPtr.Message, FieldRules.message] at h ht <;> subst h <;>
          simp [wrappable, FieldRulesPtr.GetType, FieldRules.type, ProtoMessage.scalarKind]
      | some ty =>
        cases t <;> simp [resolveRules, FieldRulesPtr.GetType, FieldRules.type, IsEmbed,
          FieldRulesPtr.Message, FieldRules.message] at h ht <;> subst h <;>
          simp [wrappable, FieldRulesPtr.GetType, FieldRules.type, ProtoMessage.scalarKind,
            FieldRulesPtr.GetMessage, FieldRules.message]

/-- On a key or element type resolveRules never panics. -/
theorem resolveRules_elem_total (el : FieldTypeElem) (rules : FieldRulesPtr) :
    ∃ res, resolveRules (some (.elem el)) rules = some res := by
  cases rules with
  | nil => simp [resolveRules, FieldRulesPtr.GetType, IsEmbed]
  | ptr r =>
    obtain ⟨m, t⟩ := r
    cases t <;> simp [resolveRules, FieldRulesPtr.GetType, FieldRules.type, IsEmbed,
      FieldRulesPtr.Message, FieldRules.message]

/-- The wrapper step shared by rulesContext and Elem, read off a result of
resolveRules on a non-nil type. -/
theorem wrapped_iff (typ : Typ) (rules : FieldRulesPtr) (res : Resolved)
    (h : resolveRules (some typ) rules = some res) :
    (res.wrapped = true ↔ typ.isEmbed = true ∧ (wrappable rules.GetType).isSome = true) ∧
    (res.wrapped = true ↔ typ.isEmbed = true ∧ res.rule.scalarKind.isSome = true) ∧
    (res.wrapped = true → res.rule.scalarKind = some res.ruleType) ∧
    res.ruleType ≠ "wrapper" ∧
    (∀ k d, wrappable rules.GetType = some (k, d) →
      res = ⟨k, d, rules.GetMessage, typ.isEmbed⟩ ∧ k ≠ "error") := by
  have h2 := resolveRules_wrappable (some typ) rules res h
  refine ⟨?_, ?_, ?_, h2.1, ?_⟩
  all_goals
    cases hw : wrappable rules.GetType with
    | none =>
      have h3 := h2.2
      simp only [hw] at h3
      simp [h3.1, h3.2]
    | some kd =>
      obtain ⟨k, d⟩ := kd
      have h3 := h2.2
      simp only [hw] at h3
      obtain ⟨t, ht, hres, hd, hk⟩ := h3
      cases ht
      simp [hres, hd, hk]

/-- C2. Wrapper detection.  A result of resolveRules is flagged as wrapped
exactly when the target type is an embedded message and the payload names one
of float, double, int32, int64, uint32, uint64, bool, string or bytes.  The
descriptor rulesContext produces for a field that carries the payload has kind
"wrapper" exactly then, with wrappedKind the name of the scalar kind and the
scalar constraint data as payload; so has every descriptor rulesContext
produces, read off the payload it carries; and so has the descriptor Elem
produces for the element type and the value or item rules.  For every other
payload, absent included, the kind is not "wrapper". -/
theorem wrapper_detection :
    (∀ (typ : Typ) (rules : FieldRulesPtr) (res : Resolved),
      resolveRules (some typ) rules = some res →
      res.ruleType ≠ "wrapper" ∧
      (res.wrapped = true ↔ typ.isEmbed = true ∧ (wrappable rules.GetType).isSome = true)) ∧
    (∀ (g : GenCtx) (f : Field) (rules : FieldRules),
      f.rules = .present rules → SearchResourceReference g f = none →
      ∀ out err, rulesContext g f = some (out, err) →
        (out.typ = "wrapper" ↔ f.typ.isEmbed = true ∧ (wrappable rules.type).isSome = true)) ∧
    (∀ (g : GenCtx) (f : Field) (m : Option MessageRules) (t : RulesType) (k : String)
        (d : ProtoMessage),
      f.rules = .present (.mk m t) → SearchResourceReference g f = none →
      wrappable t = some (k, d) →
      rulesContext g f =
        some (if f.typ.isEmbed = true then ⟨some f, d, m, "wrapper", k, false, "", ""⟩
          else ⟨some f, d, m, k, "", false, "", ""⟩, none)) ∧
    (∀ (g : GenCtx) (f : Field) (out : RuleContext) (err : Option Err),
      rulesContext g f = some (out, err) →
      (out.typ = "wrapper" ↔ f.typ.isEmbed = true ∧ out.rules.scalarKind.isSome = true) ∧
      (out.typ = "wrapper" → out.rules.scalarKind = some out.wrapperTyp)) ∧
    (∀ (ctx : RuleContext) (field : Field) (el : FieldTypeElem) (sub : FieldRulesPtr)
        (name idx : String),
      ctx.field = some field → field.typ.element = some el →
      ((∃ r, ctx.rules = .mapRules r ∧ sub = r.GetValues) ∨
        (∃ r, ctx.rules = .repeatedRules r ∧ sub = r.GetItems)) →
      ∃ out err, ctx.Elem name idx = some (out, err) ∧
        (out.typ = "wrapper" ↔ el.isEmbed = true ∧ (wrappable sub.GetType).isSome = true) ∧
        (∀ k d, wrappable sub.GetType = some (k, d) →
          err = none ∧ out.rules = d ∧
          (el.isEmbed = true → out.wrapperTyp = k) ∧ (el.isEmbed = false → out.typ = k))) := by
  refine ⟨?_, ?_, ?_, ?_, ?_⟩
  · intro typ rules res h
    exact ⟨(wrapped_iff typ rules res h).2.2.2.1, (wrapped_iff typ rules res h).1⟩
  · intro g f rules hr hs out err h
    rw [rulesContext_eq] at h
    simp only [hr, hs] at h
    split at h
    · exact absurd h (by simp)
    · rename_i r hres
      have hw := wrapped_iff (.fieldType f.typ) (.ptr rules) r hres
      simp only [Option.some.injEq, Prod.mk.injEq] at h
      rw [← h.1]
      have h1 := hw.1
      simp only [FieldRulesPtr.GetType, Typ.isEmbed] at h1
      rw [← h1]
      by_cases hwr : r.wrapped = true
      · simp [hwr]
      · simp [hwr, hw.2.2.2.1]
  · intro g f m t k d hr hs hw
    have hres : ∃ res, resolveRules (some (.fieldType f.typ)) (.ptr (.mk m t)) = some res := by
      cases t <;> simp [wrappable] at hw <;>
        simp [resolveRules, FieldRulesPtr.GetType, FieldRules.type, IsEmbed,
          FieldRulesPtr.Message, FieldRules.message]
    obtain ⟨res, hres⟩ := hres
    have h5 := (wrapped_iff _ _ _ hres).2.2.2.2 k d hw
    rw [rulesContext_eq]
    simp only [hr, hs, hres]
    rw [h5.1]
    simp only [Typ.isEmbed, FieldRulesPtr.GetMessage, FieldRules.message]
    by_cases he : f.typ.isEmbed = true
    · simp [he]
    · simp [he, h5.2]
  · intro g f out err h
    rcases rulesContext_cases g f out err h with ⟨ho, _⟩ | ⟨rules, r, hres, ho, _⟩
    · subst ho
      simp [ProtoMessage.scalarKind]
    · have hw := wrapped_iff _ _ _ hres
      have h2 := hw.2.1
      simp only [Typ.isEmbed] at h2
      by_cases hwr : r.wrapped = true
      · simp only [hwr, if_true] at ho
        subst ho
        simp only [true_and]
        exact ⟨⟨fun _ => h2.1 hwr, fun _ => trivial⟩, fun _ => hw.2.2.1 hwr⟩
      · simp only [hwr] at ho
        subst ho
        have hne := hw.2.2.2.1
        refine ⟨⟨fun hc => absurd hc hne, fun hc => absurd (h2.2 hc) hwr⟩, fun hc => absurd hc hne⟩
  · intro ctx field el sub name idx hf hel hsub
    obtain ⟨res, hres⟩ := resolveRules_elem_total el sub
    have hw := wrapped_iff _ _ _ hres
    have hE : ctx.Elem name idx = some (
        (if res.wrapped = true then
          ⟨ctx.field, res.rule, res.messageRule, "wrapper", res.ruleType, false, idx, name⟩
        else ⟨ctx.field, res.rule, res.messageRule, res.ruleType, "", false, idx, name⟩ : RuleContext),
        if (if res.wrapped = true then
          (⟨ctx.field, res.rule, res.messageRule, "wrapper", res.ruleType, false, idx, name⟩ : RuleContext)
        else ⟨ctx.field, res.rule, res.messageRule, res.ruleType, "", false, idx, name⟩).typ = "error"
        then some .unknownRuleType else none) := by
      rcases hsub with ⟨r, hr, hs⟩ | ⟨r, hr, hs⟩ <;>
        · subst hs
          simp only [RuleContext.Elem, hr, hf, hel, Option.map_some', hres]
    refine ⟨_, _, hE, ?_, ?_⟩
    · have h1 := hw.1
      simp only [Typ.isEmbed] at h1
      rw [← h1]
      by_cases hwr : res.wrapped = true
      · simp [hwr]
      · simp [hwr, hw.2.2.2.1]
    · intro k d hkd
      have h5 := hw.2.2.2.2 k d hkd
      rw [h5.1]
      simp only [Typ.isEmbed]
      cases el.isEmbed <;> simp [h5.2]

/-- Witness of C2: an `Int32Value` field with int32 rules is a wrapper. -/
theorem wrapper_detection_witness :
    wrappedInt32Field.rules = .present (.mk none (.int32 ⟨none, [1]⟩)) ∧
    SearchResourceReference GenCtx.empty wrappedInt32Field = none ∧
    wrappable (.int32 ⟨none, [1]⟩) = some ("int32", .int32Rules ⟨none, [1]⟩) ∧
    rulesContext GenCtx.empty wrappedInt32Field =
      some (⟨some wrappedInt32Field, .int32Rules ⟨none, [1]⟩, none, "wrapper", "int32", false,
        "", ""⟩, none) :=
  ⟨rfl, rfl, rfl,
    wrapper_detection.2.2.1 GenCtx.empty wrappedInt32Field none (.int32 ⟨none, [1]⟩) "int32"
      (.int32Rules ⟨none, [1]⟩) rfl rfl rfl⟩

/-- C3. Absent payload dispatch.  When the rule payload names no kind,
resolveRules returns kind "repeated" with an empty repeated payload if the type
is repeated; otherwise kind "map" with an empty map payload if the type is a
map whose element type is an embedded message; otherwise, a map type having an
element type, kind "message" with the nested message-level constraints as
payload if the type is an embedded message, and kind "none" with no payload if
it is not.  For a nil rules pointer on a key or element type the last two cases
apply.  No result for an absent payload is flagged as wrapped or has kind
"wrapper" or "error". -/
theorem absent_payload_dispatch :
    (∀ (typ : Typ) (m : Option MessageRules),
      (typ.isRepeated = true →
        resolveRules (some typ) (.ptr (.mk m .absent)) =
          some ⟨"repeated", .repeatedRules emptyRepeatedRules, m, false⟩) ∧
      (typ.isRepeated = false → typ.isMap = true →
        (∃ el, typ.element = some el ∧ el.isEmbed = true) →
        resolveRules (some typ) (.ptr (.mk m .absent)) =
          some ⟨"map", .mapRules emptyMapRules, m, false⟩) ∧
      (typ.isRepeated = false →
        ¬ (typ.isMap = true ∧ ∃ el, typ.element = some el ∧ el.isEmbed = true) →
        (typ.isMap = true → typ.element ≠ none) →
        (typ.isEmbed = true →
          resolveRules (some typ) (.ptr (.mk m .absent)) =
            some ⟨"message", .messageRules m, m, false⟩) ∧
        (typ.isEmbed = false →
          resolveRules (some typ) (.ptr (.mk m .absent)) = some ⟨"none", .nil, none, false⟩))) ∧
    (∀ (el : FieldTypeElem),
      resolveRules (some (.elem el)) .nil =
        some (if el.isEmbed = true then ⟨"message", .messageRules none, none, false⟩
          else ⟨"none", .nil, none, false⟩)) ∧
    (∀ (typ : Option Typ) (rules : FieldRulesPtr) (res : Resolved),
      rules.GetType = .absent → resolveRules typ rules = some res →
      res.wrapped = false ∧ res.ruleType ≠ "wrapper" ∧ res.ruleType ≠ "error" ∧
      (res.ruleType = "repeated" ∨ res.ruleType = "map" ∨ res.ruleType = "message" ∨
        res.ruleType = "none")) := by
  refine ⟨fun typ m => ⟨?_, ?_, ?_⟩, ?_, ?_⟩
  · intro h
    cases typ with
    | fieldType ft =>
      simp only [Typ.isRepeated] at h
      simp [resolveRules, FieldRulesPtr.GetType, FieldRules.type, h, FieldRulesPtr.Message,
        FieldRules.message]
    | elem e => simp [Typ.isRepeated] at h
  · intro h1 h2 h3
    cases typ with
    | fieldType ft =>
      simp only [Typ.isRepeated, Typ.isMap, Typ.element] at h1 h2 h3
      obtain ⟨el, he, hb⟩ := h3
      simp [resolveRules, FieldRulesPtr.GetType, FieldRules.type, h1, h2, he, hb,
        FieldRulesPtr.Message, FieldRules.message]
    | elem e => simp [Typ.isMap] at h2
  · intro h1 h2 h3
    cases typ with
    | fieldType ft =>
      simp only [Typ.isRepeated, Typ.isMap, Typ.element, Typ.isEmbed] at h1 h2 h3 ⊢
      by_cases hm : ft.isMap = true
      · cases he : ft.element with
        | none => exact absurd he (h3 hm)
        | some el =>
          have hb : el.isEmbed = false := by
            cases hb : el.isEmbed
            · rfl
            · exact absurd ⟨hm, el, he, hb⟩ h2
          constructor <;> intro hemb <;>
            simp [resolveRules, FieldRulesPtr.GetType, FieldRules.type, h1, hm, he, hb, hemb,
              FieldRulesPtr.GetMessage, FieldRules.message, IsEmbed, Typ.isEmbed]
      · constructor <;> intro hemb <;>
          simp [resolveRules, FieldRulesPtr.GetType, FieldRules.type, h1, hm, hemb,
            FieldRulesPtr.GetMessage, FieldRules.message, IsEmbed, Typ.isEmbed]
    | elem e =>
      constructor <;> intro hemb <;>
        simp [resolveRules, FieldRulesPtr.GetType, FieldRules.type, hemb,
          FieldRulesPtr.GetMessage, FieldRules.message, IsEmbed]
  · intro el
    cases h : el.isEmbed <;>
      simp [resolveRules, FieldRulesPtr.GetType, FieldRulesPtr.GetMessage, IsEmbed, Typ.isEmbed, h]
  · intro typ rules res ht h
    rcases resolveRules_absent typ rules res ht h with h | h | h | h <;> simp [h]

/-- Witness of C3: a map from string to string without rules resolves to
"none", a map with message values to an empty map payload. -/
theorem absent_payload_dispatch_witness :
    (Typ.fieldType (mapT ⟨false⟩ ⟨false⟩)).isRepeated = false ∧
    (Typ.fieldType (mapT ⟨false⟩ ⟨true⟩)).isMap = true ∧
    resolveRules (some (.fieldType (mapT ⟨false⟩ ⟨false⟩))) (.ptr (.mk none .absent)) =
      some ⟨"none", .nil, none, false⟩ ∧
    resolveRules (some (.fieldType (mapT ⟨false⟩ ⟨true⟩))) (.ptr (.mk none .absent)) =
      some ⟨"map", .mapRules emptyMapRules, none, false⟩ :=
  ⟨rfl, rfl,
    ((absent_payload_dispatch.1 (.fieldType (mapT ⟨false⟩ ⟨false⟩)) none).2.2 rfl (by decide)
      (by decide)).2 rfl,
    (absent_payload_dispatch.1 (.fieldType (mapT ⟨false⟩ ⟨true⟩)) none).2.1 rfl rfl
      ⟨⟨true⟩, rfl, rfl⟩⟩

/-- On a non-nil type and a non-nil rules pointer resolveRules panics only in
one case: an absent payload on a type that is a map, is not repeated and has
no element type. -/
theorem resolveRules_total_of (typ : Typ) (m : Option MessageRules) (t : RulesType)
    (h : typ.isRepeated = false → typ.isMap = true → typ.element ≠ none) :
    ∃ res, resolveRules (some typ) (.ptr (.mk m t)) = some res := by
  cases t
  case absent =>
    cases typ with
    | elem e =>
      simp [resolveRules, FieldRulesPtr.GetType, FieldRules.type, IsEmbed]
    | fieldType ft =>
      simp only [Typ.isRepeated, Typ.isMap, Typ.element] at h
      by_cases hr : ft.isRepeated = true
      · simp [resolveRules, FieldRulesPtr.GetType, FieldRules.type, hr, FieldRulesPtr.Message]
      · have hr' : ft.isRepeated = false := by simpa using hr
        by_cases hm : ft.isMap = true
        · cases he : ft.element with
          | none => exact absurd he (h hr' hm)
          | some el =>
            cases hb : el.isEmbed <;>
              simp [resolveRules, FieldRulesPtr.GetType, FieldRules.type, hr', hm, he, hb,
                FieldRulesPtr.Message, IsEmbed]
        · simp [resolveRules, FieldRulesPtr.GetType, FieldRules.type, hr', hm, IsEmbed]
  all_goals
    simp [resolveRules, FieldRulesPtr.GetType, FieldRules.type, IsEmbed,
      FieldRulesPtr.Message, FieldRules.message]

/-- C15, as amended.  For every target type shape (a map type having an element
type) and every rule payload, resolveRules returns a result, and its nested
message constraints are the message-level constraint data of the payload in
every branch but one: an explicit kind, an absent kind resolving to "repeated",
"map" or "message", and "error".  In the branch "none" the nested message
constraints are unset. -/
theorem messageRule_carried (typ : Typ) (m : Option MessageRules) (t : RulesType)
    (h : typ.isRepeated = false → typ.isMap = true → typ.element ≠ none) :
    ∃ res, resolveRules (some typ) (.ptr (.mk m t)) = some res ∧
      (res.ruleType ≠ "none" → res.messageRule = m) ∧
      (res.ruleType = "none" → res.messageRule = none ∧ t = .absent ∧ typ.isEmbed = false ∧
        typ.isRepeated = false) := by
  obtain ⟨res, hres⟩ := resolveRules_total_of typ m t h
  refine ⟨res, hres, ?_⟩
  cases t
  case absent =>
    cases typ with
    | elem e =>
      cases he : e.isEmbed <;>
        simp [resolveRules, FieldRulesPtr.GetType, FieldRules.type, IsEmbed, Typ.isEmbed, he,
          FieldRulesPtr.GetMessage, FieldRules.message] at hres <;>
        subst hres <;> simp [Typ.isEmbed, Typ.isRepeated, he]
    | fieldType ft =>
      simp only [Typ.isRepeated, Typ.isMap, Typ.element, Typ.isEmbed] at h ⊢
      cases hr : ft.isRepeated
      · cases hm : ft.isMap
        · cases hb : ft.isEmbed <;>
            simp [resolveRules, FieldRulesPtr.GetType, FieldRules.type, IsEmbed, Typ.isEmbed,
              hr, hm, hb, FieldRulesPtr.GetMessage, FieldRules.message] at hres <;>
            subst hres <;> simp
        · cases he : ft.element with
          | none => exact absurd he (h hr hm)
          | some el =>
            cases hel : el.isEmbed <;> cases hb : ft.isEmbed <;>
              simp [resolveRules, FieldRulesPtr.GetType, FieldRules.type, IsEmbed, Typ.isEmbed,
                hr, hm, he, hel, hb, FieldRulesPtr.GetMessage, FieldRulesPtr.Message,
                FieldRules.message] at hres <;>
              subst hres <;> simp
      · simp [resolveRules, FieldRulesPtr.GetType, FieldRules.type, hr, FieldRulesPtr.Message,
          FieldRules.message] at hres
        subst hres
        simp
  all_goals
    simp [resolveRules, FieldRulesPtr.GetType, FieldRules.type, IsEmbed,
      FieldRulesPtr.Message, FieldRules.message] at hres
    subst hres
    simp

/-- Witness of C15 as amended: message rules on an embedded-message field stay
with kind "message". -/
theorem messageRule_carried_witness :
    ((Typ.fieldType embedT).isRepeated = false → (Typ.fieldType embedT).isMap = true →
      (Typ.fieldType embedT).element ≠ none) ∧
    ∃ res, resolveRules (some (.fieldType embedT)) (.ptr requiredOnly) = some res ∧
      (res.ruleType ≠ "none" → res.messageRule = some ⟨none, some true⟩) ∧
      (res.ruleType = "none" → res.messageRule = none ∧ RulesType.absent = .absent ∧
        (Typ.fieldType embedT).isEmbed = false ∧ (Typ.fieldType embedT).isRepeated = false) :=
  ⟨by decide,
    messageRule_carried (.fieldType embedT) (some ⟨none, some true⟩) .absent (by decide)⟩

/-- Counterexample to C15 as stated: a scalar field whose payload names no kind
and carries `required = true` resolves to "none" without nested message
constraints. -/
theorem messageRule_carried_counterexample :
    requiredOnly.message = some ⟨none, some true⟩ ∧
    resolveRules (some (.fieldType scalarT)) (.ptr requiredOnly) =
      some ⟨"none", .nil, none, false⟩ := by
  decide

/-! ## Regex synthesis -/

/-- Joining at least two pieces. -/
theorem intercalate_cons_cons {α : Type} (sep a b : List α) (l : List (List α)) :
    List.intercalate sep (a :: b :: l) = a ++ sep ++ List.intercalate sep (b :: l) := by
  simp [List.intercalate, List.intersperse]

/-- Joining one piece. -/
theorem intercalate_singleton {α : Type} (sep a : List α) :
    List.intercalate sep [a] = a := by
  simp [List.intercalate, List.intersperse]

/-- A split has at least one segment. -/
theorem splitSlash_ne_nil (s : List Char) : splitSlash s ≠ [] := by
  cases s with
  | nil => simp [splitSlash]
  | cons c cs =>
    simp only [splitSlash]
    split
    · simp
    · split <;> simp

/-- Joining the segments by a slash gives the string back. -/
theorem intercalate_splitSlash (s : List Char) : List.intercalate ['/'] (splitSlash s) = s := by
  induction s with
  | nil => simp [splitSlash, List.intercalate, List.intersperse]
  | cons c cs ih =>
    simp only [splitSlash]
    split
    · rename_i hc
      cases hs : splitSlash cs with
      | nil => exact absurd hs (splitSlash_ne_nil cs)
      | cons a l =>
        rw [intercalate_cons_cons, ← hs, ih, hc]
        rfl
    · cases hs : splitSlash cs with
      | nil => exact absurd hs (splitSlash_ne_nil cs)
      | cons a l =>
        rw [hs] at ih
        simp only
        cases l with
        | nil =>
          rw [intercalate_singleton] at ih ⊢
          rw [ih]
        | cons b l =>
          rw [intercalate_cons_cons] at ih ⊢
          rw [← ih]
          simp

/-- No segment contains a slash. -/
theorem splitSlash_no_slash (s : List Char) : ∀ seg ∈ splitSlash s, '/' ∉ seg := by
  induction s with
  | nil => simp [splitSlash]
  | cons c cs ih =>
    simp only [splitSlash]
    split
    · intro seg hseg
      rcases List.mem_cons.1 hseg with h | h
      · simp [h]
      · exact ih seg h
    · rename_i hc
      cases hs : splitSlash cs with
      | nil => exact absurd hs (splitSlash_ne_nil cs)
      | cons a l =>
        rw [hs] at ih
        intro seg hseg
        rcases List.mem_cons.1 hseg with h | h
        · subst h
          have := ih a (List.mem_cons_self _ _)
          simp only [List.mem_cons, not_or]
          exact ⟨fun h => hc h.symm, this⟩
        · exact ih seg (List.mem_cons_of_mem _ h)

/-- The inner loop appends the rewritten segments joined by a slash. -/
theorem writeElems_eq (len : Nat) (segs : List (List Char)) :
    ∀ (j : Nat) (regex : List Char), j + segs.length = len → (∀ seg ∈ segs, seg ≠ []) →
      writeElems len j segs regex =
        some (regex ++ List.intercalate ['/'] (segs.map rewriteSegment)) := by
  induction segs with
  | nil => intro j regex _ _; simp [writeElems, List.intercalate]
  | cons elem rest ih =>
    intro j regex hj hne
    have he : elem ≠ [] := hne elem (List.mem_cons_self _ _)
    obtain ⟨c, cs, rfl⟩ := List.exists_cons_of_ne_nil he
    have hlast : (c :: cs).getLast? = some ((c :: cs).getLast (by simp)) := List.getLast?_eq_getLast _ _
    have hrw : (if c = '\x7b' ∧ (c :: cs).getLast (by simp) = '\x7d' then regex ++ "[^/]+".toList
        else regex ++ (c :: cs)) = regex ++ rewriteSegment (c :: cs) := by
      simp only [rewriteSegment, isVariableSegment, hlast, List.head?_cons, Option.some.injEq]
      split <;> rfl
    rw [writeElems, hlast]
    simp only [List.head?_cons]
    rw [hrw]
    cases rest with
    | nil =>
      have : j = len - 1 := by simp at hj; omega
      simp [this, writeElems, intercalate_singleton]
    | cons e2 rest =>
      have hj2 : j ≠ len - 1 := by simp at hj; omega
      rw [if_pos hj2, ih (j + 1) _ (by simp at hj ⊢; omega)
        (fun seg hs => hne seg (List.mem_cons_of_mem _ hs))]
      simp only [List.map_cons, intercalate_cons_cons, List.append_assoc]

/-- The outer loop appends the alternatives joined by a bar. -/
theorem writePatterns_eq (len : Nat) (ps : List (List Char)) :
    ∀ (i : Nat) (regex : List Char), i + ps.length = len →
      (∀ p ∈ ps, ∀ seg ∈ splitSlash p, seg ≠ []) →
      writePatterns len i ps regex =
        some (regex ++ List.intercalate ['|'] (ps.map anchoredPattern)) := by
  induction ps with
  | nil => intro i regex _ _; simp [writePatterns, List.intercalate]
  | cons p rest ih =>
    intro i regex hi hne
    rw [writePatterns]
    simp only
    rw [writeElems_eq (splitSlash p).length (splitSlash p) 0 _ (by simp)
      (hne p (List.mem_cons_self _ _))]
    simp only
    cases rest with
    | nil =>
      have : i = len - 1 := by simp at hi; omega
      simp [this, writePatterns, intercalate_singleton, anchoredPattern]
    | cons p2 rest =>
      have hi2 : i ≠ len - 1 := by simp at hi; omega
      rw [if_pos hi2, ih (i + 1) _ (by simp at hi ⊢; omega)
        (fun q hq => hne q (List.mem_cons_of_mem _ hq))]
      simp only [List.map_cons, intercalate_cons_cons, List.append_assoc, anchoredPattern]
      simp

/-- C4. Regex synthesis has a fixed shape.  For every list of patterns none of
whose segments is empty, basicResourceValidation returns the string rule whose
pattern is the outer group around the alternatives joined by a bar, each
alternative being the rewritten segments of one pattern joined by a slash
between the anchors, where a segment is rewritten to the wildcard exactly when
its first character is an opening brace and its last a closing brace and is
copied otherwise; the segments of a pattern are its slash-free pieces, which
joined by a slash give the pattern back.  The two-pattern example yields the
expression of the claim. -/
theorem regex_shape :
    (∀ (resourceDesc : ResourceDescriptor),
      (∀ p ∈ resourceDesc.pattern, ∀ seg ∈ splitSlash p, seg ≠ []) →
      basicResourceValidation resourceDesc =
        some ⟨some (patternsRegex resourceDesc.pattern), some true, []⟩) ∧
    (∀ seg : List Char,
      (isVariableSegment seg → rewriteSegment seg = "[^/]+".toList) ∧
      (¬ isVariableSegment seg → rewriteSegment seg = seg)) ∧
    (∀ pattern : List Char,
      List.intercalate ['/'] (splitSlash pattern) = pattern ∧
      ∀ seg ∈ splitSlash pattern, '/' ∉ seg) ∧
    (∀ (type nameField : String),
      basicResourceValidation
          ⟨type, ["users/\x7bid\x7d".toList, "orgs/\x7bid\x7d/users/\x7bid\x7d".toList], nameField⟩ =
        some ⟨some "^(\\Ausers/[^/]+\\z|\\Aorgs/[^/]+/users/[^/]+\\z)$".toList, some true, []⟩) := by
  refine ⟨?_, ?_, ?_, ?_⟩
  · intro rd hne
    simp only [basicResourceValidation]
    rw [writePatterns_eq rd.pattern.length rd.pattern 0 _ (by simp) hne]
    rfl
  · intro seg
    constructor <;> intro h <;> simp [rewriteSegment, h]
  · intro pattern
    exact ⟨intercalate_splitSlash pattern, splitSlash_no_slash pattern⟩
  · intro type nameField
    simp only [basicResourceValidation]
    decide

/-- Witness of C4: one pattern with a literal and a variable segment. -/
theorem regex_shape_witness :
    (∀ p ∈ ["a/\x7bb\x7d".toList], ∀ seg ∈ splitSlash p, seg ≠ []) ∧
    basicResourceValidation ⟨"example.com/A", ["a/\x7bb\x7d".toList], ""⟩ =
      some ⟨some "^(\\Aa/[^/]+\\z)$".toList, some true, []⟩ :=
  ⟨by decide, regex_shape.1 ⟨"example.com/A", ["a/\x7bb\x7d".toList], ""⟩ (by decide)⟩

/-- Characters without a meaning of their own are parsed as themselves. -/
theorem parse_literal (cs : List Char) : ∀ (stack : List Frame) (alts cur : List Regex),
    (∀ c ∈ cs, c ∉ metaChars) →
    cs.foldlM parseStep ⟨stack, ⟨alts, cur⟩, .normal⟩ =
      some ⟨stack, ⟨alts, (cs.map Regex.char).reverse ++ cur⟩, .normal⟩ := by
  induction cs with
  | nil => intro stack alts cur _; rfl
  | cons c cs ih =>
    intro stack alts cur h
    have hc : c ∉ metaChars := h c (List.mem_cons_self _ _)
    simp only [metaChars, List.mem_cons, List.mem_singleton, not_or, List.not_mem_nil,
      not_false_eq_true, and_true] at hc
    obtain ⟨h1, h2, h3, h4, h5, h6, h7, h8, h9, h10, h11, h12, h13, h14⟩ := hc
    have hstep : parseStep ⟨stack, ⟨alts, cur⟩, .normal⟩ c =
        some ⟨stack, ⟨alts, .char c :: cur⟩, .normal⟩ := by
      simp [parseStep, PState.push, h1, h2, h3, h4, h5, h6, h7, h8, h9, h10, h11, h12, h13, h14]
    rw [List.foldlM_cons, hstep]
    simp only [Option.bind_eq_bind, Option.some_bind]
    rw [ih stack alts _ (fun d hd => h d (List.mem_cons_of_mem _ hd))]
    simp

/-- The wildcard is parsed as one or more characters other than a slash. -/
theorem parse_wildcard (stack : List Frame) (alts cur : List Regex) :
    "[^/]+".toList.foldlM parseStep ⟨stack, ⟨alts, cur⟩, .normal⟩ =
      some ⟨stack, ⟨alts, .plus (.noneOf ['/']) :: cur⟩, .normal⟩ := by
  simp [parseStep, PState.push, List.foldlM]

/-- A fold over a concatenation, when the fold over the first part succeeds. -/
theorem foldlM_append_some {α β : Type} (f : β → α → Option β) (l₁ l₂ : List α) (b b' : β)
    (h : l₁.foldlM f b = some b') : (l₁ ++ l₂).foldlM f b = l₂.foldlM f b' := by
  rw [List.foldlM_append, h]
  rfl

/-- A rewritten segment is parsed to the items of the segment. -/
theorem parse_segment (seg : List Char) (stack : List Frame) (alts cur : List Regex)
    (h : ¬ isVariableSegment seg → ∀ c ∈ seg, c ∉ metaChars) :
    (rewriteSegment seg).foldlM parseStep ⟨stack, ⟨alts, cur⟩, .normal⟩ =
      some ⟨stack, ⟨alts, (segmentItems seg).reverse ++ cur⟩, .normal⟩ := by
  by_cases hv : isVariableSegment seg
  · simp only [rewriteSegment, segmentItems, hv, if_true]
    exact parse_wildcard stack alts cur
  · simp only [rewriteSegment, segmentItems, hv, if_false]
    exact parse_literal seg stack alts cur (h hv)

/-- The rewritten segments joined by a slash are parsed to the items of the pattern. -/
theorem parse_segments (segs : List (List Char)) :
    ∀ (stack : List Frame) (alts cur : List Regex),
    (∀ seg ∈ segs, ¬ isVariableSegment seg → ∀ c ∈ seg, c ∉ metaChars) →
    (List.intercalate ['/'] (segs.map rewriteSegment)).foldlM parseStep
        ⟨stack, ⟨alts, cur⟩, .normal⟩ =
      some ⟨stack, ⟨alts,
        (List.intercalate [.char '/'] (segs.map segmentItems)).reverse ++ cur⟩, .normal⟩ := by
  induction segs with
  | nil => intro stack alts cur _; rfl
  | cons seg rest ih =>
    intro stack alts cur h
    cases rest with
    | nil =>
      simp only [List.map_cons, List.map_nil, intercalate_singleton]
      exact parse_segment seg stack alts cur (h seg (List.mem_cons_self _ _))
    | cons seg2 rest =>
      simp only [List.map_cons, intercalate_cons_cons]
      rw [List.append_assoc,
        foldlM_append_some _ _ _ _ _
          (parse_segment seg stack alts cur (h seg (List.mem_cons_self _ _)))]
      have hslash : parseStep ⟨stack, ⟨alts, (segmentItems seg).reverse ++ cur⟩, .normal⟩ '/' =
          some ⟨stack, ⟨alts, .char '/' :: ((segmentItems seg).reverse ++ cur)⟩, .normal⟩ := by
        simp [parseStep, PState.push]
      rw [List.singleton_append, List.foldlM_cons, hslash]
      simp only [Option.bind_eq_bind, Option.some_bind]
      have := ih stack alts (.char '/' :: ((segmentItems seg).reverse ++ cur))
        (fun s hs => h s (List.mem_cons_of_mem _ hs))
      simp only [List.map_cons] at this
      rw [this]
      simp

/-- An alternative is parsed to its anchored items. -/
theorem parse_pattern (pattern : List Char) (stack : List Frame) (alts : List Regex)
    (h : plainPattern pattern) :
    (anchoredPattern pattern).foldlM parseStep ⟨stack, ⟨alts, []⟩, .normal⟩ =
      some ⟨stack, ⟨alts, (.bot :: (patternItems pattern ++ [.eot])).reverse⟩, .normal⟩ := by
  have hA : "\\A".toList.foldlM parseStep ⟨stack, ⟨alts, []⟩, .normal⟩ =
      some ⟨stack, ⟨alts, [.bot]⟩, .normal⟩ := by
    simp [parseStep, PState.push, List.foldlM]
  unfold anchoredPattern
  rw [List.append_assoc, foldlM_append_some _ _ _ _ _ hA,
    foldlM_append_some _ _ _ _ _
      (parse_segments (splitSlash pattern) stack alts [.bot] (fun seg hs => (h seg hs).2))]
  simp [parseStep, PState.push, List.foldlM, patternItems]

/-- The alternatives joined by a bar are parsed to a group that closes to their
alternation. -/
theorem parse_patterns (ps : List (List Char)) :
    ∀ (stack : List Frame) (alts : List Regex), ps ≠ [] → (∀ p ∈ ps, plainPattern p) →
    ∃ f : Frame,
      (List.intercalate ['|'] (ps.map anchoredPattern)).foldlM parseStep
          ⟨stack, ⟨alts, []⟩, .normal⟩ = some ⟨stack, f, .normal⟩ ∧
      f.close = Regex.altOf (alts.reverse ++ ps.map patternExpr) := by
  induction ps with
  | nil => intro _ _ h; exact absurd rfl h
  | cons p rest ih =>
    intro stack alts _ h
    have hp := parse_pattern p stack alts (h p (List.mem_cons_self _ _))
    cases rest with
    | nil =>
      refine ⟨⟨alts, (.bot :: (patternItems p ++ [.eot])).reverse⟩, ?_, ?_⟩
      · simp only [List.map_cons, List.map_nil, intercalate_singleton]
        exact hp
      · simp [Frame.close, patternExpr]
    | cons p2 rest =>
      obtain ⟨f, hf, hc⟩ := ih stack (patternExpr p :: alts) (by simp)
        (fun q hq => h q (List.mem_cons_of_mem _ hq))
      refine ⟨f, ?_, ?_⟩
      · simp only [List.map_cons, intercalate_cons_cons]
        rw [List.append_assoc, foldlM_append_some _ _ _ _ _ hp]
        have hbar : parseStep
            ⟨stack, ⟨alts, (.bot :: (patternItems p ++ [.eot])).reverse⟩, .normal⟩ '|' =
            some ⟨stack, ⟨patternExpr p :: alts, []⟩, .normal⟩ := by
          simp [parseStep, patternExpr]
        rw [List.singleton_append, List.foldlM_cons, hbar]
        simp only [Option.bind_eq_bind, Option.some_bind]
        simpa using hf
      · rw [hc]
        simp

/-- Under the conditions of plainPattern the synthesized expression parses to
patternsExpr. -/
theorem parse_patternsRegex (ps : List (List Char)) (hne : ps ≠ [])
    (h : ∀ p ∈ ps, plainPattern p) :
    parseRegex (patternsRegex ps) = some (patternsExpr ps) := by
  obtain ⟨f, hf, hc⟩ := parse_patterns ps [⟨[], [.bot]⟩] [] hne h
  have hopen : "^(".toList.foldlM parseStep ⟨[], ⟨[], []⟩, .normal⟩ =
      some ⟨[⟨[], [.bot]⟩], ⟨[], []⟩, .normal⟩ := by
    simp [parseStep, PState.push, List.foldlM]
  have hc2 : Regex.altOf (f.alts.reverse ++ [Regex.seqOf f.cur.reverse]) =
      Regex.altOf (ps.map patternExpr) := by
    simpa [Frame.close] using hc
  unfold parseRegex patternsRegex
  rw [List.append_assoc, foldlM_append_some _ _ _ _ _ hopen, foldlM_append_some _ _ _ _ _ hf]
  simp [parseStep, PState.push, List.foldlM, hc2, Frame.close, patternsExpr, Regex.seqOf,
    Regex.altOf]

/-- Matching a sequence of two lists of items. -/
theorem run_seqOf_append (rs₁ rs₂ : List Regex) : ∀ p : Pos,
    (Regex.seqOf (rs₁ ++ rs₂)).run p =
      ((Regex.seqOf rs₁).run p).flatMap fun q => (Regex.seqOf rs₂).run q := by
  induction rs₁ with
  | nil => intro p; simp [Regex.seqOf, Regex.run]
  | cons r rs ih =>
    intro p
    simp only [List.cons_append, Regex.seqOf, Regex.run, List.flatMap_assoc]
    congr 1
    funext q
    exact ih q

/-- Matching an alternation. -/
theorem mem_run_altOf (rs : List Regex) (p q : Pos) :
    q ∈ (Regex.altOf rs).run p ↔ ∃ r ∈ rs, q ∈ r.run p := by
  induction rs with
  | nil => simp [Regex.altOf, Regex.run]
  | cons r rs ih => simp [Regex.altOf, Regex.run, ih]

/-- Literal characters do not match at the end of the text. -/
theorem run_chars_nil (cs : List Char) (c : Char) (b : Bool) :
    (Regex.seqOf ((c :: cs).map Regex.char)).run (b, []) = [] := by
  simp [Regex.seqOf, Regex.run]

/-- Literal characters match the text character by character. -/
theorem run_chars_cons (cs : List Char) (c d : Char) (b : Bool) (rest : List Char) :
    (Regex.seqOf ((c :: cs).map Regex.char)).run (b, d :: rest) =
      if d = c then (Regex.seqOf (cs.map Regex.char)).run (false, rest) else [] := by
  by_cases h : d = c <;> simp [Regex.seqOf, Regex.run, h]

/-- A sequence of literal characters matches exactly itself. -/
theorem mem_run_chars (cs : List Char) : ∀ p q : Pos,
    q ∈ (Regex.seqOf (cs.map Regex.char)).run p ↔
      p.2 = cs ++ q.2 ∧ (cs = [] → q = p) ∧ (cs ≠ [] → q.1 = false) := by
  induction cs with
  | nil =>
    intro p q
    have hrun : (Regex.seqOf (([] : List Char).map Regex.char)).run p = [p] := rfl
    rw [hrun, List.mem_singleton]
    constructor
    · rintro rfl
      exact ⟨rfl, fun _ => rfl, fun h => absurd rfl h⟩
    · rintro ⟨_, h, _⟩
      exact h rfl
  | cons c cs ih =>
    intro p q
    obtain ⟨b, t⟩ := p
    cases t with
    | nil =>
      rw [run_chars_nil]
      constructor
      · intro h
        exact absurd h (List.not_mem_nil _)
      · rintro ⟨h, _⟩
        exact absurd h (by simp)
    | cons d rest =>
      rw [run_chars_cons]
      by_cases hd : d = c
      · subst hd
        rw [if_pos rfl, ih]
        constructor
        · rintro ⟨h1, h2, h3⟩
          refine ⟨by simp [show rest = cs ++ q.2 from h1], fun h => absurd h (by simp), fun _ => ?_⟩
          by_cases hcs : cs = []
          · rw [h2 hcs]
          · exact h3 hcs
        · rintro ⟨h1, _, h3⟩
          have h1' : rest = cs ++ q.2 := by simpa using h1
          have hq : q.1 = false := h3 (by simp)
          refine ⟨h1', ?_, fun _ => hq⟩
          intro hcs
          subst hcs
          obtain ⟨qb, qt⟩ := q
          simp only [List.nil_append] at h1'
          simp only at hq
          rw [hq, h1']
      · rw [if_neg hd]
        constructor
        · intro h
          exact absurd h (List.not_mem_nil _)
        · rintro ⟨h, _⟩
          simp only [List.cons_append, List.cons.injEq] at h
          exact absurd h.1 hd

/-- The wildcard does not match at the end of the text. -/
theorem iter_noneOf_nil (cs : List Char) (n : Nat) (b : Bool) :
    Regex.iter (fun r => (Regex.noneOf cs).run r) n (b, []) = [] := by
  cases n <;> simp [Regex.iter, Regex.run]

/-- One step of the wildcard. -/
theorem iter_noneOf_cons (cs : List Char) (n : Nat) (b : Bool) (d : Char) (rest : List Char) :
    Regex.iter (fun r => (Regex.noneOf cs).run r) (n + 1) (b, d :: rest) =
      if d ∈ cs then []
      else (false, rest) :: Regex.iter (fun r => (Regex.noneOf cs).run r) n (false, rest) := by
  by_cases h : d ∈ cs <;> simp [Regex.iter, Regex.run, h]

/-- The wildcard matches exactly the non-empty strings without an excluded
character. -/
theorem mem_iter_noneOf (cs : List Char) (n : Nat) : ∀ p q : Pos,
    q ∈ Regex.iter (fun r => (Regex.noneOf cs).run r) n p ↔
      q.1 = false ∧ ∃ v : List Char, v ≠ [] ∧ v.length ≤ n ∧ (∀ c ∈ v, c ∉ cs) ∧
        p.2 = v ++ q.2 := by
  induction n with
  | zero =>
    intro p q
    simp only [Regex.iter, List.not_mem_nil, false_iff, not_and, not_exists]
    intro _ v hv hl
    exact absurd (List.length_eq_zero.1 (Nat.le_zero.1 hl)) hv
  | succ n ih =>
    intro p q
    obtain ⟨b, t⟩ := p
    cases t with
    | nil =>
      rw [iter_noneOf_nil]
      simp only [List.not_mem_nil, false_iff, not_and, not_exists]
      intro _ v hv _ _ h
      exact hv (List.append_eq_nil.1 h.symm).1
    | cons d rest =>
      rw [iter_noneOf_cons]
      by_cases hd : d ∈ cs
      · rw [if_pos hd]
        simp only [List.not_mem_nil, false_iff, not_and, not_exists]
        intro _ v hv _ hc h
        cases v with
        | nil => exact hv rfl
        | cons e v =>
          simp only [List.cons_append, List.cons.injEq] at h
          exact hc e (List.mem_cons_self _ _) (h.1 ▸ hd)
      · rw [if_neg hd, List.mem_cons, ih]
        constructor
        · rintro (rfl | ⟨hq, v, hv, hl, hc, hp⟩)
          · refine ⟨rfl, [d], by simp, by simp, ?_, by simp⟩
            intro c hc
            rw [List.mem_singleton.1 hc]
            exact hd
          · refine ⟨hq, d :: v, by simp, by simp [hl], ?_, ?_⟩
            · intro c hc'
              rcases List.mem_cons.1 hc' with rfl | hc'
              · exact hd
              · exact hc _ hc'
            · simp only [List.cons_append, List.cons.injEq, true_and]
              exact hp
        · rintro ⟨hq, v, hv, hl, hc, hp⟩
          cases v with
          | nil => exact absurd rfl hv
          | cons e v =>
            simp only [List.cons_append, List.cons.injEq] at hp
            obtain ⟨rfl, hp⟩ := hp
            cases v with
            | nil =>
              left
              obtain ⟨qb, qt⟩ := q
              simp only [List.nil_append] at hp
              simp only at hq
              rw [hq, hp]
            | cons e2 v =>
              right
              refine ⟨hq, e2 :: v, by simp, ?_, ?_, hp⟩
              · simp only [List.length_cons] at hl ⊢
                omega
              · intro c hc'
                exact hc c (List.mem_cons_of_mem _ hc')

/-- The items of a segment match exactly the values that fit the segment. -/
theorem mem_run_segment (seg : List Char) (hne : seg ≠ []) (hs : '/' ∉ seg) (p q : Pos) :
    q ∈ (Regex.seqOf (segmentItems seg)).run p ↔
      q.1 = false ∧ ∃ v : List Char, fitsSegment seg v ∧ '/' ∉ v ∧ p.2 = v ++ q.2 := by
  by_cases hv : isVariableSegment seg
  · have hrun : (Regex.seqOf (segmentItems seg)).run p =
        Regex.iter (fun r => (Regex.noneOf ['/']).run r) (p.2.length + 1) p := by
      simp [segmentItems, hv, Regex.seqOf, Regex.run]
    rw [hrun, mem_iter_noneOf]
    simp only [fitsSegment, hv, if_true]
    constructor
    · rintro ⟨hq, v, hv1, _, hc, hp⟩
      exact ⟨hq, v, hv1, fun h => hc _ h (by simp), hp⟩
    · rintro ⟨hq, v, hv1, hc, hp⟩
      refine ⟨hq, v, hv1, ?_, ?_, hp⟩
      · rw [hp]
        simp only [List.length_append]
        omega
      · intro c hc' hmem
        rw [List.mem_singleton.1 hmem] at hc'
        exact hc hc'
  · have hrun : (Regex.seqOf (segmentItems seg)).run p =
        (Regex.seqOf (seg.map Regex.char)).run p := by
      simp [segmentItems, hv]
    rw [hrun, mem_run_chars]
    simp only [fitsSegment, hv, if_false]
    constructor
    · rintro ⟨hp, _, hq⟩
      exact ⟨hq hne, seg, rfl, hs, hp⟩
    · rintro ⟨hq, v, rfl, _, hp⟩
      exact ⟨hp, fun h => absurd h hne, fun _ => hq⟩

/-- The items of a pattern match exactly the values that fit its segments, joined
by a slash. -/
theorem mem_run_items (segs : List (List Char)) : ∀ p q : Pos,
    segs ≠ [] → (∀ seg ∈ segs, seg ≠ [] ∧ '/' ∉ seg) →
    (q ∈ (Regex.seqOf (List.intercalate [.char '/'] (segs.map segmentItems))).run p ↔
      q.1 = false ∧ ∃ values : List (List Char), List.Forall₂ fitsSegment segs values ∧
        (∀ v ∈ values, '/' ∉ v) ∧ p.2 = List.intercalate ['/'] values ++ q.2) := by
  induction segs with
  | nil => intro _ _ h; exact absurd rfl h
  | cons seg rest ih =>
    intro p q _ hsegs
    have hseg := hsegs seg (List.mem_cons_self _ _)
    cases rest with
    | nil =>
      simp only [List.map_cons, List.map_nil, intercalate_singleton]
      rw [mem_run_segment seg hseg.1 hseg.2]
      constructor
      · rintro ⟨hq, v, hf, hv, hp⟩
        refine ⟨hq, [v], List.Forall₂.cons hf List.Forall₂.nil, ?_, ?_⟩
        · intro w hw
          rw [List.mem_singleton.1 hw]
          exact hv
        · rw [intercalate_singleton]
          exact hp
      · rintro ⟨hq, values, hf, hv, hp⟩
        cases hf with
        | cons hf hrest =>
          cases hrest
          rw [intercalate_singleton] at hp
          exact ⟨hq, _, hf, hv _ (List.mem_cons_self _ _), hp⟩
    | cons seg2 rest =>
      have ih' := fun p q => ih p q (by simp) (fun s hs => hsegs s (List.mem_cons_of_mem _ hs))
      simp only [List.map_cons, intercalate_cons_cons] at ih' ⊢
      rw [List.append_assoc, run_seqOf_append, List.mem_flatMap]
      constructor
      · rintro ⟨a, ha, hq⟩
        rw [mem_run_segment seg hseg.1 hseg.2] at ha
        obtain ⟨_, v, hf, hv, hp⟩ := ha
        rw [List.singleton_append] at hq
        simp only [Regex.seqOf, Regex.run, List.mem_flatMap] at hq
        obtain ⟨a2, ha2, hq⟩ := hq
        obtain ⟨ab, at'⟩ := a
        cases at' with
        | nil => simp at ha2
        | cons d t =>
          by_cases hd : d = '/'
          · simp only [hd, if_true, List.mem_singleton] at ha2
            subst ha2
            have := (ih' (false, t) q).1 (by simpa [Regex.seqOf] using hq)
            obtain ⟨hq1, values, hfs, hvs, hps⟩ := this
            refine ⟨hq1, v :: values, List.Forall₂.cons hf hfs, ?_, ?_⟩
            · intro w hw
              rcases List.mem_cons.1 hw with rfl | hw
              · exact hv
              · exact hvs w hw
            · cases hfs with
              | cons hf2 hrest =>
                rw [intercalate_cons_cons, hp]
                simp only at hps
                simp only [hd, List.append_assoc, List.singleton_append, hps]
                rfl
          · simp [hd] at ha2
      · rintro ⟨hq, values, hfs, hvs, hp⟩
        cases hfs with
        | cons hf hrest =>
          rename_i v vs
          cases hrest with
          | cons hf2 hrest2 =>
            rename_i v2 vs2
            rw [intercalate_cons_cons] at hp
            refine ⟨(false, '/' :: (List.intercalate ['/'] (v2 :: vs2) ++ q.2)), ?_, ?_⟩
            · rw [mem_run_segment seg hseg.1 hseg.2]
              refine ⟨rfl, v, hf, hvs v (List.mem_cons_self _ _), ?_⟩
              rw [hp]
              simp
            · rw [List.singleton_append]
              simp only [Regex.seqOf, Regex.run, if_true, List.mem_flatMap, List.mem_singleton,
                exists_eq_left]
              have := (ih' (false, List.intercalate ['/'] (v2 :: vs2) ++ q.2) q).2
                ⟨hq, v2 :: vs2, List.Forall₂.cons hf2 hrest2,
                  fun w hw => hvs w (List.mem_cons_of_mem _ hw), rfl⟩
              simpa [Regex.seqOf] using this

/-- An alternative matches from the beginning of the text exactly when the text
is an instance of its pattern. -/
theorem run_patternExpr (pattern text : List Char)
    (h : ∀ seg ∈ splitSlash pattern, seg ≠ []) :
    (∃ q, q ∈ (patternExpr pattern).run (true, text)) ↔ IsInstance pattern text := by
  have hitems := fun q => mem_run_items (splitSlash pattern) (true, text) q
    (splitSlash_ne_nil pattern) (fun seg hs => ⟨h seg hs, splitSlash_no_slash pattern seg hs⟩)
  have hrun : ∀ q, q ∈ (patternExpr pattern).run (true, text) ↔
      q ∈ (Regex.seqOf (patternItems pattern)).run (true, text) ∧ q.2 = [] := by
    intro q
    unfold patternExpr
    rw [Regex.seqOf, Regex.run]
    simp only [Regex.run, if_true, List.flatMap_cons, List.flatMap_nil, List.append_nil]
    rw [run_seqOf_append, List.mem_flatMap]
    simp only [Regex.seqOf, Regex.run]
    constructor
    · rintro ⟨a, ha, hq⟩
      by_cases hnil : a.2 = []
      · simp only [hnil, if_true, List.flatMap_cons, List.flatMap_nil, List.append_nil,
          List.mem_singleton] at hq
        subst hq
        exact ⟨ha, hnil⟩
      · simp [hnil] at hq
    · rintro ⟨ha, hnil⟩
      exact ⟨q, ha, by simp [hnil]⟩
  unfold IsInstance
  constructor
  · rintro ⟨q, hq⟩
    obtain ⟨hq1, hq2⟩ := (hrun q).1 hq
    obtain ⟨_, values, hf, hv, hp⟩ := (hitems q).1 hq1
    refine ⟨values, hf, hv, ?_⟩
    simp only at hp
    rw [hp, hq2, List.append_nil]
  · rintro ⟨values, hf, hv, ht⟩
    refine ⟨(false, []), (hrun _).2 ⟨(hitems _).2 ⟨rfl, values, hf, hv, ?_⟩, rfl⟩⟩
    simp only [List.append_nil]
    exact ht

/-- Only the first start position is the beginning of the text. -/
theorem mem_startPositions (text : List Char) : ∀ (b : Bool) (p : Pos),
    p ∈ startPositions b text → p = (b, text) ∨ p.1 = false := by
  induction text with
  | nil =>
    intro b p hp
    simp only [startPositions, List.mem_singleton] at hp
    exact Or.inl hp
  | cons c cs ih =>
    intro b p hp
    simp only [startPositions, List.mem_cons] at hp
    rcases hp with hp | hp
    · exact Or.inl hp
    · rcases ih false p hp with h | h
      · right
        rw [h]
      · exact Or.inr h

/-- The whole text is a start position. -/
theorem self_mem_startPositions (text : List Char) (b : Bool) :
    (b, text) ∈ startPositions b text := by
  cases text <;> simp [startPositions]

/-- The synthesized expression matches exactly the instances of the patterns. -/
theorem matchString_patternsExpr (ps : List (List Char)) (text : List Char)
    (h : ∀ p ∈ ps, ∀ seg ∈ splitSlash p, seg ≠ []) :
    (patternsExpr ps).matchString text = true ↔ ∃ p ∈ ps, IsInstance p text := by
  have hfalse : ∀ p : Pos, p.1 = false → (patternsExpr ps).run p = [] := by
    intro p hp
    simp [patternsExpr, Regex.altOf, Regex.seqOf, Regex.run, hp]
  have htrue : ∀ q, q ∈ (patternsExpr ps).run (true, text) ↔
      q.2 = [] ∧ ∃ p ∈ ps, q ∈ (patternExpr p).run (true, text) := by
    intro q
    have : (patternsExpr ps).run (true, text) =
        ((Regex.altOf (ps.map patternExpr)).run (true, text)).flatMap fun a =>
          if a.2 = [] then [a] else [] := by
      simp only [patternsExpr, Regex.altOf, Regex.seqOf, Regex.run, if_true, List.flatMap_cons,
        List.flatMap_nil, List.append_nil]
      congr 1
      funext a
      by_cases ha : a.2 = [] <;> simp [ha]
    rw [this, List.mem_flatMap]
    constructor
    · rintro ⟨a, ha, hq⟩
      by_cases hnil : a.2 = []
      · simp only [hnil, if_true, List.mem_singleton] at hq
        subst hq
        obtain ⟨r, hr, hq⟩ := (mem_run_altOf _ _ _).1 ha
        obtain ⟨p, hp, rfl⟩ := List.mem_map.1 hr
        exact ⟨hnil, p, hp, hq⟩
      · simp [hnil] at hq
    · rintro ⟨hnil, p, hp, hq⟩
      exact ⟨q, (mem_run_altOf _ _ _).2 ⟨_, List.mem_map_of_mem _ hp, hq⟩, by simp [hnil]⟩
  unfold Regex.matchString
  rw [List.any_eq_true]
  constructor
  · rintro ⟨pos, hpos, hrun⟩
    rcases mem_startPositions text true pos hpos with rfl | hf
    · cases hr : (patternsExpr ps).run (true, text) with
      | nil => simp [hr] at hrun
      | cons q rest =>
        obtain ⟨_, p, hp, hq⟩ := (htrue q).1 (by rw [hr]; exact List.mem_cons_self _ _)
        exact ⟨p, hp, (run_patternExpr p text (h p hp)).1 ⟨q, hq⟩⟩
    · simp [hfalse pos hf] at hrun
  · rintro ⟨p, hp, hi⟩
    obtain ⟨q, hq⟩ := (run_patternExpr p text (h p hp)).2 hi
    have hq2 : q.2 = [] := by
      unfold patternExpr at hq
      rw [Regex.seqOf, Regex.run] at hq
      simp only [Regex.run, if_true, List.flatMap_cons, List.flatMap_nil, List.append_nil] at hq
      rw [run_seqOf_append, List.mem_flatMap] at hq
      obtain ⟨a, _, hq⟩ := hq
      simp only [Regex.seqOf, Regex.run] at hq
      by_cases hnil : a.2 = []
      · simp only [hnil, if_true, List.flatMap_cons, List.flatMap_nil, List.append_nil,
          List.mem_singleton] at hq
        rw [hq]
        exact hnil
      · simp [hnil] at hq
    refine ⟨(true, text), self_mem_startPositions text true, ?_⟩
    have hmem := (htrue q).2 ⟨hq2, p, hp, hq⟩
    cases hr : (patternsExpr ps).run (true, text) with
    | nil => rw [hr] at hmem; exact absurd hmem (List.not_mem_nil _)
    | cons a rest => rfl

/-- C5, as amended.  For a resource descriptor with a non-empty pattern list in
which no segment is empty and no literal segment has a character with a meaning
of its own in the syntax of regular expressions, basicResourceValidation
returns an expression that matches a string exactly when the string is formed
by substituting a non-empty value without a slash for each variable segment of
one of the patterns.  For the patterns `users/{id}` and `orgs/{id}/users/{id}`
it matches `users/42` and `orgs/7/users/42` and neither `users/` nor
`users/42/extra`. -/
theorem regex_matches_instances :
    (∀ (resourceDesc : ResourceDescriptor), resourceDesc.pattern ≠ [] →
      (∀ p ∈ resourceDesc.pattern, plainPattern p) →
      ∃ regex, basicResourceValidation resourceDesc = some ⟨some regex, some true, []⟩ ∧
        ∀ text, ∃ b, regexMatches regex text = some b ∧
          (b = true ↔ ∃ p ∈ resourceDesc.pattern, IsInstance p text)) ∧
    (∃ regex, basicResourceValidation twoPatterns = some ⟨some regex, some true, []⟩ ∧
      regexMatches regex "users/42".toList = some true ∧
      regexMatches regex "orgs/7/users/42".toList = some true ∧
      regexMatches regex "users/".toList = some false ∧
      regexMatches regex "users/42/extra".toList = some false) := by
  constructor
  · intro rd hne hplain
    have hseg : ∀ p ∈ rd.pattern, ∀ seg ∈ splitSlash p, seg ≠ [] :=
      fun p hp seg hs => (hplain p hp seg hs).1
    refine ⟨patternsRegex rd.pattern, ?_, ?_⟩
    · simp only [basicResourceValidation]
      rw [writePatterns_eq rd.pattern.length rd.pattern 0 _ (by simp) hseg]
      rfl
    · intro text
      refine ⟨(patternsExpr rd.pattern).matchString text, ?_, ?_⟩
      · simp [regexMatches, parse_patternsRegex rd.pattern hne hplain]
      · exact matchString_patternsExpr rd.pattern text hseg
  · exact ⟨"^(\\Ausers/[^/]+\\z|\\Aorgs/[^/]+/users/[^/]+\\z)$".toList, by decide, by decide,
      by decide, by decide, by decide⟩

/-- Witness of C5 as amended: the two patterns of the example. -/
theorem regex_matches_instances_witness :
    twoPatterns.pattern ≠ [] ∧ (∀ p ∈ twoPatterns.pattern, plainPattern p) ∧
    ∃ regex, basicResourceValidation twoPatterns = some ⟨some regex, some true, []⟩ ∧
      ∀ text, ∃ b, regexMatches regex text = some b ∧
        (b = true ↔ ∃ p ∈ twoPatterns.pattern, IsInstance p text) :=
  have hplain : ∀ p ∈ twoPatterns.pattern, plainPattern p := by
    unfold plainPattern
    decide
  ⟨by decide, hplain, regex_matches_instances.1 twoPatterns (by decide) hplain⟩

/-- Counterexample to C5 as stated.  `users/` is formed from `users/{id}` by
substituting the empty value, which contains no slash, and the expression does
not match it.  For the pattern `v1.0/{id}` the expression matches `v1x0/7`,
which is not formed from the pattern.  For the empty pattern list the
expression matches the empty string, which is formed from no pattern. -/
theorem regex_matches_instances_counterexample :
    (IsSubstitution "users/\x7bid\x7d".toList "users/".toList ∧
      ∃ regex, basicResourceValidation ⟨"example.com/User", ["users/\x7bid\x7d".toList], ""⟩ =
          some ⟨some regex, some true, []⟩ ∧
        regexMatches regex "users/".toList = some false) ∧
    (¬ IsSubstitution "v1.0/\x7bid\x7d".toList "v1x0/7".toList ∧
      ∃ regex, basicResourceValidation ⟨"example.com/User", ["v1.0/\x7bid\x7d".toList], ""⟩ =
          some ⟨some regex, some true, []⟩ ∧
        regexMatches regex "v1x0/7".toList = some true) ∧
    (∃ regex, basicResourceValidation ⟨"example.com/User", [], ""⟩ =
        some ⟨some regex, some true, []⟩ ∧
      regexMatches regex [] = some true) := by
  refine ⟨⟨?_, ?_⟩, ⟨?_, ?_⟩, ?_⟩
  · refine ⟨["users".toList, []], ?_, by decide, by decide⟩
    have hs : splitSlash "users/\x7bid\x7d".toList = ["users".toList, "\x7bid\x7d".toList] := by
      decide
    rw [hs]
    exact List.Forall₂.cons (Or.inr rfl) (List.Forall₂.cons (Or.inl (by decide)) List.Forall₂.nil)
  · exact ⟨"^(\\Ausers/[^/]+\\z)$".toList, by decide, by decide⟩
  · rintro ⟨values, hf, _, ht⟩
    have hs : splitSlash "v1.0/\x7bid\x7d".toList = ["v1.0".toList, "\x7bid\x7d".toList] := by
      decide
    rw [hs] at hf
    cases hf with
    | cons h1 hrest =>
      cases hrest with
      | cons h2 h3 =>
        cases h3
        rcases h1 with h1 | rfl
        · exact absurd h1 (by decide)
        · rw [intercalate_cons_cons] at ht
          simp at ht
  · exact ⟨"^(\\Av1.0/[^/]+\\z)$".toList, by decide, by decide⟩
  · exact ⟨"^()$".toList, by decide, by decide⟩

/-- The inner loop panics when an element is empty. -/
theorem writeElems_empty (len : Nat) (segs : List (List Char)) :
    ∀ (j : Nat) (regex : List Char), [] ∈ segs → writeElems len j segs regex = none := by
  induction segs with
  | nil => intro j regex h; exact absurd h (List.not_mem_nil _)
  | cons elem rest ih =>
    intro j regex h
    cases elem with
    | nil => simp [writeElems]
    | cons c cs =>
      have hrest : [] ∈ rest := by
        rcases List.mem_cons.1 h with h | h
        · exact absurd h (by simp)
        · exact h
      have hlast : (c :: cs).getLast? = some ((c :: cs).getLast (by simp)) :=
        List.getLast?_eq_getLast _ _
      rw [writeElems, hlast]
      simp only [List.head?_cons]
      exact ih _ _ hrest

/-- The outer loop panics when a pattern has an empty segment. -/
theorem writePatterns_empty (len : Nat) (ps : List (List Char)) :
    ∀ (i : Nat) (regex : List Char), (∃ p ∈ ps, [] ∈ splitSlash p) →
      writePatterns len i ps regex = none := by
  induction ps with
  | nil => rintro i regex ⟨p, hp, _⟩; exact absurd hp (List.not_mem_nil _)
  | cons p rest ih =>
    intro i regex h
    rw [writePatterns]
    simp only
    by_cases hp : [] ∈ splitSlash p
    · rw [writeElems_empty _ _ _ _ hp]
    · have hrest : ∃ q ∈ rest, [] ∈ splitSlash q := by
        obtain ⟨q, hq, he⟩ := h
        rcases List.mem_cons.1 hq with rfl | hq
        · exact absurd he hp
        · exact ⟨q, hq, he⟩
      split
      · rfl
      · exact ih _ _ hrest

/-- C16, the code on patterns with an empty segment.  Whenever some pattern has
an empty segment, basicResourceValidation panics on indexing it: so for the
patterns `a//b`, `/a`, `a/` and the empty pattern.  Whenever no pattern has
one, the empty sequence included, it returns a string rule whose ignore-empty
flag is true. -/
theorem regex_synthesis_panics :
    (∀ (resourceDesc : ResourceDescriptor),
      (∃ p ∈ resourceDesc.pattern, [] ∈ splitSlash p) →
      basicResourceValidation resourceDesc = none) ∧
    (∀ (type nameField : String),
      basicResourceValidation ⟨type, ["a//b".toList], nameField⟩ = none ∧
      basicResourceValidation ⟨type, ["/a".toList], nameField⟩ = none ∧
      basicResourceValidation ⟨type, ["a/".toList], nameField⟩ = none ∧
      basicResourceValidation ⟨type, [[]], nameField⟩ = none ∧
      basicResourceValidation ⟨type, ["users/\x7bid\x7d".toList, "a//b".toList], nameField⟩ =
        none) ∧
    (∀ (resourceDesc : ResourceDescriptor),
      (∀ p ∈ resourceDesc.pattern, [] ∉ splitSlash p) →
      ∃ regex, basicResourceValidation resourceDesc = some ⟨some regex, some true, []⟩) ∧
    (∀ (type nameField : String),
      basicResourceValidation ⟨type, [], nameField⟩ = some ⟨some "^()$".toList, some true, []⟩) := by
  have h1 : ∀ (resourceDesc : ResourceDescriptor),
      (∃ p ∈ resourceDesc.pattern, [] ∈ splitSlash p) →
      basicResourceValidation resourceDesc = none := by
    intro rd h
    simp only [basicResourceValidation]
    rw [writePatterns_empty _ _ _ _ h]
  refine ⟨h1, ?_, ?_, ?_⟩
  · intro type nameField
    refine ⟨?_, ?_, ?_, ?_, ?_⟩ <;>
      · apply h1
        show ∃ p ∈ _, [] ∈ splitSlash p
        simp only [List.mem_cons, List.mem_singleton, List.not_mem_nil, or_false, exists_eq_or_imp,
          exists_eq_left]
        decide
  · intro rd h
    refine ⟨patternsRegex rd.pattern, ?_⟩
    simp only [basicResourceValidation]
    rw [writePatterns_eq rd.pattern.length rd.pattern 0 _ (by simp)
      (fun p hp seg hs he => h p hp (he ▸ hs))]
    rfl
  · intro type nameField
    rfl

/-! ## Merging resource validation -/

/-- Where no pattern has an empty segment basicResourceValidation returns the
string rule with the regular expression of the patterns and the ignore-empty
flag set. -/
theorem basicResourceValidation_eq (rd : ResourceDescriptor)
    (h : ∀ p ∈ rd.pattern, [] ∉ splitSlash p) :
    basicResourceValidation rd = some ⟨some (patternsRegex rd.pattern), some true, []⟩ := by
  simp only [basicResourceValidation]
  rw [writePatterns_eq rd.pattern.length rd.pattern 0 _ (by simp)
    (fun p hp seg hs he => h p hp (he ▸ hs))]
  rfl

/-- Where a pattern has an empty segment basicResourceValidation panics. -/
theorem basicResourceValidation_panics (rd : ResourceDescriptor)
    (h : ∃ p ∈ rd.pattern, [] ∈ splitSlash p) :
    basicResourceValidation rd = none := by
  simp only [basicResourceValidation]
  rw [writePatterns_empty _ _ _ _ h]

/-- The merge panics when the name field of the resource has no rules and the
synthesis of its string rule panics. -/
theorem merge_panics (base resource : Field) (resourceDesc : ResourceDescriptor)
    (rules : FieldRules) (h : resource.rules = .absent)
    (hp : ∃ p ∈ resourceDesc.pattern, [] ∈ splitSlash p) :
    mergeResourceValidation base resource resourceDesc rules = none := by
  simp only [mergeResourceValidation, h, basicResourceValidation_panics resourceDesc hp,
    Option.map_none']

/-- The merge on a payload of kind repeated: the items become the resource
validation as it is, everything else stays, and so does the name field of the
resource. -/
theorem merge_repeated (base resource : Field) (resourceDesc : ResourceDescriptor)
    (m : Option MessageRules) (t : RepeatedRules) (rv : FieldRules)
    (hv : resource.rules = .present rv ∨
      ∃ s, resource.rules = .absent ∧ basicResourceValidation resourceDesc = some s ∧
        rv = .mk none (.string s)) :
    mergeResourceValidation base resource resourceDesc (.mk m (.repeated t)) =
      some (none, .mk m (.repeated (t.setItems (.ptr rv))), resource) := by
  rcases hv with h | ⟨s, h, hs, rfl⟩
  · simp [mergeResourceValidation, h, emptyRules, FieldRules.type, FieldRules.message]
  · simp [mergeResourceValidation, h, hs, emptyRules, FieldRules.type, FieldRules.message]

/-- The merge on an empty payload for a repeated field: the payload becomes
repeated rules with the resource validation as items and nothing else. -/
theorem merge_shell (base resource : Field) (resourceDesc : ResourceDescriptor)
    (rv : FieldRules) (hb : base.typ.isRepeated = true)
    (hv : resource.rules = .present rv ∨
      ∃ s, resource.rules = .absent ∧ basicResourceValidation resourceDesc = some s ∧
        rv = .mk none (.string s)) :
    mergeResourceValidation base resource resourceDesc emptyRules =
      some (none, .mk none (.repeated (.mk none none none (.ptr rv) none)), resource) := by
  rcases hv with h | ⟨s, h, hs, rfl⟩
  · simp [mergeResourceValidation, h, hb, emptyRules, FieldRules.type, FieldRules.message,
      emptyRepeatedRules, RepeatedRules.setItems]
  · simp [mergeResourceValidation, h, hs, hb, emptyRules, FieldRules.type, FieldRules.message,
      emptyRepeatedRules, RepeatedRules.setItems]

/-- The merge on a payload that is not of kind repeated, for a field that is
not repeated: the payload becomes the resource validation after
makeValidationIgnoreEmpty, the message-level constraints stay, and explicit
rules of the name field of the resource are left as makeValidationIgnoreEmpty
leaves them. -/
theorem merge_singular (base resource : Field) (resourceDesc : ResourceDescriptor)
    (rules rv : FieldRules) (hb : base.typ.isRepeated = false)
    (hk : ∀ t, rules.type ≠ .repeated t)
    (hv : resource.rules = .present rv ∨
      ∃ s, resource.rules = .absent ∧ basicResourceValidation resourceDesc = some s ∧
        rv = .mk none (.string s)) :
    mergeResourceValidation base resource resourceDesc rules =
      some (none, .mk rules.message (makeValidationIgnoreEmpty rv).type,
        match resource.rules with
        | .present _ => resource.withRules (.present (makeValidationIgnoreEmpty rv))
        | _ => resource) := by
  have hfin : ∀ (res' : Field), (match rules.type with
      | .repeated t => some ((none : Option Err),
          FieldRules.mk rules.message (.repeated (t.setItems (.ptr rv))), resource)
      | _ => some (none, .mk rules.message (makeValidationIgnoreEmpty rv).type, res')) =
      some (none, .mk rules.message (makeValidationIgnoreEmpty rv).type, res') := by
    intro res'
    split
    · rename_i t ht
      exact absurd ht (hk t)
    · rfl
  rcases hv with h | ⟨s, h, hs, rfl⟩
  · simp only [h]
    rw [← hfin]
    simp only [mergeResourceValidation, h, hb, Bool.false_eq_true, and_false, if_false]
  · simp only [h]
    rw [← hfin]
    simp only [mergeResourceValidation, h, hs, Option.map_some', hb, Bool.false_eq_true,
      and_false, if_false]

/-- C6, as amended.  On a referencing field that is not repeated and whose
prior payload is not of kind repeated, when the resource validation is of kind
string or bytes (the name field's explicit string or bytes rule, or the string
rule synthesized from the patterns), the merge succeeds and the payload the
field carries afterwards is that rule with its ignore-empty flag set to true;
the other constraints of the rule and the field's message-level constraints are
unchanged.  An explicit rule of the name field carries the flag afterwards as
well; a name field without rules stays as it is. -/
theorem merge_singular_ignoreEmpty (base resource : Field) (resourceDesc : ResourceDescriptor)
    (rules : FieldRules) (hb : base.typ.isRepeated = false)
    (hk : ∀ t, rules.type ≠ .repeated t) :
    (∀ m r, resource.rules = .present (.mk m (.string r)) →
      mergeResourceValidation base resource resourceDesc rules =
        some (none, .mk rules.message (.string ⟨r.pattern, some true, r.constraints⟩),
          resource.withRules
            (.present (.mk m (.string ⟨r.pattern, some true, r.constraints⟩)))) ∧
      ignoreEmptyOf (.string ⟨r.pattern, some true, r.constraints⟩) = some true) ∧
    (∀ m r, resource.rules = .present (.mk m (.bytes r)) →
      mergeResourceValidation base resource resourceDesc rules =
        some (none, .mk rules.message (.bytes ⟨some true, r.constraints⟩),
          resource.withRules (.present (.mk m (.bytes ⟨some true, r.constraints⟩)))) ∧
      ignoreEmptyOf (.bytes ⟨some true, r.constraints⟩) = some true) ∧
    (∀ s, resource.rules = .absent → basicResourceValidation resourceDesc = some s →
      mergeResourceValidation base resource resourceDesc rules =
        some (none, .mk rules.message (.string s), resource) ∧
      ignoreEmptyOf (.string s) = some true) := by
  refine ⟨?_, ?_, ?_⟩
  · intro m r hr
    refine ⟨?_, rfl⟩
    rw [merge_singular base resource resourceDesc rules _ hb hk (Or.inl hr)]
    simp only [hr]
    rfl
  · intro m r hr
    refine ⟨?_, rfl⟩
    rw [merge_singular base resource resourceDesc rules _ hb hk (Or.inl hr)]
    simp only [hr]
    rfl
  · intro s hr hs
    have h := merge_singular base resource resourceDesc rules _ hb hk (Or.inr ⟨s, hr, hs, rfl⟩)
    have hs2 : s.ignoreEmpty = some true ∧ s = ⟨s.pattern, some true, s.constraints⟩ := by
      simp only [basicResourceValidation] at hs
      split at hs
      · exact absurd hs (by simp)
      · simp only [Option.some.injEq] at hs
        subst hs
        exact ⟨rfl, rfl⟩
    refine ⟨?_, hs2.1⟩
    rw [h]
    simp only [makeValidationIgnoreEmpty, FieldRules.type, hr]
    rw [← hs2.2]

/-- Witness of C6 as amended: a singular field that references `User`, whose
name field has no rules, carries the synthesized string rule. -/
theorem merge_singular_ignoreEmpty_witness :
    accountRefField.typ.isRepeated = false ∧
    mergeResourceValidation accountRefField userNameField userResource emptyRules =
      some (none, .mk none (.string ⟨some "^(\\Ausers/[^/]+\\z)$".toList, some true, []⟩),
        userNameField) :=
  ⟨rfl, ((merge_singular_ignoreEmpty accountRefField userNameField userResource emptyRules rfl
    (by intro t; simp [emptyRules, FieldRules.type])).2.2
    ⟨some "^(\\Ausers/[^/]+\\z)$".toList, some true, []⟩ rfl (by decide)).1⟩

/-- Counterexample to C6 as stated: the name field of `Account` is an int64
with an explicit int64 rule; after the merge the singular referencing field
carries that rule, and its ignore-empty flag is not true. -/
theorem merge_singular_ignoreEmpty_counterexample :
    accountRefField.typ.isRepeated = false ∧
    accountIdField.rules = .present (.mk none (.int64 ⟨none, [1]⟩)) ∧
    mergeResourceValidation accountRefField accountIdField accountResource emptyRules =
      some (none, .mk none (.int64 ⟨none, [1]⟩), accountIdField) ∧
    ignoreEmptyOf (.int64 ⟨none, [1]⟩) ≠ some true := by
  decide

/-- C7, the code on a payload of kind repeated.  The merge changes only the
per-item rules wherever it has a resource validation to install: it returns no
error, the items afterwards are the explicit rules the name field of the
resource carries at the time of the call, or the string rule synthesized from
the patterns when no pattern has an empty segment, and the item counts, the
uniqueness and ignore-empty flags and the message-level constraints are what
they were; with `min_items = 1` and `max_items = 10` the bounds stay and the
authored item rules are overwritten.  Where the name field has no rules and a
pattern has an empty segment, the merge panics: so for `subfolders`, which
references `Folder` with the pattern `a//b`.  Where the name field has explicit
rules, these are the rules as earlier merges left them: after the merge for the
singular field `team` the name field of `Team` carries its string rule with the
ignore-empty flag set, in the index too, and the items of `rivals` are this rule
and not the rule authored on the name field, which has no ignore-empty flag;
processed alone, `rivals` gets the authored rule, which is then also the item
rule in the field's own option. -/
theorem merge_repeated_frame :
    (∀ (base resource : Field) (resourceDesc : ResourceDescriptor) (m : Option MessageRules)
        (minItems maxItems : Option Nat) (unique : Option Bool) (items : FieldRulesPtr)
        (ignoreEmpty : Option Bool),
      (∀ rv, resource.rules = .present rv →
        mergeResourceValidation base resource resourceDesc
            (.mk m (.repeated (.mk minItems maxItems unique items ignoreEmpty))) =
          some (none, .mk m (.repeated (.mk minItems maxItems unique (.ptr rv) ignoreEmpty)),
            resource)) ∧
      (resource.rules = .absent → (∀ p ∈ resourceDesc.pattern, [] ∉ splitSlash p) →
        mergeResourceValidation base resource resourceDesc
            (.mk m (.repeated (.mk minItems maxItems unique items ignoreEmpty))) =
          some (none, .mk m (.repeated (.mk minItems maxItems unique
            (.ptr (.mk none
              (.string ⟨some (patternsRegex resourceDesc.pattern), some true, []⟩)))
            ignoreEmpty)), resource)) ∧
      (resource.rules = .absent → (∃ p ∈ resourceDesc.pattern, [] ∈ splitSlash p) →
        mergeResourceValidation base resource resourceDesc
            (.mk m (.repeated (.mk minItems maxItems unique items ignoreEmpty))) = none)) ∧
    mergeResourceValidation usersRefField userNameField userResource
        (.mk none (.repeated oneToTenItems)) =
      some (none, .mk none (.repeated (.mk (some 1) (some 10) none
        (.ptr (.mk none (.string ⟨some "^(\\Ausers/[^/]+\\z)$".toList, some true, []⟩)))
        none)), userNameField) ∧
    (folderNameField.rules = .absent ∧
      subfoldersRefField.rules = .present (.mk none (.repeated oneToTenItems)) ∧
      mergeResourceValidation subfoldersRefField folderNameField folderResource
          (.mk none (.repeated oneToTenItems)) = none ∧
      rulesContext folderIndex subfoldersRefField = none) ∧
    (teamNameField.rules = .present (.mk none (.string teamNameRule)) ∧
      teamNameRule.ignoreEmpty = none ∧ teamNameRuleIgnoreEmpty.ignoreEmpty = some true ∧
      mergeResourceValidation teamRefField teamNameField teamResource emptyRules =
        some (none, .mk none (.string teamNameRuleIgnoreEmpty), teamNameFieldIgnoreEmpty) ∧
      mergeResourceValidation rivalsRefField teamNameFieldIgnoreEmpty teamResource
          (.mk none (.repeated oneToTenItems)) =
        some (none, .mk none (.repeated (.mk (some 1) (some 10) none
          (.ptr (.mk none (.string teamNameRuleIgnoreEmpty))) none)),
          teamNameFieldIgnoreEmpty) ∧
      teamIndex.resources "example.com/Team" = some ⟨teamMessage, teamResource, teamNameField⟩ ∧
      (rulesContextCall teamIndex teamRefField).map
          (fun c => (c.genCtx.resources "example.com/Team").map fun r => r.nameField) =
        some (some teamNameFieldIgnoreEmpty) ∧
      rulesContextTwice teamIndex teamRefField rivalsRefField =
        some ((⟨some teamRefField, .stringRules teamNameRuleIgnoreEmpty, none, "string", "",
            false, "", ""⟩, none),
          (⟨some rivalsRefField, .repeatedRules (.mk (some 1) (some 10) none
            (.ptr (.mk none (.string teamNameRuleIgnoreEmpty))) none), none, "repeated", "",
            false, "", ""⟩, none)) ∧
      rulesContext teamIndex rivalsRefField =
        some (⟨some rivalsRefField, .repeatedRules (.mk (some 1) (some 10) none
          (.ptr (.mk none (.string teamNameRule))) none), none, "repeated", "", false, "", ""⟩,
          none) ∧
      (rulesContextCall teamIndex rivalsRefField).map (fun c => c.field.rules) =
        some (.present (.mk none (.repeated (.mk (some 1) (some 10) none
          (.ptr (.mk none (.string teamNameRule))) none))))) := by
  refine ⟨?_, by decide, by decide, by decide⟩
  intro base resource resourceDesc m minItems maxItems unique items ignoreEmpty
  refine ⟨?_, ?_, ?_⟩
  · intro rv h
    exact merge_repeated base resource resourceDesc m _ rv (Or.inl h)
  · intro h hp
    exact merge_repeated base resource resourceDesc m _ _
      (Or.inr ⟨_, h, basicResourceValidation_eq resourceDesc hp, rfl⟩)
  · intro h hp
    exact merge_panics base resource resourceDesc _ h hp

/-- C8, the code at a map-typed referencing field.  For `owners`, a
`map<string, string>` with `min_pairs = 1` that references `User`, the merge
returns no error and replaces the map rules by the string rule of the
resource; without rules of its own the field ends with the same string rule.
More generally the merge never looks at whether the type is a map: on a type
that is not repeated the result is the same for every value of `isMap`. -/
theorem merge_map_not_refused :
    ownersMapField.typ.isMap = true ∧
    mergeResourceValidation ownersMapField userNameField userResource
        (.mk none (.map atLeastOnePair)) =
      some (none, .mk none (.string ⟨some "^(\\Ausers/[^/]+\\z)$".toList, some true, []⟩),
        userNameField) ∧
    mergeResourceValidation ownersMapField userNameField userResource emptyRules =
      some (none, .mk none (.string ⟨some "^(\\Ausers/[^/]+\\z)$".toList, some true, []⟩),
        userNameField) ∧
    (∀ (name : String) (isRepeated isMap isEmbed : Bool) (element key : Option FieldTypeElem)
        (rules : Ext FieldRules) (ref : Ext ResourceReference) (res : Ext ResourceDescriptor)
        (resource : Field) (resourceDesc : ResourceDescriptor) (r : FieldRules),
      mergeResourceValidation ⟨name, ⟨isRepeated, isMap, isEmbed, element, key⟩, rules, ref, res⟩
          resource resourceDesc r =
        mergeResourceValidation ⟨name, ⟨isRepeated, false, isEmbed, element, key⟩, rules, ref, res⟩
          resource resourceDesc r) := by
  refine ⟨rfl, by decide, by decide, ?_⟩
  intros
  rfl

/-- C17, as amended.  On a referencing field that is neither repeated nor a
map and whose prior payload is not of kind repeated, whenever step 1 yields a
resource validation (the explicit rules of the resource's name field, or, for a
name field without rules whose resource has no pattern with an empty segment,
the string rule synthesized from the patterns), the merge returns no error and
replaces the kind and kind-specific data of the payload by those of the
resource validation: with the ignore-empty flag set when it is of kind string
or bytes, unchanged for every other kind, absent included.  The message-level
constraints authored on the referencing field stay, and those of the resource
validation are not taken over. -/
theorem merge_singular_replaces (base resource : Field) (resourceDesc : ResourceDescriptor)
    (rules rv : FieldRules) (hb : base.typ.isRepeated = false) (_hm : base.typ.isMap = false)
    (hk : ∀ t, rules.type ≠ .repeated t)
    (hv : resource.rules = .present rv ∨
      (resource.rules = .absent ∧ (∀ p ∈ resourceDesc.pattern, [] ∉ splitSlash p) ∧
        rv = .mk none (.string ⟨some (patternsRegex resourceDesc.pattern), some true, []⟩))) :
    ∃ rules' resource',
      mergeResourceValidation base resource resourceDesc rules = some (none, rules', resource') ∧
      rules'.message = rules.message ∧
      (∀ r, rv.type = .string r → rules'.type = .string ⟨r.pattern, some true, r.constraints⟩) ∧
      (∀ r, rv.type = .bytes r → rules'.type = .bytes ⟨some true, r.constraints⟩) ∧
      ((∀ r, rv.type ≠ .string r) → (∀ r, rv.type ≠ .bytes r) → rules'.type = rv.type) := by
  have hv' : resource.rules = .present rv ∨
      ∃ s, resource.rules = .absent ∧ basicResourceValidation resourceDesc = some s ∧
        rv = .mk none (.string s) := by
    rcases hv with h | ⟨h, hp, hrv⟩
    · exact Or.inl h
    · exact Or.inr ⟨_, h, basicResourceValidation_eq resourceDesc hp, hrv⟩
  refine ⟨_, _, merge_singular base resource resourceDesc rules rv hb hk hv', rfl, ?_, ?_, ?_⟩
  · intro r hr
    obtain ⟨m, t⟩ := rv
    simp only [FieldRules.type] at hr
    subst hr
    rfl
  · intro r hr
    obtain ⟨m, t⟩ := rv
    simp only [FieldRules.type] at hr
    subst hr
    rfl
  · intro hs hby
    obtain ⟨m, t⟩ := rv
    simp only [FieldRules.type] at hs hby ⊢
    cases t <;> first | rfl | exact absurd rfl (hs _) | exact absurd rfl (hby _)

/-- Witness of C17 as amended: `parent` keeps `required = true` and takes the
string rule synthesized from the pattern of `User`. -/
theorem merge_singular_replaces_witness :
    parentRefField.typ.isRepeated = false ∧ parentRefField.typ.isMap = false ∧
    userNameField.rules = .absent ∧ (∀ p ∈ userResource.pattern, [] ∉ splitSlash p) ∧
    patternsRegex userResource.pattern = "^(\\Ausers/[^/]+\\z)$".toList ∧
    ∃ rules' resource', mergeResourceValidation parentRefField userNameField userResource
        (.mk (some ⟨none, some true⟩) (.string ⟨none, none, [1]⟩)) =
          some (none, rules', resource') ∧
      rules'.message = some ⟨none, some true⟩ ∧
      (∀ r, RulesType.string ⟨some (patternsRegex userResource.pattern), some true, []⟩ =
          .string r →
        rules'.type = .string ⟨r.pattern, some true, r.constraints⟩) ∧
      (∀ r, RulesType.string ⟨some (patternsRegex userResource.pattern), some true, []⟩ =
          .bytes r →
        rules'.type = .bytes ⟨some true, r.constraints⟩) ∧
      ((∀ r, RulesType.string ⟨some (patternsRegex userResource.pattern), some true, []⟩ ≠
          .string r) →
        (∀ r, RulesType.string ⟨some (patternsRegex userResource.pattern), some true, []⟩ ≠
          .bytes r) →
        rules'.type = .string ⟨some (patternsRegex userResource.pattern), some true, []⟩) :=
  ⟨rfl, rfl, rfl, by decide, by decide,
    merge_singular_replaces parentRefField userNameField userResource
      (.mk (some ⟨none, some true⟩) (.string ⟨none, none, [1]⟩))
      (.mk none (.string ⟨some (patternsRegex userResource.pattern), some true, []⟩))
      rfl rfl (by intro t; simp [FieldRules.type]) (Or.inr ⟨rfl, by decide, rfl⟩)⟩

/-- Counterexample to C17 as stated.  After the merge `parent`, which is
neither repeated nor a map, carries its own `required = true` next to the
string rule of the resource, so its payload is not the resource validation and
something authored on the field remains.  A singular field whose prior payload
is of kind repeated keeps that payload, with the resource validation as item
rules.  For the singular field `account`, whose resource has a name field with
an int64 rule, the payload afterwards is that rule without an ignore-empty
flag.  For the singular field `folder`, whose resource has the pattern `a//b`
and a name field without rules, step 1 yields no resource validation: the merge
panics. -/
theorem merge_singular_replaces_counterexample :
    (parentRefField.typ.isRepeated = false ∧ parentRefField.typ.isMap = false ∧
      userNameField.rules = .absent ∧
      basicResourceValidation userResource = some userPatternRule ∧
      mergeResourceValidation parentRefField userNameField userResource
          (.mk (some ⟨none, some true⟩) (.string ⟨none, none, [1]⟩)) =
        some (none, .mk (some ⟨none, some true⟩) (.string userPatternRule), userNameField) ∧
      FieldRules.mk (some ⟨none, some true⟩) (.string userPatternRule) ≠
        makeValidationIgnoreEmpty (.mk none (.string userPatternRule))) ∧
    (accountRefField.typ.isRepeated = false ∧ accountRefField.typ.isMap = false ∧
      mergeResourceValidation accountRefField userNameField userResource
          (.mk none (.repeated oneToTenItems)) =
        some (none, .mk none (.repeated (.mk (some 1) (some 10) none
          (.ptr (.mk none (.string userPatternRule))) none)), userNameField)) ∧
    (accountRefField.typ.isRepeated = false ∧ accountRefField.typ.isMap = false ∧
      accountIdField.rules = .present (.mk none (.int64 ⟨none, [1]⟩)) ∧
      mergeResourceValidation accountRefField accountIdField accountResource emptyRules =
        some (none, .mk none (.int64 ⟨none, [1]⟩), accountIdField) ∧
      ignoreEmptyOf (.int64 ⟨none, [1]⟩) = none) ∧
    (folderRefField.typ.isRepeated = false ∧ folderRefField.typ.isMap = false ∧
      folderNameField.rules = .absent ∧
      mergeResourceValidation folderRefField folderNameField folderResource emptyRules =
        none) := by
  decide

/-- C18, the code on an unannotated repeated field.  For a referencing field
whose type is repeated and whose rule payload is empty, wherever the merge has a
resource validation to install it returns no error and a payload of kind
repeated whose item rules are the explicit rules the name field of the resource
carries at the time of the call, or the string rule synthesized from the
patterns when no pattern has an empty segment, and whose item counts, uniqueness
and ignore-empty flags are unset; resolveRules on the type of the field and this
payload yields kind "repeated", and so does rulesContext for a field without
rules that references the resource: so for `users`, which references `User`.
Where the name field has no rules and a pattern has an empty segment, the merge
and rulesContext panic: so for `folders`, which references `Folder` with the
pattern `a//b`.  Where the name field has explicit rules, the items are these
rules as earlier merges left them: on its own `teams` gets the string rule
authored on the name field of `Team`, without ignore-empty flag, and after the
call for the singular field `team` it gets this rule with the flag set. -/
theorem merge_repeated_shell :
    (∀ (base resource : Field) (resourceDesc : ResourceDescriptor),
      base.typ.isRepeated = true →
      (∀ rv, resource.rules = .present rv →
        mergeResourceValidation base resource resourceDesc emptyRules =
          some (none, .mk none (.repeated (.mk none none none (.ptr rv) none)), resource) ∧
        resolveRules (some (.fieldType base.typ))
            (.ptr (.mk none (.repeated (.mk none none none (.ptr rv) none)))) =
          some ⟨"repeated", .repeatedRules (.mk none none none (.ptr rv) none), none, false⟩) ∧
      (resource.rules = .absent → (∀ p ∈ resourceDesc.pattern, [] ∉ splitSlash p) →
        mergeResourceValidation base resource resourceDesc emptyRules =
          some (none, .mk none (.repeated (.mk none none none
            (.ptr (.mk none
              (.string ⟨some (patternsRegex resourceDesc.pattern), some true, []⟩))) none)),
            resource) ∧
        resolveRules (some (.fieldType base.typ))
            (.ptr (.mk none (.repeated (.mk none none none
              (.ptr (.mk none
                (.string ⟨some (patternsRegex resourceDesc.pattern), some true, []⟩)))
              none)))) =
          some ⟨"repeated", .repeatedRules (.mk none none none
            (.ptr (.mk none
              (.string ⟨some (patternsRegex resourceDesc.pattern), some true, []⟩))) none),
            none, false⟩) ∧
      (resource.rules = .absent → (∃ p ∈ resourceDesc.pattern, [] ∈ splitSlash p) →
        mergeResourceValidation base resource resourceDesc emptyRules = none)) ∧
    (∀ (g : GenCtx) (f : Field) (resource : Resource),
      f.typ.isRepeated = true → (f.rules = .absent ∨ f.rules = .present emptyRules) →
      f.messageResource = .absent →
      SearchResourceReference g f = some resource →
      (∀ rv, resource.nameField.rules = .present rv →
        rulesContext g f =
          some (⟨some f, .repeatedRules (.mk none none none (.ptr rv) none), none, "repeated",
            "", false, "", ""⟩, none)) ∧
      (resource.nameField.rules = .absent →
        (∀ p ∈ resource.desc.pattern, [] ∉ splitSlash p) →
        rulesContext g f =
          some (⟨some f, .repeatedRules (.mk none none none
            (.ptr (.mk none
              (.string ⟨some (patternsRegex resource.desc.pattern), some true, []⟩))) none),
            none, "repeated", "", false, "", ""⟩, none)) ∧
      (resource.nameField.rules = .absent →
        (∃ p ∈ resource.desc.pattern, [] ∈ splitSlash p) →
        rulesContext g f = none)) ∧
    (usersRefField.typ.isRepeated = true ∧ usersRefField.rules = .absent ∧
      mergeResourceValidation usersRefField userNameField userResource emptyRules =
        some (none, .mk none (.repeated (.mk none none none
          (.ptr (.mk none (.string userPatternRule))) none)), userNameField) ∧
      rulesContext userIndex usersRefField =
        some (⟨some usersRefField, .repeatedRules (.mk none none none
          (.ptr (.mk none (.string userPatternRule))) none), none, "repeated", "", false, "",
          ""⟩, none)) ∧
    (foldersRefField.typ.isRepeated = true ∧ foldersRefField.rules = .absent ∧
      folderNameField.rules = .absent ∧
      mergeResourceValidation foldersRefField folderNameField folderResource emptyRules =
        none ∧
      rulesContext folderIndex foldersRefField = none) ∧
    (teamsRefField.typ.isRepeated = true ∧ teamsRefField.rules = .absent ∧
      teamNameField.rules = .present (.mk none (.string teamNameRule)) ∧
      teamNameRule.ignoreEmpty = none ∧ teamNameRuleIgnoreEmpty.ignoreEmpty = some true ∧
      rulesContext teamIndex teamsRefField =
        some (⟨some teamsRefField, .repeatedRules (.mk none none none
          (.ptr (.mk none (.string teamNameRule))) none), none, "repeated", "", false, "", ""⟩,
          none) ∧
      mergeResourceValidation teamRefField teamNameField teamResource emptyRules =
        some (none, .mk none (.string teamNameRuleIgnoreEmpty), teamNameFieldIgnoreEmpty) ∧
      mergeResourceValidation teamsRefField teamNameFieldIgnoreEmpty teamResource emptyRules =
        some (none, .mk none (.repeated (.mk none none none
          (.ptr (.mk none (.string teamNameRuleIgnoreEmpty))) none)),
          teamNameFieldIgnoreEmpty) ∧
      (rulesContextCall teamIndex teamRefField).map
          (fun c => (c.field, c.genCtx.resources "example.com/Team")) =
        some (teamRefField,
          some ⟨⟨"Team", .present teamResource, [teamNameFieldIgnoreEmpty]⟩, teamResource,
            teamNameFieldIgnoreEmpty⟩) ∧
      rulesContextTwice teamIndex teamRefField teamsRefField =
        some ((⟨some teamRefField, .stringRules teamNameRuleIgnoreEmpty, none, "string", "",
            false, "", ""⟩, none),
          (⟨some teamsRefField, .repeatedRules (.mk none none none
            (.ptr (.mk none (.string teamNameRuleIgnoreEmpty))) none), none, "repeated", "",
            false, "", ""⟩, none))) := by
  refine ⟨?_, ?_, by decide, by decide, by decide⟩
  · intro base resource resourceDesc hb
    refine ⟨?_, ?_, ?_⟩
    · intro rv h
      exact ⟨merge_shell base resource resourceDesc rv hb (Or.inl h), rfl⟩
    · intro h hp
      exact ⟨merge_shell base resource resourceDesc _ hb
        (Or.inr ⟨_, h, basicResourceValidation_eq resourceDesc hp, rfl⟩), rfl⟩
    · intro h hp
      exact merge_panics base resource resourceDesc _ h hp
  · intro g f resource hrep hrules hmr hs
    have hok : ∀ rv, mergeResourceValidation f resource.nameField resource.desc emptyRules =
          some (none, .mk none (.repeated (.mk none none none (.ptr rv) none)),
            resource.nameField) →
        rulesContext g f =
          some (⟨some f, .repeatedRules (.mk none none none (.ptr rv) none), none, "repeated",
            "", false, "", ""⟩, none) := by
      intro rv hm
      rw [rulesContext_eq]
      rcases hrules with hr | hr <;>
        simp [hr, hmr, hs, hm, resolveRules, FieldRulesPtr.GetType, FieldRules.type,
          FieldRulesPtr.Message, FieldRules.message]
    have hbad : mergeResourceValidation f resource.nameField resource.desc emptyRules = none →
        rulesContext g f = none := by
      intro hm
      rw [rulesContext_eq]
      rcases hrules with hr | hr <;> simp [hr, hmr, hs, hm]
    refine ⟨?_, ?_, ?_⟩
    · intro rv h
      exact hok rv (merge_shell f resource.nameField resource.desc rv hrep (Or.inl h))
    · intro h hp
      exact hok _ (merge_shell f resource.nameField resource.desc _ hrep
        (Or.inr ⟨_, h, basicResourceValidation_eq resource.desc hp, rfl⟩))
    · intro h hp
      exact hbad (merge_panics f resource.nameField resource.desc _ h hp)
/-! ## The resource index -/

/-- The visit returns an error exactly for the messages described by visitFails. -/
theorem VisitMessage_err (g : GenCtx) (msg : Message) :
    (VisitMessage g msg).err.isSome = visitFails msg := by
  unfold VisitMessage visitFails nameFieldOf
  cases msg.resource with
  | failed e => rfl
  | absent => rfl
  | present res =>
    simp only
    have : (if res.nameField ≠ "" then res.nameField else "name") =
        (if res.nameField = "" then "name" else res.nameField) := by
      by_cases h : res.nameField = "" <;> simp [h]
    rw [this]
    cases findNameField (if res.nameField = "" then "name" else res.nameField) msg.fields <;> rfl

/-- A visit that returns an error leaves the index as it was. -/
theorem VisitMessage_fail (g : GenCtx) (msg : Message) (h : visitFails msg = true) :
    (VisitMessage g msg).g = g := by
  unfold VisitMessage
  unfold visitFails nameFieldOf at h
  cases hr : msg.resource with
  | failed e => rfl
  | absent => rfl
  | present res =>
    rw [hr] at h
    simp only at h
    have : (if res.nameField ≠ "" then res.nameField else "name") =
        (if res.nameField = "" then "name" else res.nameField) := by
      by_cases h : res.nameField = "" <;> simp [h]
    simp only [this]
    cases hf : findNameField (if res.nameField = "" then "name" else res.nameField) msg.fields with
    | none => rfl
    | some f => simp [hf] at h

/-- The index after walking a package is the index after visiting its visited
messages. -/
theorem Walk_eq (msgs : List Message) : ∀ g : GenCtx,
    (Walk g msgs).1 = visitAll g (visitedOf msgs) := by
  induction msgs with
  | nil => intro g; rfl
  | cons msg rest ih =>
    intro g
    have he := VisitMessage_err g msg
    unfold Walk visitedOf
    cases hv : visitFails msg with
    | true =>
      rw [hv] at he
      obtain ⟨e, hx⟩ := Option.isSome_iff_exists.1 he
      simp only [hx, if_true]
      simp [visitAll]
    | false =>
      rw [hv] at he
      have : (VisitMessage g msg).err = none := by
        cases h : (VisitMessage g msg).err with
        | none => rfl
        | some e => simp [h] at he
      simp only [this, Bool.false_eq_true, if_false]
      rw [ih]
      simp [visitAll]

/-- The index after walking a list of packages from any index. -/
theorem New_eq_aux (pkgs : List (List Message)) : ∀ g : GenCtx,
    pkgs.foldl (fun g pkg => (Walk g pkg).1) g = visitAll g (pkgs.flatMap visitedOf) := by
  induction pkgs with
  | nil => intro g; rfl
  | cons pkg rest ih =>
    intro g
    simp only [List.foldl_cons, List.flatMap_cons]
    rw [ih, Walk_eq]
    simp [visitAll, List.foldl_append]

/-- The index built by New is the index after visiting the visited messages of
the packages in order. -/
theorem New_eq (pkgs : List (List Message)) :
    New pkgs = visitAll GenCtx.empty (pkgs.flatMap visitedOf) :=
  New_eq_aux pkgs GenCtx.empty

/-- A lookup after a visit: the recorded resource under its type identifier,
the previous entry under every other. -/
theorem VisitMessage_lookup (g : GenCtx) (msg : Message) (k : String) :
    (VisitMessage g msg).g.resources k =
      match recordOf msg with
      | some r => if k = r.desc.type then some r else g.resources k
      | none => g.resources k := by
  unfold VisitMessage recordOf nameFieldOf
  cases msg.resource with
  | failed e => rfl
  | absent => rfl
  | present res =>
    simp only
    have : (if res.nameField ≠ "" then res.nameField else "name") =
        (if res.nameField = "" then "name" else res.nameField) := by
      by_cases h : res.nameField = "" <;> simp [h]
    rw [this]
    cases findNameField (if res.nameField = "" then "name" else res.nameField) msg.fields <;> rfl

/-- Visiting one more message at the end. -/
theorem visitAll_append_singleton (g : GenCtx) (msgs : List Message) (msg : Message) :
    visitAll g (msgs ++ [msg]) = (VisitMessage (visitAll g msgs) msg).g := by
  simp [visitAll, List.foldl_append]

/-- Visiting a concatenation. -/
theorem visitAll_append (g : GenCtx) (l₁ l₂ : List Message) :
    visitAll g (l₁ ++ l₂) = visitAll (visitAll g l₁) l₂ := by
  simp [visitAll, List.foldl_append]

/-- Two indexes that agree under an identifier still agree under it after the
same visits. -/
theorem visitAll_congr (k : String) (msgs : List Message) : ∀ g g' : GenCtx,
    g.resources k = g'.resources k →
    (visitAll g msgs).resources k = (visitAll g' msgs).resources k := by
  induction msgs with
  | nil => intro g g' h; exact h
  | cons msg rest ih =>
    intro g g' h
    simp only [visitAll, List.foldl_cons]
    apply ih
    rw [VisitMessage_lookup, VisitMessage_lookup]
    cases recordOf msg with
    | none => exact h
    | some r => simp only [h]

/-- Messages that do not declare an identifier leave its entry alone. -/
theorem visitAll_untouched (k : String) (msgs : List Message) : ∀ g : GenCtx,
    (∀ m ∈ msgs, ∀ d, m.resource = .present d → d.type ≠ k) →
    (visitAll g msgs).resources k = g.resources k := by
  induction msgs with
  | nil => intro g _; rfl
  | cons msg rest ih =>
    intro g h
    simp only [visitAll, List.foldl_cons]
    have := ih (VisitMessage g msg).g (fun m hm => h m (List.mem_cons_of_mem _ hm))
    simp only [visitAll] at this
    rw [this, VisitMessage_lookup]
    cases hr : recordOf msg with
    | none => rfl
    | some r =>
      simp only
      have hk : k ≠ r.desc.type := by
        unfold recordOf at hr
        cases hm : msg.resource with
        | failed e => simp [hm] at hr
        | absent => simp [hm] at hr
        | present res =>
          simp only [hm, Option.map_eq_some'] at hr
          obtain ⟨f, _, rfl⟩ := hr
          exact fun hc => h msg (List.mem_cons_self _ _) res hm hc.symm
      rw [if_neg hk]

/-- C10. Last write wins on a resource-type collision.  Whenever the traversal
visits a message `m1` and later a message `m2`, both with their name field and
both declaring the same resource-type identifier, and no message visited after
`m2` declares it, the index New builds has under that identifier the resource
of `m2` (message, descriptor, name field), and under every other identifier the
entry of the index built from the same traversal without `m1`. -/
theorem last_write_wins (pkgs : List (List Message)) (pre mid post : List Message)
    (m1 m2 : Message) (d1 d2 : ResourceDescriptor) (f1 f2 : Field)
    (hv : pkgs.flatMap visitedOf = pre ++ m1 :: (mid ++ m2 :: post))
    (h1 : m1.resource = .present d1) (hf1 : findNameField (nameFieldOf d1) m1.fields = some f1)
    (h2 : m2.resource = .present d2) (hf2 : findNameField (nameFieldOf d2) m2.fields = some f2)
    (hd : d1.type = d2.type)
    (hpost : ∀ m ∈ post, ∀ d, m.resource = .present d → d.type ≠ d2.type) :
    (New pkgs).resources d2.type = some ⟨m2, d2, f2⟩ ∧
    ∀ k, k ≠ d2.type →
      (New pkgs).resources k =
        (visitAll GenCtx.empty (pre ++ (mid ++ m2 :: post))).resources k := by
  have hr1 : recordOf m1 = some ⟨m1, d1, f1⟩ := by simp [recordOf, h1, hf1]
  have hr2 : recordOf m2 = some ⟨m2, d2, f2⟩ := by simp [recordOf, h2, hf2]
  rw [New_eq, hv]
  constructor
  · have : pre ++ m1 :: (mid ++ m2 :: post) = ((pre ++ m1 :: mid) ++ [m2]) ++ post := by simp
    rw [this, visitAll_append, visitAll_untouched _ _ _ hpost, visitAll_append_singleton,
      VisitMessage_lookup, hr2]
    simp
  · intro k hk
    have : pre ++ m1 :: (mid ++ m2 :: post) = (pre ++ [m1]) ++ (mid ++ m2 :: post) := by simp
    rw [this, visitAll_append, visitAll_append_singleton, visitAll_append _ pre]
    apply visitAll_congr
    rw [VisitMessage_lookup, hr1]
    simp only
    rw [if_neg (by rw [hd]; exact hk)]

/-- Witness of C10: `User` and `Member` declare `example.com/User` in two
packages; walked in this order, `Member` is the entry. -/
theorem last_write_wins_witness :
    [[userMessage], [memberMessage]].flatMap visitedOf = [] ++ userMessage :: ([] ++ memberMessage :: []) ∧
    (New [[userMessage], [memberMessage]]).resources "example.com/User" =
      some ⟨memberMessage, ⟨"example.com/User", ["members/\x7bmember\x7d".toList], ""⟩,
        ⟨"name", scalarT, .absent, .absent,
          .present ⟨"example.com/User", ["members/\x7bmember\x7d".toList], ""⟩⟩⟩ :=
  ⟨by decide,
    (last_write_wins [[userMessage], [memberMessage]] [] [] [] userMessage memberMessage
      userResource ⟨"example.com/User", ["members/\x7bmember\x7d".toList], ""⟩ userNameField
      ⟨"name", scalarT, .absent, .absent,
        .present ⟨"example.com/User", ["members/\x7bmember\x7d".toList], ""⟩⟩
      (by decide) rfl (by decide) rfl (by decide) rfl (by simp)).1⟩

/-- C9, the code at a schema with a resource that has no name field.  The visit
of such a message returns the error, leaves the index as it was and returns no
visitor, and the walk of its package stops there.  New discards the error of
the walk and has no error result of its own.  `Orphan` has a resource
descriptor and no name field: for the packages `[User, Orphan, Account]` and
`[Member]` the index New returns has no entry for `Orphan` and none for
`Account`, which comes after `Orphan` in the same package; for the packages
`[User, Orphan]` and `[Account]`, walked in either order, it has the entry of
`User`, recorded before `Orphan`, and the entry of `Account`, which is in the
other package. -/
theorem missing_name_field_not_fatal :
    (∀ (g : GenCtx) (msg : Message) (res : ResourceDescriptor),
      msg.resource = .present res → findNameField (nameFieldOf res) msg.fields = none →
      VisitMessage g msg = ⟨g, false, some .noNameField⟩) ∧
    (∀ (g : GenCtx) (msg : Message) (rest : List Message) (res : ResourceDescriptor),
      msg.resource = .present res → findNameField (nameFieldOf res) msg.fields = none →
      Walk g (msg :: rest) = (g, some .noNameField)) ∧
    (Walk GenCtx.empty [userMessage, orphanMessage, accountMessage]).2 = some .noNameField ∧
    (New [[userMessage, orphanMessage, accountMessage], [memberMessage]]).resources
        "example.com/Orphan" = none ∧
    (New [[userMessage, orphanMessage, accountMessage], [memberMessage]]).resources
        "example.com/Account" = none ∧
    (New [[userMessage, orphanMessage], [accountMessage]]).resources "example.com/User" =
      some ⟨userMessage, userResource, userNameField⟩ ∧
    (New [[userMessage, orphanMessage], [accountMessage]]).resources "example.com/Account" =
      some ⟨accountMessage, accountResource, accountIdField⟩ ∧
    (New [[accountMessage], [userMessage, orphanMessage]]).resources "example.com/User" =
      some ⟨userMessage, userResource, userNameField⟩ ∧
    (New [[accountMessage], [userMessage, orphanMessage]]).resources "example.com/Account" =
      some ⟨accountMessage, accountResource, accountIdField⟩ := by
  have hv : ∀ (g : GenCtx) (msg : Message) (res : ResourceDescriptor),
      msg.resource = .present res → findNameField (nameFieldOf res) msg.fields = none →
      VisitMessage g msg = ⟨g, false, some .noNameField⟩ := by
    intro g msg res hr hf
    unfold nameFieldOf at hf
    have : (if res.nameField ≠ "" then res.nameField else "name") =
        (if res.nameField = "" then "name" else res.nameField) := by
      by_cases h : res.nameField = "" <;> simp [h]
    simp only [VisitMessage, hr, this, hf]
  refine ⟨hv, ?_, by decide, by decide, by decide, by decide, by decide, by decide, by decide⟩
  intro g msg rest res hr hf
  simp only [Walk, hv g msg res hr hf]

/-- The loop over the fields finds a field exactly when one has the name, and
then it is the first with that name. -/
theorem findNameField_some (nameField : String) (fields : List Field) :
    (∃ f ∈ fields, f.name = nameField) →
    ∃ pre field post, fields = pre ++ field :: post ∧ field.name = nameField ∧
      (∀ f ∈ pre, f.name ≠ nameField) ∧ findNameField nameField fields = some field := by
  induction fields with
  | nil => rintro ⟨f, hf, _⟩; exact absurd hf (List.not_mem_nil _)
  | cons a rest ih =>
    intro h
    by_cases ha : a.name = nameField
    · exact ⟨[], a, rest, rfl, ha, fun f hf => absurd hf (List.not_mem_nil _),
        by simp [findNameField, ha]⟩
    · have hrest : ∃ f ∈ rest, f.name = nameField := by
        obtain ⟨f, hf, hn⟩ := h
        rcases List.mem_cons.1 hf with rfl | hf
        · exact absurd hn ha
        · exact ⟨f, hf, hn⟩
      obtain ⟨pre, field, post, hfs, hn, hpre, hfind⟩ := ih hrest
      refine ⟨a :: pre, field, post, by simp [hfs], hn, ?_, by simp [findNameField, ha, hfind]⟩
      intro f hf
      rcases List.mem_cons.1 hf with rfl | hf
      · exact ha
      · exact hpre f hf

/-- C11. VisitMessage records exactly the right resource.  For a message with no
resource descriptor it returns no error and the index as it was.  For a message
with a resource descriptor whose name-field identifier (the override when it is
not empty, "name" otherwise) is the name of one of the message's own fields, it
returns no error, and the index afterwards maps the descriptor's type
identifier to the resource made of the message, the descriptor and the first
own field with that name, and every other identifier to what it mapped to
before. -/
theorem VisitMessage_records :
    (∀ (g : GenCtx) (msg : Message), msg.resource = .absent →
      VisitMessage g msg = ⟨g, true, none⟩) ∧
    (∀ (g : GenCtx) (msg : Message) (res : ResourceDescriptor),
      msg.resource = .present res →
      (∃ f ∈ msg.fields, f.name = nameFieldOf res) →
      ∃ pre field post, msg.fields = pre ++ field :: post ∧ field.name = nameFieldOf res ∧
        (∀ f ∈ pre, f.name ≠ nameFieldOf res) ∧
        (VisitMessage g msg).err = none ∧ (VisitMessage g msg).visitor = true ∧
        (VisitMessage g msg).g.resources res.type = some ⟨msg, res, field⟩ ∧
        ∀ k, k ≠ res.type → (VisitMessage g msg).g.resources k = g.resources k) := by
  constructor
  · intro g msg h
    simp only [VisitMessage, h]
  · intro g msg res hr hex
    obtain ⟨pre, field, post, hfs, hn, hpre, hfind⟩ := findNameField_some _ _ hex
    have hname : (if res.nameField ≠ "" then res.nameField else "name") = nameFieldOf res := by
      unfold nameFieldOf
      by_cases h : res.nameField = "" <;> simp [h]
    have hV : VisitMessage g msg = ⟨g.set res.type ⟨msg, res, field⟩, true, none⟩ := by
      simp only [VisitMessage, hr, hname, hfind]
    refine ⟨pre, field, post, hfs, hn, hpre, ?_, ?_, ?_, ?_⟩
    · rw [hV]
    · rw [hV]
    · rw [hV]
      simp [GenCtx.set]
    · intro k hk
      rw [hV]
      simp [GenCtx.set, hk]

/-- Witness of C11: the visit of `Account`, whose name field is `id`. -/
theorem VisitMessage_records_witness :
    accountMessage.resource = .present accountResource ∧
    (∃ f ∈ accountMessage.fields, f.name = nameFieldOf accountResource) ∧
    ∃ pre field post, accountMessage.fields = pre ++ field :: post ∧
      field.name = nameFieldOf accountResource ∧
      (∀ f ∈ pre, f.name ≠ nameFieldOf accountResource) ∧
      (VisitMessage GenCtx.empty accountMessage).err = none ∧
      (VisitMessage GenCtx.empty accountMessage).visitor = true ∧
      (VisitMessage GenCtx.empty accountMessage).g.resources accountResource.type =
        some ⟨accountMessage, accountResource, field⟩ ∧
      ∀ k, k ≠ accountResource.type →
        (VisitMessage GenCtx.empty accountMessage).g.resources k = GenCtx.empty.resources k :=
  ⟨rfl, ⟨accountIdField, by decide, by decide⟩,
    VisitMessage_records.2 GenCtx.empty accountMessage accountResource rfl
      ⟨accountIdField, by decide, by decide⟩⟩

/-! ## Navigation: Key, Elem and Unwrap -/

/-- A result of resolveRules has kind "map" exactly when its payload is a map
payload, and kind "repeated" exactly when it is a repeated payload. -/
theorem resolveRules_kind_payload (typ : Option Typ) (rules : FieldRulesPtr) (res : Resolved)
    (h : resolveRules typ rules = some res) :
    (res.ruleType = "map" ↔ ∃ m, res.rule = .mapRules m) ∧
    (res.ruleType = "repeated" ↔ ∃ r, res.rule = .repeatedRules r) := by
  by_cases ht : rules.GetType = .absent
  · rcases resolveRules_absent typ rules res ht h with h | h | h | h <;> simp [h]
  · cases rules with
    | nil => exact absurd rfl ht
    | ptr r =>
      obtain ⟨m, t⟩ := r
      cases typ with
      | none =>
        cases t <;> simp [resolveRules, FieldRulesPtr.GetType, FieldRules.type, IsEmbed,
          FieldRulesPtr.Message, FieldRules.message] at h ht <;> subst h <;> simp
      | some ty =>
        cases t <;> simp [resolveRules, FieldRulesPtr.GetType, FieldRules.type, IsEmbed,
          FieldRulesPtr.Message, FieldRules.message] at h ht <;> subst h <;> simp

/-- The kind name of wrappable constraint data is one of the nine names. -/
theorem scalarKind_mem (d : ProtoMessage) (k : String) (h : d.scalarKind = some k) :
    k ∈ wrappableKinds := by
  cases d <;> simp [ProtoMessage.scalarKind] at h <;> subst h <;> decide

/-- On a singular field type resolveRules does what it does on an element type
with the same embedding. -/
theorem resolveRules_singular (ft : FieldType) (rules : FieldRulesPtr)
    (hr : ft.isRepeated = false) (hm : ft.isMap = false) :
    resolveRules (some (.fieldType ft)) rules = resolveRules (some (.elem ⟨ft.isEmbed⟩)) rules := by
  cases rules with
  | nil => simp [resolveRules, FieldRulesPtr.GetType, IsEmbed, Typ.isEmbed, hr, hm]
  | ptr r =>
    obtain ⟨m, t⟩ := r
    cases t <;> simp [resolveRules, FieldRulesPtr.GetType, FieldRules.type, IsEmbed, Typ.isEmbed,
      hr, hm]

/-- The result of Key on a map payload, for a field whose type has a key
type. -/
theorem Key_map (ctx : RuleContext) (field : Field) (key : FieldTypeElem) (r : MapRules)
    (name idx : String) (hf : ctx.field = some field) (hk : field.typ.key = some key)
    (hr : ctx.rules = .mapRules r) :
    ∃ res, resolveRules (some (.elem key)) r.GetKeys = some res ∧
      ctx.Key name idx =
        some (⟨some field, res.rule, res.messageRule, res.ruleType, "", false, idx, name⟩,
          if res.ruleType = "error" then some .unknownRuleType else none) := by
  obtain ⟨res, hres⟩ := resolveRules_elem_total key r.GetKeys
  exact ⟨res, hres, by simp only [RuleContext.Key, hr, hf, hk, Option.map_some', hres]⟩

/-- The result of Elem on a map or repeated payload with element rules `sub`,
for a field whose type has an element type. -/
theorem Elem_sub (ctx : RuleContext) (field : Field) (el : FieldTypeElem) (sub : FieldRulesPtr)
    (name idx : String) (hf : ctx.field = some field) (hel : field.typ.element = some el)
    (hsub : (∃ r, ctx.rules = .mapRules r ∧ sub = r.GetValues) ∨
      (∃ r, ctx.rules = .repeatedRules r ∧ sub = r.GetItems)) :
    ∃ res, resolveRules (some (.elem el)) sub = some res ∧
      ctx.Elem name idx =
        some (if res.wrapped = true then
            ⟨some field, res.rule, res.messageRule, "wrapper", res.ruleType, false, idx, name⟩
          else ⟨some field, res.rule, res.messageRule, res.ruleType, "", false, idx, name⟩,
          if res.ruleType = "error" then some .unknownRuleType else none) := by
  obtain ⟨res, hres⟩ := resolveRules_elem_total el sub
  have hw := wrapped_iff _ _ _ hres
  refine ⟨res, hres, ?_⟩
  have herr : res.wrapped = true → res.ruleType ≠ "error" := by
    intro hwr
    have := scalarKind_mem _ _ (hw.2.2.1 hwr)
    intro he
    rw [he] at this
    exact absurd this (by decide)
  rcases hsub with ⟨r, hr, hs⟩ | ⟨r, hr, hs⟩ <;>
  · subst hs
    simp only [RuleContext.Elem, hr, hf, hel, Option.map_some', hres]
    by_cases hwr : res.wrapped = true
    · simp [hwr, herr hwr]
    · simp [hwr]

/-- C12. Key is valid only on a map descriptor.  On a descriptor whose payload
is not a map payload Key returns an error (and the zero descriptor); so it does
on every descriptor of kind "repeated" that rulesContext or Elem produce, and
on the descriptor of the repeated field `tags`.  On a descriptor with a map
payload, for a field whose type has a key type, resolveRules returns for the
key type and the key rules held by the payload, and Key returns the descriptor
whose kind, payload and nested message constraints are what it yields, with the
accessor and index given, and no error unless that kind is "error".  For
`limits`, whose key rules are string rules, the key descriptor has kind
"string" and these string rules as payload. -/
theorem Key_only_on_map :
    (∀ (ctx : RuleContext) (name idx : String), (∀ r, ctx.rules ≠ .mapRules r) →
      ctx.Key name idx = some (RuleContext.zero, some .cannotGetKey)) ∧
    (∀ (g : GenCtx) (f : Field) (out : RuleContext) (err : Option Err) (name idx : String),
      rulesContext g f = some (out, err) → out.typ = "repeated" →
      out.Key name idx = some (RuleContext.zero, some .cannotGetKey)) ∧
    (∀ (ctx out : RuleContext) (err : Option Err) (name idx name' idx' : String),
      ctx.Elem name idx = some (out, err) → out.typ = "repeated" →
      out.Key name' idx' = some (RuleContext.zero, some .cannotGetKey)) ∧
    (∀ (ctx : RuleContext) (field : Field) (key : FieldTypeElem) (minPairs maxPairs : Option Nat)
        (noSparse : Option Bool) (keys values : FieldRulesPtr) (ignoreEmpty : Option Bool)
        (name idx : String),
      ctx.field = some field → field.typ.key = some key →
      ctx.rules = .mapRules (.mk minPairs maxPairs noSparse keys values ignoreEmpty) →
      (∃ res, resolveRules (some (.elem key)) keys = some res) ∧
      ∀ res, resolveRules (some (.elem key)) keys = some res →
        (res.ruleType ≠ "error" →
          ctx.Key name idx =
            some (⟨some field, res.rule, res.messageRule, res.ruleType, "", false, idx, name⟩,
              none)) ∧
        (res.ruleType = "error" →
          ctx.Key name idx =
            some (⟨some field, res.rule, res.messageRule, res.ruleType, "", false, idx, name⟩,
              some .unknownRuleType))) ∧
    limitsContext.Key "key" "idx" =
      some (⟨some limitsField, .stringRules ⟨none, none, [1]⟩, none, "string", "", false, "idx",
        "key"⟩, none) ∧
    tagsContext.Key "key" "idx" = some (RuleContext.zero, some .cannotGetKey) := by
  have hnot : ∀ (ctx : RuleContext) (name idx : String), (∀ r, ctx.rules ≠ .mapRules r) →
      ctx.Key name idx = some (RuleContext.zero, some .cannotGetKey) := by
    intro ctx name idx h
    unfold RuleContext.Key
    split
    · rename_i r hr
      exact absurd hr (h r)
    · rfl
  have hrep : ∀ (typ : Option Typ) (rules : FieldRulesPtr) (res : Resolved) (fld : Option Field)
      (out : RuleContext) (i n : String),
      resolveRules typ rules = some res →
      out = (if res.wrapped = true then
          ⟨fld, res.rule, res.messageRule, "wrapper", res.ruleType, false, i, n⟩
        else ⟨fld, res.rule, res.messageRule, res.ruleType, "", false, i, n⟩) →
      out.typ = "repeated" → ∀ r, out.rules ≠ .mapRules r := by
    intro typ rules res fld out i n hres ho ht r hr
    have hkp := resolveRules_kind_payload typ rules res hres
    by_cases hw : res.wrapped = true
    · simp only [hw, if_true] at ho
      rw [ho] at ht
      simp at ht
    · simp only [hw] at ho
      rw [ho] at ht hr
      have ht' : res.ruleType = "repeated" := ht
      have hr : res.rule = .mapRules r := hr
      obtain ⟨r', hr'⟩ := hkp.2.1 ht'
      rw [hr'] at hr
      exact absurd hr (by simp)
  refine ⟨hnot, ?_, ?_, ?_, by decide, by decide⟩
  · intro g f out err name idx h ht
    apply hnot
    rcases rulesContext_cases g f out err h with ⟨ho, _⟩ | ⟨rules, r, hres, ho, _⟩
    · rw [ho] at ht
      simp at ht
    · exact hrep _ _ r (some f) out "" "" hres ho ht
  · intro ctx out err name idx name' idx' h ht
    apply hnot
    unfold RuleContext.Elem at h
    simp only at h
    split at h
    · simp only [Option.some.injEq, Prod.mk.injEq] at h
      rw [← h.1] at ht
      simp at ht
    · split at h
      · exact absurd h (by simp)
      · split at h
        · exact absurd h (by simp)
        · rename_i res hres
          simp only [Option.some.injEq, Prod.mk.injEq] at h
          exact hrep _ _ res ctx.field out idx name hres h.1.symm ht
  · intro ctx field key minPairs maxPairs noSparse keys values ignoreEmpty name idx hf hk hr
    obtain ⟨res', hres', hK⟩ := Key_map ctx field key _ name idx hf hk hr
    refine ⟨⟨res', hres'⟩, ?_⟩
    intro res hres
    have he : res' = res := Option.some.inj (hres'.symm.trans hres)
    subst he
    refine ⟨?_, ?_⟩
    · intro hne
      rw [hK, if_neg hne]
    · intro he
      rw [hK, if_pos he]

/-- Witness of C12: the key descriptor of `limits` has the string rules of the
payload, and Key fails on the descriptor of the repeated field `tags`. -/
theorem Key_only_on_map_witness :
    limitsContext.field = some limitsField ∧ limitsField.typ.key = some ⟨false⟩ ∧
    limitsContext.rules =
      .mapRules (.mk none none none (.ptr (.mk none (.string ⟨none, none, [1]⟩)))
        (.ptr (.mk none (.int32 ⟨none, [2]⟩))) none) ∧
    resolveRules (some (.elem ⟨false⟩)) (.ptr (.mk none (.string ⟨none, none, [1]⟩))) =
      some ⟨"string", .stringRules ⟨none, none, [1]⟩, none, false⟩ ∧
    limitsContext.Key "key" "idx" =
      some (⟨some limitsField, .stringRules ⟨none, none, [1]⟩, none, "string", "", false, "idx",
        "key"⟩, none) ∧
    tagsContext.rules = .repeatedRules tagsRules ∧
    tagsContext.Key "key" "idx" = some (RuleContext.zero, some .cannotGetKey) :=
  ⟨rfl, rfl, rfl, by decide,
    ((Key_only_on_map.2.2.2.1 limitsContext limitsField ⟨false⟩ none none none
      (.ptr (.mk none (.string ⟨none, none, [1]⟩))) (.ptr (.mk none (.int32 ⟨none, [2]⟩))) none
      "key" "idx" rfl rfl rfl).2
      ⟨"string", .stringRules ⟨none, none, [1]⟩, none, false⟩ (by decide)).1 (by decide),
    rfl, Key_only_on_map.1 tagsContext "key" "idx" (by intro r; simp [tagsContext])⟩

/-- C13. Elem descends into the right sub-payload and re-resolves like a fresh
field.  On a descriptor whose payload is neither a map nor a repeated payload
Elem returns an error.  On a map payload it takes the value rules held by the
payload, on a repeated payload the item rules held by the payload, and for a
field whose type has an element type resolveRules returns for the element type
and these rules, and Elem returns the descriptor whose kind, wrappedKind,
payload and nested message constraints are what it yields followed by wrapper
detection, with the accessor and index given; the error is set exactly when the
kind is "error".  These four components and the error are the ones rulesContext
returns for a singular field of the element's type that carries these rules and
inherits nothing; where the payload has no value or item rules, they are the
ones of such a field without rules.  For the map `limits` the value descriptor
is a wrapper around the int32 rules of the values, and for the repeated field
`tags` the item descriptor has kind "string" and the string rules of the
items. -/
theorem Elem_descends :
    (∀ (ctx : RuleContext) (name idx : String),
      (∀ r, ctx.rules ≠ .mapRules r) → (∀ r, ctx.rules ≠ .repeatedRules r) →
      ctx.Elem name idx =
        some (⟨ctx.field, .nil, none, "", "", false, idx, name⟩, some .cannotGetElem)) ∧
    (∀ (ctx : RuleContext) (field : Field) (el : FieldTypeElem) (minPairs maxPairs : Option Nat)
        (noSparse : Option Bool) (keys values : FieldRulesPtr) (ignoreEmpty : Option Bool)
        (name idx : String),
      ctx.field = some field → field.typ.element = some el →
      ctx.rules = .mapRules (.mk minPairs maxPairs noSparse keys values ignoreEmpty) →
      (∃ res, resolveRules (some (.elem el)) values = some res) ∧
      ∀ res, resolveRules (some (.elem el)) values = some res →
        ctx.Elem name idx =
          some (if res.wrapped = true then
              ⟨some field, res.rule, res.messageRule, "wrapper", res.ruleType, false, idx, name⟩
            else ⟨some field, res.rule, res.messageRule, res.ruleType, "", false, idx, name⟩,
            if res.ruleType = "error" then some .unknownRuleType else none) ∧
        (res.wrapped = true ↔ el.isEmbed = true ∧ (wrappable values.GetType).isSome = true)) ∧
    (∀ (ctx : RuleContext) (field : Field) (el : FieldTypeElem) (minItems maxItems : Option Nat)
        (unique : Option Bool) (items : FieldRulesPtr) (ignoreEmpty : Option Bool)
        (name idx : String),
      ctx.field = some field → field.typ.element = some el →
      ctx.rules = .repeatedRules (.mk minItems maxItems unique items ignoreEmpty) →
      (∃ res, resolveRules (some (.elem el)) items = some res) ∧
      ∀ res, resolveRules (some (.elem el)) items = some res →
        ctx.Elem name idx =
          some (if res.wrapped = true then
              ⟨some field, res.rule, res.messageRule, "wrapper", res.ruleType, false, idx, name⟩
            else ⟨some field, res.rule, res.messageRule, res.ruleType, "", false, idx, name⟩,
            if res.ruleType = "error" then some .unknownRuleType else none) ∧
        (res.wrapped = true ↔ el.isEmbed = true ∧ (wrappable items.GetType).isSome = true)) ∧
    (∀ (ctx : RuleContext) (field : Field) (el : FieldTypeElem) (rules : FieldRules)
        (name idx : String) (g : GenCtx) (fresh : Field),
      ctx.field = some field → field.typ.element = some el →
      ((∃ minPairs maxPairs noSparse keys ignoreEmpty,
          ctx.rules = .mapRules (.mk minPairs maxPairs noSparse keys (.ptr rules) ignoreEmpty)) ∨
        (∃ minItems maxItems unique ignoreEmpty,
          ctx.rules = .repeatedRules (.mk minItems maxItems unique (.ptr rules) ignoreEmpty))) →
      fresh.typ.isRepeated = false → fresh.typ.isMap = false →
      fresh.typ.isEmbed = el.isEmbed → fresh.rules = .present rules →
      SearchResourceReference g fresh = none →
      ∃ out out' err, ctx.Elem name idx = some (out, err) ∧
        rulesContext g fresh = some (out', err) ∧
        out.typ = out'.typ ∧ out.wrapperTyp = out'.wrapperTyp ∧ out.rules = out'.rules ∧
        out.messageRules = out'.messageRules ∧
        out.accessorOverride = name ∧ out.index = idx ∧ out.field = some field) ∧
    (∀ (ctx : RuleContext) (field : Field) (el : FieldTypeElem)
        (name idx : String) (g : GenCtx) (fresh : Field),
      ctx.field = some field → field.typ.element = some el →
      ((∃ minPairs maxPairs noSparse keys ignoreEmpty,
          ctx.rules = .mapRules (.mk minPairs maxPairs noSparse keys .nil ignoreEmpty)) ∨
        (∃ minItems maxItems unique ignoreEmpty,
          ctx.rules = .repeatedRules (.mk minItems maxItems unique .nil ignoreEmpty))) →
      fresh.typ.isRepeated = false → fresh.typ.isMap = false →
      fresh.typ.isEmbed = el.isEmbed → fresh.rules = .absent →
      fresh.messageResource = .absent → SearchResourceReference g fresh = none →
      ∃ out out', ctx.Elem name idx = some (out, none) ∧
        rulesContext g fresh = some (out', none) ∧
        out.typ = out'.typ ∧ out.wrapperTyp = out'.wrapperTyp ∧ out.rules = out'.rules ∧
        out.messageRules = out'.messageRules ∧
        out.accessorOverride = name ∧ out.index = idx ∧ out.field = some field) ∧
    limitsContext.Elem "value" "idx" =
      some (⟨some limitsField, .int32Rules ⟨none, [2]⟩, none, "wrapper", "int32", false, "idx",
        "value"⟩, none) ∧
    tagsContext.Elem "item" "idx" =
      some (⟨some tagsField, .stringRules ⟨none, none, [3]⟩, none, "string", "", false, "idx",
        "item"⟩, none) := by
  have hsubs : ∀ (ctx : RuleContext) (field : Field) (el : FieldTypeElem) (sub : FieldRulesPtr)
      (name idx : String), ctx.field = some field → field.typ.element = some el →
      ((∃ r, ctx.rules = .mapRules r ∧ sub = r.GetValues) ∨
        (∃ r, ctx.rules = .repeatedRules r ∧ sub = r.GetItems)) →
      (∃ res, resolveRules (some (.elem el)) sub = some res) ∧
      ∀ res, resolveRules (some (.elem el)) sub = some res →
        ctx.Elem name idx =
          some (if res.wrapped = true then
              ⟨some field, res.rule, res.messageRule, "wrapper", res.ruleType, false, idx, name⟩
            else ⟨some field, res.rule, res.messageRule, res.ruleType, "", false, idx, name⟩,
            if res.ruleType = "error" then some .unknownRuleType else none) ∧
        (res.wrapped = true ↔ el.isEmbed = true ∧ (wrappable sub.GetType).isSome = true) := by
    intro ctx field el sub name idx hf hel hsub
    obtain ⟨res', hres', hE⟩ := Elem_sub ctx field el sub name idx hf hel hsub
    refine ⟨⟨res', hres'⟩, ?_⟩
    intro res hres
    have he : res' = res := Option.some.inj (hres'.symm.trans hres)
    subst he
    exact ⟨hE, (wrapped_iff _ _ _ hres).1⟩
  refine ⟨?_, ?_, ?_, ?_, ?_, by decide, by decide⟩
  · intro ctx name idx h1 h2
    unfold RuleContext.Elem
    have : (match ctx.rules with
        | .mapRules r => some r.GetValues
        | .repeatedRules r => some r.GetItems
        | _ => none) = none := by
      split
      · rename_i r hr
        exact absurd hr (h1 r)
      · rename_i r hr
        exact absurd hr (h2 r)
      · rfl
    simp only [this]
  · intro ctx field el minPairs maxPairs noSparse keys values ignoreEmpty name idx hf hel hr
    exact hsubs ctx field el values name idx hf hel (Or.inl ⟨_, hr, rfl⟩)
  · intro ctx field el minItems maxItems unique items ignoreEmpty name idx hf hel hr
    exact hsubs ctx field el items name idx hf hel (Or.inr ⟨_, hr, rfl⟩)
  · intro ctx field el rules name idx g fresh hf hel hsub hrep hmap hemb hrules hs
    have hsub' : (∃ r, ctx.rules = .mapRules r ∧ FieldRulesPtr.ptr rules = r.GetValues) ∨
        (∃ r, ctx.rules = .repeatedRules r ∧ FieldRulesPtr.ptr rules = r.GetItems) := by
      rcases hsub with ⟨a, b, c, k, d, h1⟩ | ⟨a, b, c, d, h1⟩
      · exact Or.inl ⟨_, h1, rfl⟩
      · exact Or.inr ⟨_, h1, rfl⟩
    obtain ⟨res, hres, hE⟩ := Elem_sub ctx field el (.ptr rules) name idx hf hel hsub'
    have hfresh : resolveRules (some (.fieldType fresh.typ)) (.ptr rules) = some res := by
      rw [resolveRules_singular fresh.typ _ hrep hmap, hemb]
      exact hres
    have hw := wrapped_iff _ _ _ hres
    have herr : res.wrapped = true → res.ruleType ≠ "error" := by
      intro hwr he
      have := scalarKind_mem _ _ (hw.2.2.1 hwr)
      rw [he] at this
      exact absurd this (by decide)
    have hR : rulesContext g fresh =
        some (if res.wrapped = true then
            ⟨some fresh, res.rule, res.messageRule, "wrapper", res.ruleType, false, "", ""⟩
          else ⟨some fresh, res.rule, res.messageRule, res.ruleType, "", false, "", ""⟩,
          if res.ruleType = "error" then some .unknownRuleType else none) := by
      rw [rulesContext_eq]
      simp only [hrules, hs, hfresh]
      by_cases hwr : res.wrapped = true
      · simp [hwr, herr hwr]
      · simp [hwr]
    refine ⟨_, _, _, hE, hR, ?_⟩
    by_cases hwr : res.wrapped = true <;> simp [hwr]
  · intro ctx field el name idx g fresh hf hel hsub hrep hmap hemb hrules hmr hs
    have hsub' : (∃ r, ctx.rules = .mapRules r ∧ r.GetValues = .nil) ∨
        (∃ r, ctx.rules = .repeatedRules r ∧ r.GetItems = .nil) := by
      rcases hsub with ⟨a, b, c, k, d, h1⟩ | ⟨a, b, c, d, h1⟩
      · exact Or.inl ⟨_, h1, rfl⟩
      · exact Or.inr ⟨_, h1, rfl⟩
    have hE : ctx.Elem name idx =
        some (if el.isEmbed = true then
            ⟨some field, .messageRules none, none, "message", "", false, idx, name⟩
          else ⟨some field, .nil, none, "none", "", false, idx, name⟩, none) := by
      rcases hsub' with ⟨r, hr, hn⟩ | ⟨r, hr, hn⟩ <;>
      · simp only [RuleContext.Elem, hr, hf, hel, hn, Option.map_some']
        cases he : el.isEmbed <;>
          simp [resolveRules, FieldRulesPtr.GetType, FieldRulesPtr.GetMessage, IsEmbed,
            Typ.isEmbed, he]
    have hR : rulesContext g fresh =
        some (if el.isEmbed = true then
            ⟨some fresh, .messageRules none, none, "message", "", false, "", ""⟩
          else ⟨some fresh, .nil, none, "none", "", false, "", ""⟩, none) := by
      rw [rulesContext_eq]
      simp only [hrules, hmr, hs]
      rw [resolveRules_singular fresh.typ _ hrep hmap, hemb]
      cases he : el.isEmbed <;>
        simp [resolveRules, FieldRulesPtr.GetType, FieldRulesPtr.GetMessage, IsEmbed,
          Typ.isEmbed, he, emptyRules, FieldRules.type, FieldRules.message]
    refine ⟨_, _, hE, hR, ?_⟩
    cases el.isEmbed <;> simp

/-- Witness of C13: the value descriptor of the map `limits` is a wrapper
around the int32 rules of the values, and the item descriptor of the repeated
field `tags` has the string rules of the items. -/
theorem Elem_descends_witness :
    (limitsContext.field = some limitsField ∧ limitsField.typ.element = some ⟨true⟩ ∧
      limitsContext.rules =
        .mapRules (.mk none none none (.ptr (.mk none (.string ⟨none, none, [1]⟩)))
          (.ptr (.mk none (.int32 ⟨none, [2]⟩))) none) ∧
      resolveRules (some (.elem ⟨true⟩)) (.ptr (.mk none (.int32 ⟨none, [2]⟩))) =
        some ⟨"int32", .int32Rules ⟨none, [2]⟩, none, true⟩ ∧
      limitsContext.Elem "value" "idx" =
        some (⟨some limitsField, .int32Rules ⟨none, [2]⟩, none, "wrapper", "int32", false,
          "idx", "value"⟩, none)) ∧
    (tagsContext.field = some tagsField ∧ tagsField.typ.element = some ⟨false⟩ ∧
      tagsContext.rules =
        .repeatedRules (.mk none none none (.ptr (.mk none (.string ⟨none, none, [3]⟩))) none) ∧
      resolveRules (some (.elem ⟨false⟩)) (.ptr (.mk none (.string ⟨none, none, [3]⟩))) =
        some ⟨"string", .stringRules ⟨none, none, [3]⟩, none, false⟩ ∧
      tagsContext.Elem "item" "idx" =
        some (⟨some tagsField, .stringRules ⟨none, none, [3]⟩, none, "string", "", false, "idx",
          "item"⟩, none)) :=
  ⟨⟨rfl, rfl, rfl, by decide,
      ((Elem_descends.2.1 limitsContext limitsField ⟨true⟩ none none none
        (.ptr (.mk none (.string ⟨none, none, [1]⟩))) (.ptr (.mk none (.int32 ⟨none, [2]⟩)))
        none "value" "idx" rfl rfl rfl).2
        ⟨"int32", .int32Rules ⟨none, [2]⟩, none, true⟩ (by decide)).1⟩,
    ⟨rfl, rfl, rfl, by decide,
      ((Elem_descends.2.2.1 tagsContext tagsField ⟨false⟩ none none none
        (.ptr (.mk none (.string ⟨none, none, [3]⟩))) none "item" "idx" rfl rfl rfl).2
        ⟨"string", .stringRules ⟨none, none, [3]⟩, none, false⟩ (by decide)).1⟩⟩

/-- C14. Unwrap succeeds if and only if the kind of the descriptor is
"wrapper".  In that case it returns the descriptor with the wrappedKind of the
input as kind, the same field, payload and nested message constraints, the
accessor given, and index and wrappedKind unset; for a descriptor of any other
kind it returns an error (and the zero descriptor). -/
theorem Unwrap_iff_wrapper :
    (∀ (ctx : RuleContext) (name : String), ctx.typ = "wrapper" →
      ctx.Unwrap name =
        (⟨ctx.field, ctx.rules, ctx.messageRules, ctx.wrapperTyp, "", false, "", name⟩, none)) ∧
    (∀ (ctx : RuleContext) (name : String), ctx.typ ≠ "wrapper" →
      ctx.Unwrap name = (RuleContext.zero, some (.cannotUnwrap ctx.typ))) ∧
    (∀ (ctx : RuleContext) (name : String), (ctx.Unwrap name).2 = none ↔ ctx.typ = "wrapper") := by
  refine ⟨?_, ?_, ?_⟩
  · intro ctx name h
    simp [RuleContext.Unwrap, h]
  · intro ctx name h
    simp [RuleContext.Unwrap, h]
  · intro ctx name
    by_cases h : ctx.typ = "wrapper" <;> simp [RuleContext.Unwrap, h]

/-- Witness of C14: unwrapping the descriptor of `count`. -/
theorem Unwrap_iff_wrapper_witness :
    wrappedInt32Context.typ = "wrapper" ∧
    wrappedInt32Context.Unwrap "value" =
      (⟨some wrappedInt32Field, .int32Rules ⟨none, [1]⟩, none, "int32", "", false, "", "value"⟩,
        none) :=
  ⟨rfl, Unwrap_iff_wrapper.1 wrappedInt32Context "value" rfl⟩

/-- A descriptor built from a result of resolveRules by the wrapper step has
kind "wrapper" exactly when its wrappedKind is not empty, which is then one of
the nine wrappable kinds. -/
theorem wrapper_step_wellFormed (typ : Option Typ) (rules : FieldRulesPtr) (res : Resolved)
    (fld : Option Field) (i n : String) (out : RuleContext)
    (hres : resolveRules typ rules = some res)
    (ho : out = (if res.wrapped = true then
        ⟨fld, res.rule, res.messageRule, "wrapper", res.ruleType, false, i, n⟩
      else ⟨fld, res.rule, res.messageRule, res.ruleType, "", false, i, n⟩)) :
    (out.typ = "wrapper" ↔ out.wrapperTyp ≠ "") ∧
    (out.wrapperTyp ≠ "" → out.wrapperTyp ∈ wrappableKinds) := by
  have h2 := resolveRules_wrappable typ rules res hres
  by_cases hw : res.wrapped = true
  · simp only [hw, if_true] at ho
    have hk : res.ruleType ∈ wrappableKinds := by
      have h3 := h2.2
      cases hwr : wrappable rules.GetType with
      | none =>
        simp only [hwr] at h3
        rw [h3.1] at hw
        exact absurd hw (by simp)
      | some kd =>
        obtain ⟨k, d⟩ := kd
        simp only [hwr] at h3
        obtain ⟨t, _, hr, hd, _⟩ := h3
        rw [hr]
        exact scalarKind_mem d k hd
    have hne : res.ruleType ≠ "" := by
      intro he
      rw [he] at hk
      exact absurd hk (by decide)
    subst ho
    exact ⟨⟨fun _ => hne, fun _ => rfl⟩, fun _ => hk⟩
  · simp only [hw] at ho
    subst ho
    exact ⟨⟨fun h => absurd h h2.1, fun h => absurd rfl h⟩, fun h => absurd rfl h⟩

/-- C19. Wrapper well-formedness.  Every descriptor rulesContext or Elem return
(with or without an error) has kind "wrapper" exactly when its wrappedKind is
not empty, and a wrappedKind that is not empty is one of float, double, int32,
int64, uint32, uint64, bool, string, bytes.  Every descriptor Key or Unwrap
return has an empty wrappedKind.  So Unwrap on a wrapper descriptor returned by
rulesContext or Elem returns no error and a descriptor whose kind is one of the
nine and not "wrapper", and Unwrap on that descriptor returns an error. -/
theorem wrapper_wellFormed :
    (∀ (g : GenCtx) (f : Field) (out : RuleContext) (err : Option Err),
      rulesContext g f = some (out, err) →
      (out.typ = "wrapper" ↔ out.wrapperTyp ≠ "") ∧
      (out.wrapperTyp ≠ "" → out.wrapperTyp ∈ wrappableKinds)) ∧
    (∀ (ctx out : RuleContext) (err : Option Err) (name idx : String),
      ctx.Elem name idx = some (out, err) →
      (out.typ = "wrapper" ↔ out.wrapperTyp ≠ "") ∧
      (out.wrapperTyp ≠ "" → out.wrapperTyp ∈ wrappableKinds)) ∧
    (∀ (ctx out : RuleContext) (err : Option Err) (name idx : String),
      ctx.Key name idx = some (out, err) → out.wrapperTyp = "") ∧
    (∀ (ctx : RuleContext) (name : String), (ctx.Unwrap name).1.wrapperTyp = "") ∧
    (∀ (out : RuleContext) (name name' : String),
      ((out.typ = "wrapper" ↔ out.wrapperTyp ≠ "") ∧
        (out.wrapperTyp ≠ "" → out.wrapperTyp ∈ wrappableKinds)) →
      out.typ = "wrapper" →
      (out.Unwrap name).2 = none ∧ (out.Unwrap name).1.typ ∈ wrappableKinds ∧
      (out.Unwrap name).1.typ ≠ "wrapper" ∧
      ((out.Unwrap name).1.Unwrap name').2 = some (.cannotUnwrap out.wrapperTyp)) := by
  refine ⟨?_, ?_, ?_, ?_, ?_⟩
  · intro g f out err h
    rcases rulesContext_cases g f out err h with ⟨ho, _⟩ | ⟨rules, r, hres, ho, _⟩
    · subst ho
      simp
    · exact wrapper_step_wellFormed _ _ r (some f) "" "" out hres ho
  · intro ctx out err name idx h
    unfold RuleContext.Elem at h
    simp only at h
    split at h
    · simp only [Option.some.injEq, Prod.mk.injEq] at h
      rw [← h.1]
      simp
    · split at h
      · exact absurd h (by simp)
      · split at h
        · exact absurd h (by simp)
        · rename_i res hres
          simp only [Option.some.injEq, Prod.mk.injEq] at h
          exact wrapper_step_wellFormed _ _ res ctx.field idx name out hres h.1.symm
  · intro ctx out err name idx h
    unfold RuleContext.Key at h
    split at h
    · split at h
      · exact absurd h (by simp)
      · split at h
        · exact absurd h (by simp)
        · simp only [Option.some.injEq, Prod.mk.injEq] at h
          rw [← h.1]
    · simp only [Option.some.injEq, Prod.mk.injEq] at h
      rw [← h.1]
      rfl
  · intro ctx name
    by_cases h : ctx.typ = "wrapper" <;> simp [RuleContext.Unwrap, h, RuleContext.zero]
  · intro out name name' hwf ht
    have hne : out.wrapperTyp ≠ "" := hwf.1.1 ht
    have hk : out.wrapperTyp ∈ wrappableKinds := hwf.2 hne
    have hnw : out.wrapperTyp ≠ "wrapper" := by
      intro he
      rw [he] at hk
      exact absurd hk (by decide)
    have hU : out.Unwrap name =
        (⟨out.field, out.rules, out.messageRules, out.wrapperTyp, "", false, "", name⟩, none) := by
      simp [RuleContext.Unwrap, ht]
    rw [hU]
    refine ⟨rfl, hk, hnw, ?_⟩
    simp [RuleContext.Unwrap, hnw]

/-- Witness of C19: the descriptor of `count` is a wrapper around int32 rules;
it unwraps once and not twice. -/
theorem wrapper_wellFormed_witness :
    rulesContext GenCtx.empty wrappedInt32Field = some (wrappedInt32Context, none) ∧
    (wrappedInt32Context.typ = "wrapper" ↔ wrappedInt32Context.wrapperTyp ≠ "") ∧
    (wrappedInt32Context.wrapperTyp ≠ "" → wrappedInt32Context.wrapperTyp ∈ wrappableKinds) ∧
    (wrappedInt32Context.Unwrap "value").2 = none ∧
    (wrappedInt32Context.Unwrap "value").1.typ ∈ wrappableKinds ∧
    (wrappedInt32Context.Unwrap "value").1.typ ≠ "wrapper" ∧
    ((wrappedInt32Context.Unwrap "value").1.Unwrap "value").2 =
      some (.cannotUnwrap wrappedInt32Context.wrapperTyp) :=
  have h : rulesContext GenCtx.empty wrappedInt32Field = some (wrappedInt32Context, none) := by
    decide
  have hwf := wrapper_wellFormed.1 GenCtx.empty wrappedInt32Field wrappedInt32Context none h
  ⟨h, hwf.1, hwf.2,
    wrapper_wellFormed.2.2.2.2 wrappedInt32Context "value" "value" hwf rfl⟩

/-! ## The name field of a resource -/

/-- C20, the code on a resource's own unannotated name field.  For a field
without rule annotation and without a resolvable resource reference: if the
owning message carries a resource descriptor, the name of the field is the
descriptor's name field (the override when it is not empty, "name" otherwise)
and no pattern of the descriptor has an empty segment, rulesContext returns no
error and the descriptor whose payload is the string rule with the regular
expression of the patterns, which is what basicResourceValidation returns, and
ignore-empty true, of kind "string", or "wrapper" with wrappedKind "string"
when the field is an embedded message: so for the field `name` of `User`.  If
a pattern of the descriptor has an empty segment, rulesContext panics: so for
the field `name` of `Folder`, whose pattern is `a//b`.  If the message has no
resource descriptor, or the name is another, rulesContext returns what
resolveRules yields for the type of the field and an empty payload, without
error and unwrapped. -/
theorem name_field_from_patterns :
    (∀ (g : GenCtx) (f : Field) (desc : ResourceDescriptor),
      f.rules = .absent → SearchResourceReference g f = none →
      f.messageResource = .present desc → f.name = resourceNameField desc.nameField →
      ((∀ p ∈ desc.pattern, [] ∉ splitSlash p) →
        basicResourceValidation desc =
          some ⟨some (patternsRegex desc.pattern), some true, []⟩ ∧
        rulesContext g f =
          some (if f.typ.isEmbed = true then
              ⟨some f, .stringRules ⟨some (patternsRegex desc.pattern), some true, []⟩, none,
                "wrapper", "string", false, "", ""⟩
            else ⟨some f, .stringRules ⟨some (patternsRegex desc.pattern), some true, []⟩, none,
              "string", "", false, "", ""⟩, none)) ∧
      ((∃ p ∈ desc.pattern, [] ∈ splitSlash p) →
        basicResourceValidation desc = none ∧ rulesContext g f = none)) ∧
    (∀ (g : GenCtx) (f : Field),
      f.rules = .absent → SearchResourceReference g f = none →
      (f.messageResource = .absent ∨
        ∃ desc, f.messageResource = .present desc ∧
          f.name ≠ resourceNameField desc.nameField) →
      rulesContext g f =
        (resolveRules (some (.fieldType f.typ)) (.ptr emptyRules)).map fun r =>
          (⟨some f, r.rule, r.messageRule, r.ruleType, "", false, "", ""⟩, none)) ∧
    (resourceNameField "" = "name" ∧ ∀ s, s ≠ "" → resourceNameField s = s) ∧
    (userNameField.rules = .absent ∧ SearchResourceReference GenCtx.empty userNameField = none ∧
      userNameField.messageResource = .present userResource ∧
      userNameField.name = resourceNameField userResource.nameField ∧
      rulesContext GenCtx.empty userNameField =
        some (⟨some userNameField, .stringRules userPatternRule, none, "string", "", false, "",
          ""⟩, none)) ∧
    (folderNameField.rules = .absent ∧
      SearchResourceReference GenCtx.empty folderNameField = none ∧
      folderNameField.messageResource = .present folderResource ∧
      folderNameField.name = resourceNameField folderResource.nameField ∧
      folderResource.pattern = ["a//b".toList] ∧
      rulesContext GenCtx.empty folderNameField = none ∧
      rulesContext folderIndex folderNameField = none) := by
  refine ⟨?_, ?_, ?_, by decide, by decide⟩
  · intro g f desc hr hs hm hn
    constructor
    · intro hp
      have hb := basicResourceValidation_eq desc hp
      refine ⟨hb, ?_⟩
      rw [rulesContext_eq]
      simp only [hr, hm, hn, if_true, hb, Option.map_some', hs]
      cases he : f.typ.isEmbed <;>
        simp [resolveRules, FieldRulesPtr.GetType, FieldRules.type, IsEmbed, Typ.isEmbed, he,
          FieldRulesPtr.Message, FieldRules.message]
    · intro hp
      have hb := basicResourceValidation_panics desc hp
      refine ⟨hb, ?_⟩
      rw [rulesContext_eq]
      simp only [hr, hm, hn, if_true, hb, Option.map_none']
  · intro g f hr hs hm
    cases hres : resolveRules (some (.fieldType f.typ)) (.ptr emptyRules) with
    | none =>
      rw [rulesContext_eq]
      rcases hm with hm | ⟨desc, hm, hn⟩
      · simp only [hr, hm, hs, hres, Option.map_none']
      · simp only [hr, hm, hn, if_false, hs, hres, Option.map_none']
    | some r =>
      have habs := resolveRules_absent (some (.fieldType f.typ)) (.ptr emptyRules) r rfl hres
      have hw : r.wrapped = false ∧ r.ruleType ≠ "error" := by
        rcases habs with h | h | h | h <;> subst h <;> simp
      rw [rulesContext_eq]
      rcases hm with hm | ⟨desc, hm, hn⟩
      · simp [hr, hm, hs, hres, hw.1, hw.2]
      · simp [hr, hm, hn, hs, hres, hw.1, hw.2]
  · constructor
    · rfl
    · intro s hs
      simp [resourceNameField, hs]
end PGV
